import Mathlib

set_option maxHeartbeats 1000000
set_option maxRecDepth 8000

/-!
Verification development for the `relationalize` library: a shallow
embedding in Lean 4 of the relationalizer (`relationalize.py`), the type
lattice (`types.py`) and the schema inference engine (`schema.py`),
together with theorems settling the specification claims about them.

Python values parsed from JSON are modelled by `PyVal`; Python `dict`s
are modelled as insertion-ordered association lists with the Python
update semantics (assigning to an existing key keeps its position,
assigning a new key appends).  Python floats are modelled as rationals
(every IEEE double is a rational; `float.is_integer` becomes
`den = 1`).  External library calls are modelled as explicitly noted at
each definition (`uuid.uuid4().hex` as a deterministic counter-driven
supply of 32 hex characters, `json.dumps`/`json.loads` and
`datetime.strptime` by faithful executable translations of their
behaviour on the inputs this library feeds them).
-/

/-- A JSON-like Python runtime value: `None`, `bool`, `int`, `float`
(modelled as a rational), `str`, `list`, or string-keyed `dict`
(modelled as an insertion-ordered association list). -/
inductive PyVal where
  | none
  | bool (b : Bool)
  | int (n : Int)
  | float (q : ℚ)
  | str (s : String)
  | list (xs : List PyVal)
  | dict (entries : List (String × PyVal))
  deriving Repr

/-- A flat row, as produced by the relationalizer: a Python dict from
column names to values. -/
abbrev Row := List (String × PyVal)

/-- One emitted row, tagged with the output identifier (table name) it
was written to. -/
abbrev Write := String × Row

/-- Python `key in d` for a dict `d`. -/
def rowHasKey (r : Row) (k : String) : Bool := r.any (fun p => p.1 == k)

/-- Python `d[key]` for a dict `d` (first binding wins; Python dicts
have unique keys). -/
def rowLookup (r : Row) (k : String) : Option PyVal :=
  match r with
  | [] => Option.none
  | p :: rest => if p.1 == k then some p.2 else rowLookup rest k

/-- Python `d[key] = v`: replace in place if the key is present
(keeping its position), append otherwise. -/
def dUpd (r : Row) (k : String) (v : PyVal) : Row :=
  if rowHasKey r k then r.map (fun p => if p.1 == k then (k, v) else p)
  else r ++ [(k, v)]

/-- Python `d.update(e)`. -/
def dUpdMany (r : Row) (more : Row) : Row :=
  more.foldl (fun acc p => dUpd acc p.1 p.2) r

mutual
/-- Size measure on `PyVal`, weighted so that the synthetic dicts built
by `_list_helper` (an array element plus the two injected scalar
columns) are strictly smaller than the enclosing list. -/
def sz : PyVal → Nat
  | .list xs => 5 + szL xs
  | .dict l => 1 + szE l
  | _ => 0

/-- Size of a list of values (each element weighted by 5). -/
def szL : List PyVal → Nat
  | [] => 0
  | x :: xs => sz x + 5 + szL xs

/-- Size of a dict's entry list (each entry weighted by 1). -/
def szE : List (String × PyVal) → Nat
  | [] => 0
  | p :: ps => sz p.2 + 1 + szE ps
end

/-- A single-quote character, used by the Python `str()` rendering. -/
def squote : String := String.mk [Char.ofNat 39]

/-- An opening-brace character, used by the Python `str()` rendering. -/
def obrace : String := "\x7b"

/-- A closing-brace character, used by the Python `str()` rendering. -/
def cbrace : String := "\x7d"

mutual
/-- Python `repr` of a parsed-JSON value, used by `str(list)` /
`str(dict)` in the stringification options.  The spec declares this
rendering implementation-defined; no claim depends on its exact output,
so the float rendering and string-escaping are simplified (strings are
wrapped in single quotes without escaping). -/
def pyRepr : PyVal → String
  | .none => "None"
  | .bool true => "True"
  | .bool false => "False"
  | .int n => toString n
  | .float q => toString q.num ++ "/" ++ toString q.den
  | .str s => squote ++ s ++ squote
  | .list xs => "[" ++ pyReprList xs ++ "]"
  | .dict l => obrace ++ pyReprEntries l ++ cbrace

/-- Comma-separated rendering of list elements. -/
def pyReprList : List PyVal → String
  | [] => ""
  | [x] => pyRepr x
  | x :: xs => pyRepr x ++ ", " ++ pyReprList xs

/-- Comma-separated rendering of dict entries. -/
def pyReprEntries : List (String × PyVal) → String
  | [] => ""
  | [p] => squote ++ p.1 ++ squote ++ ": " ++ pyRepr p.2
  | p :: ps => squote ++ p.1 ++ squote ++ ": " ++ pyRepr p.2 ++ ", " ++ pyReprEntries ps
end

/-- Python `str()` applied to a parsed-JSON value. -/
def pyStr : PyVal → String
  | .str s => s
  | v => pyRepr v

/-- The sixteen lowercase hex digit characters, by value. -/
def hexDigitChar (n : Nat) : Char :=
  if n < 10 then Char.ofNat (48 + n) else Char.ofNat (87 + n)

/-- Thirty-two lowercase hex characters encoding `n` (big-endian,
zero-padded), standing in for `uuid4().hex`. -/
def hex32 (n : Nat) : List Char :=
  (List.range 32).map (fun i => hexDigitChar (n / 16 ^ (31 - i) % 16))

/-- Models `Relationalize._generate_rid`.  The source returns
`f"R_{uuid4().hex}"`; the external randomness of `uuid.uuid4().hex`
(always 32 lowercase hex characters) is modelled as a deterministic
counter-driven supply of 32-hex strings. -/
def generate_rid (counter : Nat) : String := "R_" ++ String.mk (hex32 counter)

/-- Configuration of a `Relationalize` instance: the root table name
and the two stringification flags (`__init__` in `relationalize.py`). -/
structure RelCfg where
  name : String
  stringify_arrays : Bool
  stringify_objects : Bool

/-- The dict `_list_helper` builds for one array element: a dict
element gets the `_rid_`/`_index_` columns written into a copy of
itself (Python dict assignment: replace in place or append); any other
element is wrapped as `_val_` with the two system columns. -/
def listHelperRow (rid : String) (idx : Nat) : PyVal → PyVal
  | .dict l => .dict (dUpd (dUpd l "_rid_" (.str rid)) "_index_" (.int idx))
  | other => .dict [("_val_", other), ("_rid_", .str rid), ("_index_", .int idx)]

/-- The three mutually recursive loops of `_relationalize`, packaged as
a triple so the recursion can be purely structural on the fuel: `fv` is
the recursive backbone on a value, `fe` the dict-entry loop, `fl` the
array-element loop. -/
structure RelPack where
  fv : Nat → PyVal → String → Bool → String → Row × Nat × List Write
  fe : Nat → List (String × PyVal) → String → Bool → String → Row → Row × Nat × List Write
  fl : Nat → List PyVal → Nat → String → String → Nat × List (List Write × Row)

/-- Models `Relationalize._relationalize` together with its dict and
array loops (`_list_helper`).  State is passed explicitly: the `Nat`
component is the RID-supply counter, and the returned `List Write`
holds the subordinate rows written during the call, in write order.
Fuel is consumed on every recursive call so the recursion is structural
(and so kernel-reducible); the `sz` measure below bounds the fuel every
wrapper supplies, so the fuel-exhausted branches are never semantically
reachable. -/
def relPack (cfg : RelCfg) : Nat → RelPack
  | 0 =>
    { fv := fun c _ _ _ _ => ([], c, [])
      fe := fun c _ _ _ _ acc => (acc, c, [])
      fl := fun c _ _ _ _ => (c, []) }
  | fuel + 1 =>
    let prev := relPack cfg fuel
    { fv := fun c d path fromArray tablePath =>
        match d with
        | .list xs =>
          if xs.length = 0 then ([(path, .none)], c, [])
          else if cfg.stringify_arrays then ([(path, .str (pyStr (.list xs)))], c, [])
          else
            let rid := generate_rid c
            let res := prev.fl (c + 1) xs 0 rid path
            let keyPath := if tablePath ≠ "" then tablePath else path
            ([(path, .str rid)], res.1,
              (res.2.map (fun ch => ch.1 ++ [(cfg.name ++ "_" ++ keyPath, ch.2)])).flatten)
        | .dict l =>
          if path ≠ "" ∧ cfg.stringify_objects then ([(path, .str (pyStr (.dict l)))], c, [])
          else
            let pfx := if path = "" ∨ fromArray then "" else path ++ "_"
            prev.fe c l pfx fromArray tablePath []
        | v => ([(path, v)], c, [])
      fe := fun c l pfx fromArray tablePath acc =>
        match l with
        | [] => (acc, c, [])
        | (k, v) :: rest =>
          let ttp := if fromArray then tablePath ++ "_" ++ k else ""
          let r₁ := prev.fv c v (pfx ++ k) false ttp
          let r₂ := prev.fe r₁.2.1 rest pfx fromArray tablePath (dUpdMany acc r₁.1)
          (r₂.1, r₂.2.1, r₁.2.2 ++ r₂.2.2)
      fl := fun c es idx rid path =>
        match es with
        | [] => (c, [])
        | e :: rest =>
          let r₁ := prev.fv c (listHelperRow rid idx e) path true path
          let r₂ := prev.fl r₁.2.1 rest (idx + 1) rid path
          (r₂.1, (r₁.2.2, r₁.1) :: r₂.2) }

/-- The value loop of `_relationalize` at a given fuel. -/
def relFuel (cfg : RelCfg) (fuel : Nat) (c : Nat) (d : PyVal) (path : String) (fromArray : Bool) (tablePath : String) : Row × Nat × List Write :=
  (relPack cfg fuel).fv c d path fromArray tablePath

/-- The dict-entry loop of `_relationalize` at a given fuel. -/
def relEntries (cfg : RelCfg) (fuel : Nat) (c : Nat) (l : List (String × PyVal)) (pfx : String) (fromArray : Bool) (tablePath : String) (acc : Row) : Row × Nat × List Write :=
  (relPack cfg fuel).fe c l pfx fromArray tablePath acc

/-- The array-element loop of `_relationalize` at a given fuel. -/
def relElems (cfg : RelCfg) (fuel : Nat) (c : Nat) (es : List PyVal) (idx : Nat) (rid : String) (path : String) : Nat × List (List Write × Row) :=
  (relPack cfg fuel).fl c es idx rid path

/-- Models `Relationalize.relationalize` for a single document: the
recursive flattening followed by the write of the produced flat row to
the root table.  Fuel is instantiated above the `sz` measure.  Returns
the final RID counter and the full write list in emission order. -/
def relationalizeOne (cfg : RelCfg) (c : Nat) (d : PyVal) : Nat × List Write :=
  let r := relFuel cfg (sz d + 1) c d "" false ""
  (r.2.1, r.2.2 ++ [(cfg.name, r.1)])

/-! ### The type lattice (`types.py`) -/

/-- Python `pre in s` restricted to the head, i.e. `s.startswith(pre)`. -/
def pyStartsWith (s pre : String) : Bool := pre.data.isPrefixOf s.data

/-- Python substring containment `needle in hay`. -/
def strContains (hay needle : String) : Bool :=
  (List.range (hay.data.length + 1)).any (fun i => needle.data.isPrefixOf (hay.data.drop i))

/-- Models `types.is_unsupported_column_type`. -/
def is_unsupported_column_type (column : String) : Bool :=
  pyStartsWith column ("unsupported:")

/-- Models `types.is_choice_column_type`. -/
def is_choice_column_type (column : String) : Bool := pyStartsWith column ("c-")

/-- Lower bound of the 32-bit signed integer range (`types.INT_MIN`). -/
def INT_MIN : Int := -2147483648

/-- Upper bound of the 32-bit signed integer range (`types.INT_MAX`). -/
def INT_MAX : Int := 2147483647

/-- Models `types.parse_type_int`. -/
def parse_type_int (value : Int) : String :=
  if value < INT_MIN ∨ value > INT_MAX then "bigint" else "int"

/-- Value of an ASCII decimal digit character (the literal classes
`[0-9]`, `[0-5]`, `[1-2]` etc. of the `_strptime` patterns are
ASCII-only). -/
def dval (c : Char) : Nat := c.toNat - 48

/-- Python's Unicode-aware regex `\d` (character category `Nd`)
together with the decimal value `int()` reads for it, as the ranges of
the Unicode data CPython 3.11 ships.  `re` module `\d` on `str`
patterns and `int()` both accept exactly these characters. -/
def udival (c : Char) : Option Nat :=
  let n := c.toNat
  if 48 ≤ n ∧ n ≤ 57 then some (n - 48)
  else if 1632 ≤ n ∧ n ≤ 1641 then some (n - 1632)
  else if 1776 ≤ n ∧ n ≤ 1785 then some (n - 1776)
  else if 1984 ≤ n ∧ n ≤ 1993 then some (n - 1984)
  else if 2406 ≤ n ∧ n ≤ 2415 then some (n - 2406)
  else if 2534 ≤ n ∧ n ≤ 2543 then some (n - 2534)
  else if 2662 ≤ n ∧ n ≤ 2671 then some (n - 2662)
  else if 2790 ≤ n ∧ n ≤ 2799 then some (n - 2790)
  else if 2918 ≤ n ∧ n ≤ 2927 then some (n - 2918)
  else if 3046 ≤ n ∧ n ≤ 3055 then some (n - 3046)
  else if 3174 ≤ n ∧ n ≤ 3183 then some (n - 3174)
  else if 3302 ≤ n ∧ n ≤ 3311 then some (n - 3302)
  else if 3430 ≤ n ∧ n ≤ 3439 then some (n - 3430)
  else if 3558 ≤ n ∧ n ≤ 3567 then some (n - 3558)
  else if 3664 ≤ n ∧ n ≤ 3673 then some (n - 3664)
  else if 3792 ≤ n ∧ n ≤ 3801 then some (n - 3792)
  else if 3872 ≤ n ∧ n ≤ 3881 then some (n - 3872)
  else if 4160 ≤ n ∧ n ≤ 4169 then some (n - 4160)
  else if 4240 ≤ n ∧ n ≤ 4249 then some (n - 4240)
  else if 6112 ≤ n ∧ n ≤ 6121 then some (n - 6112)
  else if 6160 ≤ n ∧ n ≤ 6169 then some (n - 6160)
  else if 6470 ≤ n ∧ n ≤ 6479 then some (n - 6470)
  else if 6608 ≤ n ∧ n ≤ 6617 then some (n - 6608)
  else if 6784 ≤ n ∧ n ≤ 6793 then some (n - 6784)
  else if 6800 ≤ n ∧ n ≤ 6809 then some (n - 6800)
  else if 6992 ≤ n ∧ n ≤ 7001 then some (n - 6992)
  else if 7088 ≤ n ∧ n ≤ 7097 then some (n - 7088)
  else if 7232 ≤ n ∧ n ≤ 7241 then some (n - 7232)
  else if 7248 ≤ n ∧ n ≤ 7257 then some (n - 7248)
  else if 42528 ≤ n ∧ n ≤ 42537 then some (n - 42528)
  else if 43216 ≤ n ∧ n ≤ 43225 then some (n - 43216)
  else if 43264 ≤ n ∧ n ≤ 43273 then some (n - 43264)
  else if 43472 ≤ n ∧ n ≤ 43481 then some (n - 43472)
  else if 43504 ≤ n ∧ n ≤ 43513 then some (n - 43504)
  else if 43600 ≤ n ∧ n ≤ 43609 then some (n - 43600)
  else if 44016 ≤ n ∧ n ≤ 44025 then some (n - 44016)
  else if 65296 ≤ n ∧ n ≤ 65305 then some (n - 65296)
  else if 66720 ≤ n ∧ n ≤ 66729 then some (n - 66720)
  else if 68912 ≤ n ∧ n ≤ 68921 then some (n - 68912)
  else if 69734 ≤ n ∧ n ≤ 69743 then some (n - 69734)
  else if 69872 ≤ n ∧ n ≤ 69881 then some (n - 69872)
  else if 69942 ≤ n ∧ n ≤ 69951 then some (n - 69942)
  else if 70096 ≤ n ∧ n ≤ 70105 then some (n - 70096)
  else if 70384 ≤ n ∧ n ≤ 70393 then some (n - 70384)
  else if 70736 ≤ n ∧ n ≤ 70745 then some (n - 70736)
  else if 70864 ≤ n ∧ n ≤ 70873 then some (n - 70864)
  else if 71248 ≤ n ∧ n ≤ 71257 then some (n - 71248)
  else if 71360 ≤ n ∧ n ≤ 71369 then some (n - 71360)
  else if 71472 ≤ n ∧ n ≤ 71481 then some (n - 71472)
  else if 71904 ≤ n ∧ n ≤ 71913 then some (n - 71904)
  else if 72016 ≤ n ∧ n ≤ 72025 then some (n - 72016)
  else if 72784 ≤ n ∧ n ≤ 72793 then some (n - 72784)
  else if 73040 ≤ n ∧ n ≤ 73049 then some (n - 73040)
  else if 73120 ≤ n ∧ n ≤ 73129 then some (n - 73120)
  else if 92768 ≤ n ∧ n ≤ 92777 then some (n - 92768)
  else if 92864 ≤ n ∧ n ≤ 92873 then some (n - 92864)
  else if 93008 ≤ n ∧ n ≤ 93017 then some (n - 93008)
  else if 120782 ≤ n ∧ n ≤ 120791 then some (n - 120782)
  else if 120792 ≤ n ∧ n ≤ 120801 then some (n - 120792)
  else if 120802 ≤ n ∧ n ≤ 120811 then some (n - 120802)
  else if 120812 ≤ n ∧ n ≤ 120821 then some (n - 120812)
  else if 120822 ≤ n ∧ n ≤ 120831 then some (n - 120822)
  else if 123200 ≤ n ∧ n ≤ 123209 then some (n - 123200)
  else if 123632 ≤ n ∧ n ≤ 123641 then some (n - 123632)
  else if 125264 ≤ n ∧ n ≤ 125273 then some (n - 125264)
  else if 130032 ≤ n ∧ n ≤ 130041 then some (n - 130032)
  else Option.none

/-- Python `re` semantics for `.*$` after the fixed prefix of
`DATETIME_REGEX`: `.` does not cross a newline and `$` matches at the
end of the string or just before a final newline, so the tail may
contain no newline except as its last character. -/
def noLFexceptLast : List Char → Bool
  | [] => true
  | [_] => true
  | c :: rest => c ≠ '\n' && noLFexceptLast rest

/-- Models `re.match(DATETIME_REGEX, value)` for
`DATETIME_REGEX = ^\d4-\d2-\d2[T ]\d2:\d2:\d2.*$` (digit counts
abbreviated): a fixed 19-character prefix shape followed by an
unconstrained tail without interior newlines.  `\d` is Unicode-aware
(`udival`). -/
def dtRegexMatch : List Char → Bool
  | y1 :: y2 :: y3 :: y4 :: '-' :: m1 :: m2 :: '-' :: d1 :: d2 :: sep :: h1 :: h2 :: ':' :: n1 :: n2 :: ':' :: s1 :: s2 :: rest =>
      ((udival y1).isSome && (udival y2).isSome && (udival y3).isSome && (udival y4).isSome &&
       (udival m1).isSome && (udival m2).isSome && (udival d1).isSome && (udival d2).isSome &&
       (udival h1).isSome && (udival h2).isSome && (udival n1).isSome && (udival n2).isSome &&
       (udival s1).isSome && (udival s2).isSome && (sep = 'T' || sep = ' ')) && noLFexceptLast rest
  | _ => false

/-- Tokens of the `strptime` format strings used by
`DATETIME_VALID_FORMATS`: literal characters and the directives
`%Y %m %d %H %M %S %f %z`. -/
inductive FTok where
  | lit (c : Char)
  | Y | m | d | H | M | S | f | z
  deriving Repr, DecidableEq

/-- Candidate parses of the `%z` directive, per CPython's `_strptime`
regex `[+-]\d\d:?[0-5]\d(:?[0-5]\d(\.\d\x7b1,6\x7d)?)?|(?-i:Z)` in
backtracking order (greedy, later choice points varying first): the
hour and fraction digits and the second digit of the minute and second
fields are Unicode `\d`, the leading minute/second digits the ASCII
class `[0-5]`.  The captured value is the signed offset in
microseconds, assembled as the `z` post-processing of `_strptime`
does (hours, minutes, seconds and fraction read by `int()`, the sign
applied last).  A candidate that mixes `:`-separated and compact
fields is rejected by that post-processing (an "Inconsistent use of :"
or `int()` `ValueError`) without regex re-matching; the model drops
such candidates, which coincides with the commit-then-raise behaviour
because `%z` ends every format that uses it and the surviving
candidates consume strictly less input. -/
def zParses (cs : List Char) : List (Int × List Char) :=
  (match cs with
   | sgn :: h1 :: h2 :: afterH =>
     match udival h1, udival h2 with
     | some vh1, some vh2 =>
       if sgn = '+' || sgn = '-' then
         let hh : Nat := vh1 * 10 + vh2
         let signed : Nat → Int := fun mag => if sgn = '-' then -(mag : Int) else (mag : Int)
         let minuteAlts : List (Bool × Nat × List Char) :=
           (match afterH with
            | ':' :: m1 :: m2 :: r =>
                match udival m2 with
                | some vm2 =>
                  if m1.isDigit && dval m1 ≤ 5 then [(true, dval m1 * 10 + vm2, r)] else []
                | Option.none => []
            | _ => []) ++
           (match afterH with
            | m1 :: m2 :: r =>
                match udival m2 with
                | some vm2 =>
                  if m1.isDigit && dval m1 ≤ 5 then [(false, dval m1 * 10 + vm2, r)] else []
                | Option.none => []
            | _ => [])
         let fracAlts : List Char → List (Nat × List Char) := fun r =>
           (match r with
            | '.' :: ds =>
              let run := (ds.takeWhile (fun c => (udival c).isSome)).length
              let maxk := min 6 run
              (List.range maxk).map (fun j =>
                let k := maxk - j
                (((ds.take k).foldl (fun acc c => acc * 10 + (udival c).getD 0) 0) * 10 ^ (6 - k),
                 ds.drop k))
            | _ => []) ++ [(0, r)]
         let secAlts : List Char → List (Option (Bool × Nat × Nat) × List Char) := fun r =>
           ((match r with
             | ':' :: s1 :: s2 :: r₂ =>
                 match udival s2 with
                 | some vs2 =>
                   if s1.isDigit && dval s1 ≤ 5 then
                     (fracAlts r₂).map (fun fr => (some (true, dval s1 * 10 + vs2, fr.1), fr.2))
                   else []
                 | Option.none => []
             | _ => []) ++
            (match r with
             | s1 :: s2 :: r₂ =>
                 match udival s2 with
                 | some vs2 =>
                   if s1.isDigit && dval s1 ≤ 5 then
                     (fracAlts r₂).map (fun fr => (some (false, dval s1 * 10 + vs2, fr.1), fr.2))
                   else []
                 | Option.none => []
             | _ => [])) ++ [(Option.none, r)]
         minuteAlts.flatMap (fun ma =>
           (secAlts ma.2.2).filterMap (fun sa =>
             match sa.1 with
             | some s =>
               if s.1 = ma.1 then
                 some (signed ((hh * 3600 + ma.2.1 * 60 + s.2.1) * 1000000 + s.2.2), sa.2)
               else Option.none
             | Option.none => some (signed ((hh * 3600 + ma.2.1 * 60) * 1000000), sa.2)))
       else []
     | _, _ => []
   | _ => []) ++
  (match cs with
   | 'Z' :: r => [((0 : Int), r)]
   | _ => [])

/-- Candidate parses of one format token at the head of the input, in
the order the CPython `_strptime` regex engine would try them, each
with its captured value and the remaining input.  The alternations are
those of `_strptime.TimeRE` (Python 3.11): literal classes such as
`[0-9]`, `[0-5]`, `2[0-3]` are ASCII, every `\d` is Unicode-aware, and
`%d` carries the trailing `  [1-9]`-style blank-padded alternative. -/
def tokParses : FTok → List Char → List (Int × List Char)
  | .lit c, x :: rest => if x = c then [((0 : Int), rest)] else []
  | .lit _, [] => []
  | .Y, a :: b :: c :: d :: rest =>
      (match udival a, udival b, udival c, udival d with
       | some va, some vb, some vc, some vd =>
           [(((va * 1000 + vb * 100 + vc * 10 + vd : Nat) : Int), rest)]
       | _, _, _, _ => [])
  | .Y, _ => []
  | .m, cs =>
      (match cs with
       | a :: b :: rest =>
          (if a = '1' && b.isDigit && dval b ≤ 2 then [(((10 + dval b : Nat) : Int), rest)] else []) ++
          (if a = '0' && b.isDigit && 1 ≤ dval b then [(((dval b : Nat) : Int), rest)] else [])
       | _ => []) ++
      (match cs with
       | a :: rest => if a.isDigit && 1 ≤ dval a then [(((dval a : Nat) : Int), rest)] else []
       | _ => [])
  | .d, cs =>
      (match cs with
       | a :: b :: rest =>
          (if a = '3' && b.isDigit && dval b ≤ 1 then [(((30 + dval b : Nat) : Int), rest)] else []) ++
          (match udival b with
           | some vb => if a = '1' || a = '2' then [(((dval a * 10 + vb : Nat) : Int), rest)] else []
           | Option.none => []) ++
          (if a = '0' && b.isDigit && 1 ≤ dval b then [(((dval b : Nat) : Int), rest)] else [])
       | _ => []) ++
      (match cs with
       | a :: rest => if a.isDigit && 1 ≤ dval a then [(((dval a : Nat) : Int), rest)] else []
       | _ => []) ++
      (match cs with
       | a :: b :: rest =>
          if a = ' ' && b.isDigit && 1 ≤ dval b then [(((dval b : Nat) : Int), rest)] else []
       | _ => [])
  | .H, cs =>
      (match cs with
       | a :: b :: rest =>
          (if a = '2' && b.isDigit && dval b ≤ 3 then [(((20 + dval b : Nat) : Int), rest)] else []) ++
          (match udival b with
           | some vb => if a = '0' || a = '1' then [(((dval a * 10 + vb : Nat) : Int), rest)] else []
           | Option.none => [])
       | _ => []) ++
      (match cs with
       | a :: rest =>
          (match udival a with
           | some va => [(((va : Nat) : Int), rest)]
           | Option.none => [])
       | _ => [])
  | .M, cs =>
      (match cs with
       | a :: b :: rest =>
          (match udival b with
           | some vb =>
             if a.isDigit && dval a ≤ 5 then [(((dval a * 10 + vb : Nat) : Int), rest)] else []
           | Option.none => [])
       | _ => []) ++
      (match cs with
       | a :: rest =>
          (match udival a with
           | some va => [(((va : Nat) : Int), rest)]
           | Option.none => [])
       | _ => [])
  | .S, cs =>
      (match cs with
       | a :: b :: rest =>
          (if a = '6' && b.isDigit && dval b ≤ 1 then [(((60 + dval b : Nat) : Int), rest)] else []) ++
          (match udival b with
           | some vb =>
             if a.isDigit && dval a ≤ 5 then [(((dval a * 10 + vb : Nat) : Int), rest)] else []
           | Option.none => [])
       | _ => []) ++
      (match cs with
       | a :: rest =>
          (match udival a with
           | some va => [(((va : Nat) : Int), rest)]
           | Option.none => [])
       | _ => [])
  | .f, cs =>
      let run := (cs.takeWhile Char.isDigit).length
      let maxk := min 6 run
      (List.range maxk).map (fun j => let k := maxk - j; ((0 : Int), cs.drop k))
  | .z, cs => zParses cs

/-- The captured calendar fields of one `strptime` run, with CPython's
defaults (year 1900, January 1st, midnight, no offset). -/
structure DTParts where
  y : Nat := 1900
  mo : Nat := 1
  dy : Nat := 1
  hh : Nat := 0
  mi : Nat := 0
  ss : Nat := 0
  off : Option Int := Option.none
  deriving Repr, DecidableEq

/-- Record one directive's captured value. -/
def updParts (st : DTParts) : FTok → Int → DTParts
  | .Y, v => { st with y := v.toNat }
  | .m, v => { st with mo := v.toNat }
  | .d, v => { st with dy := v.toNat }
  | .H, v => { st with hh := v.toNat }
  | .M, v => { st with mi := v.toNat }
  | .S, v => { st with ss := v.toNat }
  | .z, v => { st with off := some v }
  | _, _ => st

/-- First success of `f` over a list, in order (the backtracking
engine's commit to the leftmost-greedy complete match). -/
def firstSome : List α → (α → Option β) → Option β
  | [], _ => Option.none
  | a :: as, f => match f a with | some b => some b | Option.none => firstSome as f

/-- Backtracking match of a token list against the whole input (CPython
requires the regex match to consume the entire string), returning the
captures of the first complete match. -/
def matchToks : List FTok → List Char → DTParts → Option DTParts
  | [], [], st => some st
  | [], _ :: _, _ => Option.none
  | t :: ts, cs, st =>
      firstSome (tokParses t cs) (fun p => matchToks ts p.2 (updParts st t p.1))

/-- Gregorian leap-year rule. -/
def isLeapYear (y : Nat) : Bool := (y % 4 = 0 && y % 100 ≠ 0) || y % 400 = 0

/-- Days in a month. -/
def daysInMonth (y mo : Nat) : Nat :=
  if mo = 2 then (if isLeapYear y then 29 else 28)
  else if mo = 4 || mo = 6 || mo = 9 || mo = 11 then 30 else 31

/-- The validity checks `datetime.strptime` performs after the regex
commit: the `datetime` constructor bounds (year at least `MINYEAR`,
day within the month, second below 60 — the regex admits leap seconds
but the constructor rejects them) and the `timezone` offset range
(strictly within a day). -/
def validParts (st : DTParts) : Bool :=
  1 ≤ st.y && 1 ≤ st.mo && st.mo ≤ 12 && 1 ≤ st.dy && st.dy ≤ daysInMonth st.y st.mo &&
  st.hh ≤ 23 && st.mi ≤ 59 && st.ss ≤ 59 &&
  (match st.off with | Option.none => true | some o => o.natAbs < 86400000000)

/-- Models `datetime.strptime(value, fmt)` succeeding (no `ValueError`)
for the format directives used by `DATETIME_VALID_FORMATS`. -/
def strptimeOk (fmt : List FTok) (cs : List Char) : Bool :=
  match matchToks fmt cs {} with
  | some st => validParts st
  | Option.none => false

/-- The shared `%Y-%m-%d` head of the formats. -/
def fmtDate : List FTok := [.Y, .lit '-', .m, .lit '-', .d]

/-- The shared `%H:%M:%S` body of the formats. -/
def fmtTime : List FTok := [.H, .lit ':', .M, .lit ':', .S]

/-- Models `types.DATETIME_VALID_FORMATS`, in order:
`%Y-%m-%d %H:%M:%S.%f`, `%Y-%m-%d %H:%M:%S.%f%z`,
`%Y-%m-%dT%H:%M:%S.%f%z`, `%Y-%m-%d %H:%M:%S`, `%Y-%m-%dT%H:%M:%S`. -/
def DATETIME_VALID_FORMATS : List (List FTok) :=
  [ fmtDate ++ [.lit ' '] ++ fmtTime ++ [.lit '.', .f],
    fmtDate ++ [.lit ' '] ++ fmtTime ++ [.lit '.', .f, .z],
    fmtDate ++ [.lit 'T'] ++ fmtTime ++ [.lit '.', .f, .z],
    fmtDate ++ [.lit ' '] ++ fmtTime,
    fmtDate ++ [.lit 'T'] ++ fmtTime ]

/-- Python `value[:-1]` applied when `value.endswith('Z')`. -/
def stripTrailingZ (cs : List Char) : List Char :=
  if cs.getLast? = some 'Z' then cs.dropLast else cs

/-- Models `types.parse_type_string`: the regex gate, the trailing-`Z`
strip, and the ordered trial of the five accepted formats (`try`/
`except ValueError: continue` collapses to an existence check). -/
def parse_type_string (value : String) : String :=
  if dtRegexMatch value.data then
    let v := stripTrailingZ value.data
    if DATETIME_VALID_FORMATS.any (fun fmt => strptimeOk fmt v) then "datetime_tz" else "str"
  else "str"

/-! ### String utilities shared by `schema.py` (`split`, `sorted`, `join`, `list.remove`, sets) -/

/-- Python `s.split('-')` at the character-list level: splitting the
empty list yields one empty piece, a dash starts a new piece. -/
def splitDashChars : List Char → List (List Char)
  | [] => [[]]
  | c :: rest =>
    if c = '-' then [] :: splitDashChars rest
    else match splitDashChars rest with
      | [] => [[c]]
      | h :: t => (c :: h) :: t

/-- Python `s.split('-')`. -/
def pySplitDash (s : String) : List String := (splitDashChars s.data).map String.mk

/-- Python `'-'.join(l)`. -/
def joinDash : List String → String
  | [] => ""
  | [s] => s
  | s :: rest => s ++ "-" ++ joinDash rest

/-- Ordered insertion into a sorted list of strings. -/
def sInsert (a : String) : List String → List String
  | [] => [a]
  | b :: rest => if a ≤ b then a :: b :: rest else b :: sInsert a rest

/-- Python `sorted(l)` for strings (lexicographic on code points). -/
def pySorted (l : List String) : List String := l.foldr sInsert []

/-- Python `l.remove(x)`: drop the first occurrence. -/
def listRemoveFirst : List String → String → List String
  | [], _ => []
  | a :: rest, x => if a = x then rest else a :: listRemoveFirst rest x

/-- Python `set.add` on an insertion-ordered duplicate-free list. -/
def setInsert (l : List String) (x : String) : List String :=
  if x ∈ l then l else l ++ [x]

/-! ### The schema engine (`schema.py`) -/

/-- Models `schema.ColumnDict`: the per-field record
`type, is_primary`. -/
structure ColumnDict where
  type : String
  is_primary : Bool
  deriving Repr, DecidableEq

/-- The internal mapping `Schema.schema`, an insertion-ordered Python
dict from field name to `ColumnDict`. -/
abbrev SchemaMap := List (String × ColumnDict)

/-- Models `MongoDialect.is_primary_key` (`nosql_dialects.py`), the
default source dialect consulted by `Schema`. -/
def mongoIsPrimaryKey (key : String) : Bool := key == "_id"

/-- Python `key in self.schema`. -/
def schemaHasKey (sch : SchemaMap) (k : String) : Bool := sch.any (fun p => p.1 == k)

/-- Python `self.schema[key]` (first binding; Python dicts have unique
keys). -/
def schemaLookup (sch : SchemaMap) (k : String) : Option ColumnDict :=
  match sch with
  | [] => Option.none
  | p :: rest => if p.1 == k then some p.2 else schemaLookup rest k

/-- Python `self.schema[key] = col` (replace in place keeping position,
else append). -/
def schemaSet (sch : SchemaMap) (k : String) (col : ColumnDict) : SchemaMap :=
  if schemaHasKey sch k then sch.map (fun p => if p.1 == k then (k, col) else p)
  else sch ++ [(k, col)]

/-- Python `self.schema[key]["type"] = t` (mutating the existing entry
in place). -/
def setTypeAt (sch : SchemaMap) (k : String) (t : String) : SchemaMap :=
  sch.map (fun p => if p.1 == k then (p.1, { p.2 with type := t }) else p)

/-- Models `Schema._parse_type`.  The Python branches test `str`,
`bool`, `int`, `float` (with `float.is_integer` collapsing to the
integer rule), `None`, and fall through to
`unsupported:<class ...>`; lists and dicts land in the fallback.  The
model omits the quote characters Python's `type(...)` rendering puts
around the class name — only the `unsupported:` head is ever
inspected. -/
def parseTypePy : PyVal → String
  | .str s => parse_type_string s
  | .bool _ => "bool"
  | .int n => parse_type_int n
  | .float q => if q.den = 1 then parse_type_int q.num else "float"
  | .none => "none"
  | .list _ => "unsupported:<class list>"
  | .dict _ => "unsupported:<class dict>"

/-- Models `Schema._read_write_object_key`: the per-key merge ladder of
`read_object`.  Note the Python membership tests
`value_type in self.schema[key]["type"]` are *substring* tests, modelled
by `strContains`. -/
def readWriteObjectKey (sch : SchemaMap) (key : String) (value : PyVal) : SchemaMap :=
  let value_type := parseTypePy value
  if is_unsupported_column_type value_type then sch
  else
    match schemaLookup sch key with
    | Option.none => schemaSet sch key ⟨value_type, mongoIsPrimaryKey key⟩
    | some col =>
      if col.type = value_type then sch
      else if col.type = "none" then setTypeAt sch key value_type
      else if value_type = "none" then sch
      else if pyStartsWith col.type ("c-") then
        if strContains col.type value_type then sch
        else
          let t₁ := col.type ++ "-" ++ value_type
          let choices := (pySplitDash t₁).drop 1
          let choices := if "none" ∈ choices then listRemoveFirst choices "none" else choices
          match choices with
          | [c] => setTypeAt sch key c
          | cs => setTypeAt sch key ("c-" ++ joinDash (pySorted cs))
      else if col.type = "int" ∧ value_type = "float" then setTypeAt sch key value_type
      else if col.type = "float" ∧ value_type = "int" then sch
      else setTypeAt sch key ("c-" ++ joinDash (pySorted [col.type, value_type]))

/-- Models `Schema.read_object`: fold the per-key merge over the
record's items in order. -/
def read_object (sch : SchemaMap) (record : Row) : SchemaMap :=
  record.foldl (fun s p => readWriteObjectKey s p.1 p.2) sch

/-- Models `Schema._convert_object_schema_iteration`: iterate the
schema's fields, skip fields absent from the record, pass nulls and
non-choice values through, and split choice columns into
`key_<type>` — raising when the classified type is not *contained in*
(Python substring `in`) the choice string. -/
def convertObjectSchemaIteration (sch : SchemaMap) (record : Row) : Except String Row :=
  go sch []
where
  /-- Loop over the remaining schema entries, with the output dict
  accumulated so far. -/
  go : SchemaMap → Row → Except String Row
  | [], out => .ok out
  | (key, col) :: rest, out =>
    if rowHasKey record key then
      match rowLookup record key with
      | Option.none => go rest out
      | some v =>
        match v with
        | .none => go rest (dUpd out key .none)
        | v =>
          if is_choice_column_type col.type then
            let ovt := parseTypePy v
            if strContains col.type ovt then go rest (dUpd out (key ++ "_" ++ ovt) v)
            else .error ("Unknown type found within object. But not within the schema.")
          else go rest (dUpd out key v)
    else go rest out

/-- Models `Schema._convert_object_object_iteration`: iterate the
record's fields; nulls are emitted *before* the schema-membership
check, fields absent from the schema are otherwise skipped, and choice
columns split as in the schema iteration. -/
def convertObjectObjectIteration (sch : SchemaMap) (record : Row) : Except String Row :=
  go record []
where
  /-- Loop over the remaining record entries, with the output dict
  accumulated so far. -/
  go : Row → Row → Except String Row
  | [], out => .ok out
  | (key, v) :: rest, out =>
    match v with
    | .none => go rest (dUpd out key .none)
    | v =>
      match schemaLookup sch key with
      | Option.none => go rest out
      | some col =>
        if is_choice_column_type col.type then
          let ovt := parseTypePy v
          if strContains col.type ovt then go rest (dUpd out (key ++ "_" ++ ovt) v)
          else .error ("Unknown type found within object. But not within the schema.")
        else go rest (dUpd out key v)

/-- Models `Schema.convert_object`: dispatch to whichever iteration is
over the smaller collection. -/
def convert_object (sch : SchemaMap) (record : Row) : Except String Row :=
  if sch.length > record.length then convertObjectObjectIteration sch record
  else convertObjectSchemaIteration sch record

/-- The type-union step of `Schema.merge` for one key already present:
build the set of member types of both sides (expanding choice strings,
skipping `none`), drop `none`, and rebuild.  `Schema._CHOICE_SEQUENCE in
type` is a substring test in Python. -/
def mergeTypes (told tnew : String) : String :=
  let choices : List String :=
    if strContains told ("c-") then
      ((splitDashChars (told.data.drop 2)).map String.mk).foldl
        (fun acc t => if t = "none" then acc else setInsert acc t) []
    else setInsert [] told
  let choices :=
    if strContains tnew ("c-") then
      ((splitDashChars (tnew.data.drop 2)).map String.mk).foldl
        (fun acc t => if t = "none" then acc else setInsert acc t) choices
    else setInsert choices tnew
  let choices := if "none" ∈ choices then listRemoveFirst choices "none" else choices
  match choices with
  | [] => "none"
  | [c] => c
  | cs => "c-" ++ joinDash (pySorted cs)

/-- Models `Schema.merge` (static): fold the argument schemas left to
right; a new key is inserted with its whole `ColumnDict` (so
`is_primary` is inherited from the first occurrence), an equal
`ColumnDict` is skipped, and a differing one is type-unioned via
`mergeTypes`.  Python aliases the inserted dicts instead of copying;
the model is value-semantic, which coincides as long as the same dict
object is not passed twice. -/
def merge (args : List SchemaMap) : SchemaMap :=
  args.foldl
    (fun merged schema =>
      schema.foldl
        (fun merged p =>
          match schemaLookup merged p.1 with
          | Option.none => merged ++ [(p.1, p.2)]
          | some col =>
            if p.2 = col then merged
            else setTypeAt merged p.1 (mergeTypes col.type p.2.type))
        merged)
    []

/-! ### Schema serialization (`json.dumps` / `json.loads` on the schema mapping) -/

/-- Lowercase hex rendering of a value below 16 (as `json.dumps`
emits in `\uXXXX` escapes). -/
def hexLower (n : Nat) : Char :=
  if n < 10 then Char.ofNat (48 + n) else Char.ofNat (87 + n)

/-- Four lowercase hex digits for `n < 0x10000`. -/
def hex4 (n : Nat) : List Char :=
  [hexLower (n / 4096 % 16), hexLower (n / 256 % 16), hexLower (n / 16 % 16), hexLower (n % 16)]

/-- Per-character escaping of `json.dumps` with the default
`ensure_ascii=True`: backslash-escapes for quote, backslash and the
five named control characters, `\uXXXX` for other characters outside
`0x20`–`0x7e`, with surrogate pairs above the BMP. -/
def escChar (c : Char) : List Char :=
  if c = Char.ofNat 34 then [Char.ofNat 92, Char.ofNat 34]
  else if c = Char.ofNat 92 then [Char.ofNat 92, Char.ofNat 92]
  else if c.toNat = 10 then [Char.ofNat 92, 'n']
  else if c.toNat = 13 then [Char.ofNat 92, 'r']
  else if c.toNat = 9 then [Char.ofNat 92, 't']
  else if c.toNat = 8 then [Char.ofNat 92, 'b']
  else if c.toNat = 12 then [Char.ofNat 92, 'f']
  else if c.toNat < 32 ∨ c.toNat > 126 then
    if c.toNat < 65536 then Char.ofNat 92 :: 'u' :: hex4 c.toNat
    else
      (Char.ofNat 92 :: 'u' :: hex4 (55296 + (c.toNat - 65536) / 1024)) ++
      (Char.ofNat 92 :: 'u' :: hex4 (56320 + (c.toNat - 65536) % 1024))
  else [c]

/-- The `json.dumps` rendering of a string (quotes plus escaped
body). -/
def jstr (s : String) : String :=
  String.mk (Char.ofNat 34 :: (s.data.map escChar).flatten ++ [Char.ofNat 34])

/-- One entry of the serialized schema object, exactly as `json.dumps`
lays it out with its default separators `', '` and `': '`. -/
def serializeEntry (k : String) (col : ColumnDict) : String :=
  jstr k ++ ": " ++ obrace ++ jstr ("type") ++ ": " ++ jstr col.type ++ ", " ++
    jstr ("is_primary") ++ ": " ++ (if col.is_primary then "true" else "false") ++ cbrace

/-- Models `Schema.serialize`, i.e. `json.dumps(self.schema)` for the
`field -> (type, is_primary)` mapping. -/
def serialize (sch : SchemaMap) : String :=
  obrace ++ String.intercalate (", ") (sch.map (fun p => serializeEntry p.1 p.2)) ++ cbrace


/-- Value of a hex digit character (either case), as `int(s, 16)`
accepts. -/
def hexVal (c : Char) : Option Nat :=
  if 48 ≤ c.toNat ∧ c.toNat ≤ 57 then some (c.toNat - 48)
  else if 97 ≤ c.toNat ∧ c.toNat ≤ 102 then some (c.toNat - 87)
  else if 65 ≤ c.toNat ∧ c.toNat ≤ 70 then some (c.toNat - 55)
  else Option.none

/-- The escape decoder of the `json.loads` (strict mode) string
scanner: the eight named escapes and `\\uXXXX` with surrogate-pair
joining.  A lone surrogate would decode to a non-scalar value, which
`String` cannot represent; the model rejects it (the serializer never
emits one). -/
def decodeEsc : List Char → Option (Char × List Char)
  | [] => Option.none
  | e :: rest₂ =>
    if e = Char.ofNat 34 ∨ e = Char.ofNat 92 ∨ e = '/' then some (e, rest₂)
    else if e = 'n' then some (Char.ofNat 10, rest₂)
    else if e = 'r' then some (Char.ofNat 13, rest₂)
    else if e = 't' then some (Char.ofNat 9, rest₂)
    else if e = 'b' then some (Char.ofNat 8, rest₂)
    else if e = 'f' then some (Char.ofNat 12, rest₂)
    else if e = 'u' then
      match rest₂ with
      | a :: b :: c₂ :: d :: rest₃ =>
        match hexVal a, hexVal b, hexVal c₂, hexVal d with
        | some va, some vb, some vc, some vd =>
          let v := va * 4096 + vb * 256 + vc * 16 + vd
          if 55296 ≤ v ∧ v ≤ 56319 then
            match rest₃ with
            | b₁ :: b₂ :: a₂ :: b₃ :: c₃ :: d₂ :: rest₄ =>
              if b₁ = Char.ofNat 92 ∧ b₂ = 'u' then
                match hexVal a₂, hexVal b₃, hexVal c₃, hexVal d₂ with
                | some wa, some wb, some wc, some wd =>
                  let w := wa * 4096 + wb * 256 + wc * 16 + wd
                  if 56320 ≤ w ∧ w ≤ 57343 then
                    some (Char.ofNat (65536 + (v - 55296) * 1024 + (w - 56320)), rest₄)
                  else Option.none
                | _, _, _, _ => Option.none
              else Option.none
            | _ => Option.none
          else if 56320 ≤ v ∧ v ≤ 57343 then Option.none
          else some (Char.ofNat v, rest₃)
        | _, _, _, _ => Option.none
      | _ => Option.none
    else Option.none

/-- The scanning loop, indexed by fuel to keep the recursion
structural; each step consumes at least one input character, so the
input length is always enough fuel. -/
def parseStrBodyFuel : Nat → List Char → Option (List Char × List Char)
  | 0, _ => Option.none
  | _ + 1, [] => Option.none
  | fuel + 1, c :: rest =>
    if c = Char.ofNat 34 then some ([], rest)
    else if c = Char.ofNat 92 then
      match decodeEsc rest with
      | some (d, rest₂) => (parseStrBodyFuel fuel rest₂).map (fun p => (d :: p.1, p.2))
      | Option.none => Option.none
    else if c.toNat < 32 then Option.none
    else (parseStrBodyFuel fuel rest).map (fun p => (c :: p.1, p.2))

/-- The string-body scanner entry point. -/
def parseStrBody (cs : List Char) : Option (List Char × List Char) :=
  parseStrBodyFuel cs.length cs

/-- Parse a quoted JSON string. -/
def parseJStr (cs : List Char) : Option (String × List Char) :=
  match cs with
  | c :: rest =>
    if c = Char.ofNat 34 then (parseStrBody rest).map (fun p => (String.mk p.1, p.2))
    else Option.none
  | [] => Option.none

/-- Consume an expected literal character sequence. -/
def expectLit : List Char → List Char → Option (List Char)
  | [], cs => some cs
  | l :: ls, c :: cs => if c = l then expectLit ls cs else Option.none
  | _ :: _, [] => Option.none

/-- Parse one serialized schema entry
`"key": {"type": "...", "is_primary": true/false}` (braces written as
character codes 123/125). -/
def parseEntry (cs : List Char) : Option ((String × ColumnDict) × List Char) :=
  match parseJStr cs with
  | Option.none => Option.none
  | some (k, r₁) =>
    match expectLit (':' :: ' ' :: [Char.ofNat 123]) r₁ with
    | Option.none => Option.none
    | some r₂ =>
      match parseJStr r₂ with
      | Option.none => Option.none
      | some (tk, r₃) =>
        if tk = "type" then
          match expectLit [':', ' '] r₃ with
          | Option.none => Option.none
          | some r₄ =>
            match parseJStr r₄ with
            | Option.none => Option.none
            | some (t, r₅) =>
              match expectLit [',', ' '] r₅ with
              | Option.none => Option.none
              | some r₆ =>
                match parseJStr r₆ with
                | Option.none => Option.none
                | some (pk, r₇) =>
                  if pk = "is_primary" then
                    match expectLit [':', ' '] r₇ with
                    | Option.none => Option.none
                    | some r₈ =>
                      match r₈ with
                      | 't' :: 'r' :: 'u' :: 'e' :: r₉ =>
                        (expectLit [Char.ofNat 125] r₉).map (fun r => ((k, ⟨t, true⟩), r))
                      | 'f' :: 'a' :: 'l' :: 's' :: 'e' :: r₉ =>
                        (expectLit [Char.ofNat 125] r₉).map (fun r => ((k, ⟨t, false⟩), r))
                      | _ => Option.none
                  else Option.none
        else Option.none

/-- The entry loop of the schema-object parser: entries separated by
`', '`, terminated by the closing brace.  Fuel makes the recursion
structural; the wrapper supplies the input length, which always
suffices because each entry consumes at least one character. -/
def parseEntriesFuel : Nat → List Char → Option (List (String × ColumnDict) × List Char)
  | 0, _ => Option.none
  | fuel + 1, cs =>
    match parseEntry cs with
    | Option.none => Option.none
    | some (e, rest) =>
      match rest with
      | c :: rest₂ =>
        if c = Char.ofNat 125 then some ([e], rest₂)
        else if c = ',' then
          match rest₂ with
          | ' ' :: rest₃ =>
            (parseEntriesFuel fuel rest₃).map (fun p => (e :: p.1, p.2))
          | _ => Option.none
        else Option.none
      | [] => Option.none

/-- Parse the serialized schema object: `\x7b\x7d` for the empty
mapping, otherwise a brace-delimited `', '`-separated entry list. -/
def parseSchemaTop (cs : List Char) : Option (List (String × ColumnDict) × List Char) :=
  match cs with
  | c :: rest =>
    if c = Char.ofNat 123 then
      match rest with
      | d :: rest₂ =>
        if d = Char.ofNat 125 then some ([], rest₂)
        else parseEntriesFuel rest.length rest
      | [] => Option.none
    else Option.none
  | [] => Option.none

/-- Python dict construction from parsed key/value pairs: the first
occurrence of a key fixes its position, the last fixes its value (how
`json.loads` folds duplicate keys). -/
def dictFromPairs (l : List (String × ColumnDict)) : List (String × ColumnDict) :=
  l.foldl
    (fun acc p =>
      if acc.any (fun q => q.1 == p.1) then acc.map (fun q => if q.1 == p.1 then (q.1, p.2) else q)
      else acc ++ [p])
    []

/-- Models `Schema.deserialize`, i.e. `json.loads(content)` restricted
to the grammar `Schema.serialize` emits (on which the two agree),
followed by the `Schema` construction.  `json.loads` raises on
malformed or trailing input; failure is modelled as `Option.none`. -/
def deserialize (content : String) : Option SchemaMap :=
  match parseSchemaTop content.data with
  | some (l, []) => some (dictFromPairs l)
  | _ => Option.none

/-! ### Basic lemmas about the Python dict model -/

theorem rowHasKey_iff {r : Row} {k : String} : rowHasKey r k = true ↔ ∃ p ∈ r, p.1 = k := by
  simp [rowHasKey, List.any_eq_true]

theorem rowHasKey_false_iff {r : Row} {k : String} :
    rowHasKey r k = false ↔ ∀ p ∈ r, p.1 ≠ k := by
  simp [rowHasKey, List.any_eq_false]

/-- Lookup through the in-place-replacement branch of `dUpd`. -/
theorem rowLookup_mapUpd_self {r : Row} {k : String} (v : PyVal) (h : rowHasKey r k = true) :
    rowLookup (r.map (fun p => if p.1 == k then (k, v) else p)) k = some v := by
  induction r with
  | nil => simp [rowHasKey] at h
  | cons p rest ih =>
    by_cases hp : p.1 = k
    · simp [rowLookup, hp]
    · have hrest : rowHasKey rest k = true := by
        rw [rowHasKey_iff] at h ⊢
        rcases h with ⟨q, hq, hqk⟩
        rcases List.mem_cons.mp hq with rfl | hq'
        · exact absurd hqk hp
        · exact ⟨q, hq', hqk⟩
      simpa [rowLookup, hp] using ih hrest

/-- Lookup of a different key is unchanged by the replacement branch. -/
theorem rowLookup_mapUpd_ne (r : Row) {k k' : String} (v : PyVal) (h : k ≠ k') :
    rowLookup (r.map (fun p => if p.1 == k' then (k', v) else p)) k = rowLookup r k := by
  induction r with
  | nil => simp [rowLookup]
  | cons p rest ih =>
    by_cases hp : p.1 = k'
    · have h₁ : p.1 ≠ k := by rw [hp]; exact Ne.symm h
      simp only [List.map_cons, if_pos (show (p.1 == k') = true from by simpa using hp)]
      simp only [rowLookup, beq_iff_eq, if_neg (Ne.symm h), if_neg h₁]
      simpa using ih
    · simp only [List.map_cons, if_neg (show ¬(p.1 == k') = true from by simpa using hp)]
      simp only [rowLookup]
      by_cases hpk : p.1 = k
      · simp [hpk]
      · simp only [beq_iff_eq, if_neg hpk]
        simpa using ih

/-- Lookup of a different key is unchanged by appending a binding. -/
theorem rowLookup_append_ne (r : Row) {k k' : String} (v : PyVal) (h : k ≠ k') :
    rowLookup (r ++ [(k', v)]) k = rowLookup r k := by
  induction r with
  | nil => simp [rowLookup, Ne.symm h]
  | cons p rest ih =>
    by_cases hpk : p.1 = k
    · simp [rowLookup, hpk]
    · simp [rowLookup, hpk, ih]

/-- Appending a fresh binding makes it visible to lookup. -/
theorem rowLookup_append_self {r : Row} {k : String} (v : PyVal) (h : rowHasKey r k = false) :
    rowLookup (r ++ [(k, v)]) k = some v := by
  induction r with
  | nil => simp [rowLookup]
  | cons p rest ih =>
    rw [rowHasKey_false_iff] at h
    have hp : p.1 ≠ k := h p (by simp)
    have hrest : rowHasKey rest k = false := by
      rw [rowHasKey_false_iff]
      intro q hq
      exact h q (by simp [hq])
    simpa [rowLookup, hp] using ih hrest

/-- Updating a key makes it look up to the new value. -/
theorem rowLookup_dUpd_self (r : Row) (k : String) (v : PyVal) :
    rowLookup (dUpd r k v) k = some v := by
  unfold dUpd
  split
  · exact rowLookup_mapUpd_self v (by assumption)
  · exact rowLookup_append_self v (by simp_all)

/-- Updating one key does not change the lookup of another. -/
theorem rowLookup_dUpd_ne (r : Row) {k k' : String} (v : PyVal) (h : k ≠ k') :
    rowLookup (dUpd r k' v) k = rowLookup r k := by
  unfold dUpd
  split
  · exact rowLookup_mapUpd_ne r v h
  · exact rowLookup_append_ne r v h

theorem dUpdMany_nil (r : Row) : dUpdMany r [] = r := rfl

theorem dUpdMany_cons (r : Row) (p : String × PyVal) (rest : Row) :
    dUpdMany r (p :: rest) = dUpdMany (dUpd r p.1 p.2) rest := rfl

theorem dUpdMany_single (r : Row) (k : String) (v : PyVal) :
    dUpdMany r [(k, v)] = dUpd r k v := rfl

/-- Keys surviving a dict update come from one of the two sources. -/
theorem rowHasKey_dUpd {r : Row} {k k' : String} {v : PyVal} :
    rowHasKey (dUpd r k' v) k = true → k = k' ∨ rowHasKey r k = true := by
  intro h
  by_cases hk : k = k'
  · exact Or.inl hk
  · refine Or.inr ?_
    unfold dUpd at h
    split at h
    · rw [rowHasKey_iff] at h ⊢
      rcases h with ⟨p, hp, hpk⟩
      rcases List.mem_map.mp hp with ⟨q, hq, hqe⟩
      by_cases hq1 : q.1 = k'
      · rw [if_pos (by simpa using hq1)] at hqe
        rw [← hqe] at hpk
        simp at hpk
        exact absurd hpk.symm hk
      · rw [if_neg (by simpa using hq1)] at hqe
        exact ⟨q, hq, hqe ▸ hpk⟩
    · rw [rowHasKey_iff] at h ⊢
      rcases h with ⟨p, hp, hpk⟩
      rcases List.mem_append.mp hp with hp | hp
      · exact ⟨p, hp, hpk⟩
      · simp at hp
        rw [hp] at hpk
        simp at hpk
        exact absurd hpk.symm hk

/-- Keys of a merged dict come from one of the two dicts. -/
theorem rowHasKey_dUpdMany {r more : Row} {k : String} :
    rowHasKey (dUpdMany r more) k = true → rowHasKey r k = true ∨ rowHasKey more k = true := by
  induction more generalizing r with
  | nil => intro h; exact Or.inl h
  | cons p rest ih =>
    intro h
    rw [dUpdMany_cons] at h
    rcases ih h with h₁ | h₁
    · rcases rowHasKey_dUpd h₁ with h₂ | h₂
      · refine Or.inr ?_
        rw [rowHasKey_iff]
        exact ⟨p, by simp, h₂.symm⟩
      · exact Or.inl h₂
    · refine Or.inr ?_
      rw [rowHasKey_iff] at h₁ ⊢
      rcases h₁ with ⟨q, hq, hqk⟩
      exact ⟨q, by simp [hq], hqk⟩

/-! ### Unfolding equations for the fuelled relationalizer -/

theorem relFuel_zero (cfg : RelCfg) (c : Nat) (d : PyVal) (path : String) (fa : Bool) (tp : String) :
    relFuel cfg 0 c d path fa tp = ([], c, []) := rfl

theorem relEntries_zero (cfg : RelCfg) (c : Nat) (l : List (String × PyVal)) (pfx : String) (fa : Bool) (tp : String) (acc : Row) :
    relEntries cfg 0 c l pfx fa tp acc = (acc, c, []) := rfl

theorem relElems_zero (cfg : RelCfg) (c : Nat) (es : List PyVal) (idx : Nat) (rid : String) (path : String) :
    relElems cfg 0 c es idx rid path = (c, []) := rfl

theorem relFuel_succ_list (cfg : RelCfg) (fuel c : Nat) (xs : List PyVal) (path : String) (fa : Bool) (tp : String) :
    relFuel cfg (fuel + 1) c (.list xs) path fa tp =
      if xs.length = 0 then ([(path, .none)], c, [])
      else if cfg.stringify_arrays then ([(path, .str (pyStr (.list xs)))], c, [])
      else
        let rid := generate_rid c
        let res := relElems cfg fuel (c + 1) xs 0 rid path
        let keyPath := if tp ≠ "" then tp else path
        ([(path, .str rid)], res.1,
          (res.2.map (fun ch => ch.1 ++ [(cfg.name ++ "_" ++ keyPath, ch.2)])).flatten) := rfl

theorem relFuel_succ_dict (cfg : RelCfg) (fuel c : Nat) (l : List (String × PyVal)) (path : String) (fa : Bool) (tp : String) :
    relFuel cfg (fuel + 1) c (.dict l) path fa tp =
      if path ≠ "" ∧ cfg.stringify_objects then ([(path, .str (pyStr (.dict l)))], c, [])
      else
        let pfx := if path = "" ∨ fa then "" else path ++ "_"
        relEntries cfg fuel c l pfx fa tp [] := rfl

theorem relFuel_succ_none (cfg : RelCfg) (fuel c : Nat) (path : String) (fa : Bool) (tp : String) :
    relFuel cfg (fuel + 1) c .none path fa tp = ([(path, .none)], c, []) := rfl

theorem relFuel_succ_bool (cfg : RelCfg) (fuel c : Nat) (b : Bool) (path : String) (fa : Bool) (tp : String) :
    relFuel cfg (fuel + 1) c (.bool b) path fa tp = ([(path, .bool b)], c, []) := rfl

theorem relFuel_succ_int (cfg : RelCfg) (fuel c : Nat) (n : Int) (path : String) (fa : Bool) (tp : String) :
    relFuel cfg (fuel + 1) c (.int n) path fa tp = ([(path, .int n)], c, []) := rfl

theorem relFuel_succ_float (cfg : RelCfg) (fuel c : Nat) (q : ℚ) (path : String) (fa : Bool) (tp : String) :
    relFuel cfg (fuel + 1) c (.float q) path fa tp = ([(path, .float q)], c, []) := rfl

theorem relFuel_succ_str (cfg : RelCfg) (fuel c : Nat) (s : String) (path : String) (fa : Bool) (tp : String) :
    relFuel cfg (fuel + 1) c (.str s) path fa tp = ([(path, .str s)], c, []) := rfl

theorem relEntries_succ_nil (cfg : RelCfg) (fuel c : Nat) (pfx : String) (fa : Bool) (tp : String) (acc : Row) :
    relEntries cfg (fuel + 1) c [] pfx fa tp acc = (acc, c, []) := rfl

theorem relEntries_succ_cons (cfg : RelCfg) (fuel c : Nat) (k : String) (v : PyVal) (rest : List (String × PyVal)) (pfx : String) (fa : Bool) (tp : String) (acc : Row) :
    relEntries cfg (fuel + 1) c ((k, v) :: rest) pfx fa tp acc =
      let ttp := if fa then tp ++ "_" ++ k else ""
      let r₁ := relFuel cfg fuel c v (pfx ++ k) false ttp
      let r₂ := relEntries cfg fuel r₁.2.1 rest pfx fa tp (dUpdMany acc r₁.1)
      (r₂.1, r₂.2.1, r₁.2.2 ++ r₂.2.2) := rfl

theorem relElems_succ_nil (cfg : RelCfg) (fuel c : Nat) (idx : Nat) (rid : String) (path : String) :
    relElems cfg (fuel + 1) c [] idx rid path = (c, []) := rfl

theorem relElems_succ_cons (cfg : RelCfg) (fuel c : Nat) (e : PyVal) (rest : List PyVal) (idx : Nat) (rid : String) (path : String) :
    relElems cfg (fuel + 1) c (e :: rest) idx rid path =
      let r₁ := relFuel cfg fuel c (listHelperRow rid idx e) path true path
      let r₂ := relElems cfg fuel r₁.2.1 rest (idx + 1) rid path
      (r₂.1, (r₁.2.2, r₁.1) :: r₂.2) := rfl

/-! ### Size-measure lemmas -/

theorem sz_list_def (xs : List PyVal) : sz (.list xs) = 5 + szL xs := by simp [sz]

theorem sz_dict_def (l : List (String × PyVal)) : sz (.dict l) = 1 + szE l := by simp [sz]

theorem szL_cons (x : PyVal) (xs : List PyVal) : szL (x :: xs) = sz x + 5 + szL xs := by simp [szL]

theorem szE_cons (p : String × PyVal) (ps : List (String × PyVal)) :
    szE (p :: ps) = sz p.2 + 1 + szE ps := by simp [szE]

theorem szE_append (a b : List (String × PyVal)) : szE (a ++ b) = szE a + szE b := by
  induction a with
  | nil => simp [szE]
  | cons p ps ih => simp [szE, ih]; omega

theorem szE_map_scalar_le (l : List (String × PyVal)) (k : String) (v : PyVal) (hv : sz v = 0) :
    szE (l.map (fun p => if p.1 == k then (k, v) else p)) ≤ szE l := by
  induction l with
  | nil => simp [szE]
  | cons p ps ih =>
    by_cases hp : p.1 = k
    · simp only [List.map_cons, if_pos (show (p.1 == k) = true from by simpa using hp)]
      rw [szE_cons, szE_cons]
      simp only [hv]
      omega
    · simp only [List.map_cons, if_neg (show ¬(p.1 == k) = true from by simpa using hp)]
      rw [szE_cons, szE_cons]
      omega

theorem szE_dUpd_le (l : List (String × PyVal)) (k : String) (v : PyVal) (hv : sz v = 0) :
    szE (dUpd l k v) ≤ szE l + 1 := by
  unfold dUpd
  split
  · have := szE_map_scalar_le l k v hv
    omega
  · rw [szE_append]
    simp [szE, hv]

/-- The synthetic dict built by `_list_helper` for a dict element is
at most `2` heavier than the element. -/
theorem sz_newRow_dict_le (l : List (String × PyVal)) (rid : String) (idx : Nat) :
    sz (.dict (dUpd (dUpd l "_rid_" (.str rid)) "_index_" (.int idx))) ≤ sz (.dict l) + 2 := by
  rw [sz_dict_def, sz_dict_def]
  have h₁ := szE_dUpd_le l "_rid_" (.str rid) (by simp [sz])
  have h₂ := szE_dUpd_le (dUpd l "_rid_" (.str rid)) "_index_" (.int idx) (by simp [sz])
  omega

/-- The synthetic dict built by `_list_helper` for a non-dict element
weighs its value plus `4`. -/
theorem sz_newRow_other (e : PyVal) (rid : String) (idx : Nat) :
    sz (.dict [("_val_", e), ("_rid_", .str rid), ("_index_", .int idx)]) = sz e + 4 := by
  rw [sz_dict_def]
  simp [szE, sz]
  omega

/-! ### With `stringify_arrays` set, the relationalizer writes no subordinate rows -/

theorem stringify_arrays_no_writes (cfg : RelCfg) (hsa : cfg.stringify_arrays = true) :
    ∀ fuel, (∀ c d path fa tp, (relFuel cfg fuel c d path fa tp).2.2 = ([] : List Write)) ∧
            (∀ c l pfx fa tp acc, (relEntries cfg fuel c l pfx fa tp acc).2.2 = ([] : List Write)) := by
  intro fuel
  induction fuel with
  | zero => exact ⟨fun _ _ _ _ _ => rfl, fun _ _ _ _ _ _ => rfl⟩
  | succ f ih =>
    refine ⟨?_, ?_⟩
    · intro c d path fa tp
      match d with
      | .list xs =>
        rw [relFuel_succ_list]
        by_cases h0 : xs.length = 0
        · simp [h0]
        · simp [h0, hsa]
      | .dict l =>
        rw [relFuel_succ_dict]
        by_cases hO : path ≠ "" ∧ cfg.stringify_objects
        · rw [if_pos hO]
        · rw [if_neg hO]
          exact ih.2 c l _ fa tp []
      | .none => rfl
      | .bool b => rfl
      | .int n => rfl
      | .float q => rfl
      | .str s => rfl
    · intro c l pfx fa tp acc
      match l with
      | [] => rfl
      | (k, v) :: rest =>
        rw [relEntries_succ_cons]
        simp only []
        rw [ih.1, ih.2]
        rfl


/-! ### Array-element counting and reserved-key cleanliness -/

mutual
/-- Sum of the element counts of every array in the value tree (the
count the spec's row-count invariant refers to). -/
def aec : PyVal → Nat
  | .list xs => xs.length + aecL xs
  | .dict l => aecE l
  | _ => 0

/-- Sum over a list of values. -/
def aecL : List PyVal → Nat
  | [] => 0
  | x :: xs => aec x + aecL xs

/-- Sum over a dict's entries. -/
def aecE : List (String × PyVal) → Nat
  | [] => 0
  | p :: ps => aec p.2 + aecE ps
end

/-- A value is clean as an array element when, if it is a dict, its
top-level keys avoid the reserved `_rid_` and `_index_` columns (for
which the spec leaves collision behaviour undefined). -/
def elemTopClean : PyVal → Bool
  | .dict l => l.all (fun p => p.1 ≠ "_rid_" && p.1 ≠ "_index_")
  | _ => true

mutual
/-- A document is clean when every dict that is a direct array element
anywhere inside it is `elemTopClean`. -/
def cleanDoc : PyVal → Bool
  | .list xs => cleanL xs
  | .dict l => cleanE l
  | _ => true

/-- Cleanliness of a list of array elements. -/
def cleanL : List PyVal → Bool
  | [] => true
  | x :: xs => elemTopClean x && cleanDoc x && cleanL xs

/-- Cleanliness of a dict's entries. -/
def cleanE : List (String × PyVal) → Bool
  | [] => true
  | p :: ps => cleanDoc p.2 && cleanE ps
end

theorem aec_list_def (xs : List PyVal) : aec (.list xs) = xs.length + aecL xs := by simp [aec]

theorem aec_dict_def (l : List (String × PyVal)) : aec (.dict l) = aecE l := by simp [aec]

theorem aecL_cons (x : PyVal) (xs : List PyVal) : aecL (x :: xs) = aec x + aecL xs := by simp [aecL]

theorem aecE_cons (p : String × PyVal) (ps : List (String × PyVal)) :
    aecE (p :: ps) = aec p.2 + aecE ps := by simp [aecE]

theorem aecE_append (a b : List (String × PyVal)) : aecE (a ++ b) = aecE a + aecE b := by
  induction a with
  | nil => simp [aecE]
  | cons p ps ih => simp [aecE, ih]; omega

theorem cleanE_append (a b : List (String × PyVal)) :
    cleanE (a ++ b) = (cleanE a && cleanE b) := by
  induction a with
  | nil => simp [cleanE]
  | cons p ps ih => simp [cleanE, ih, Bool.and_assoc]

/-- Writing to an absent key appends the binding. -/
theorem dUpd_fresh (l : Row) (k : String) (v : PyVal) (h : rowHasKey l k = false) :
    dUpd l k v = l ++ [(k, v)] := by
  unfold dUpd
  rw [if_neg (by simp [h])]

/-- Appending a binding under a different key keeps another key
absent. -/
theorem rowHasKey_append_false {l : Row} {k k' : String} {v : PyVal}
    (h : rowHasKey l k = false) (hne : k' ≠ k) :
    rowHasKey (l ++ [(k', v)]) k = false := by
  rw [rowHasKey_false_iff] at h ⊢
  intro p hp
  rcases List.mem_append.mp hp with hp | hp
  · exact h p hp
  · simp at hp
    rw [hp]
    simpa using hne

/-- Under top-level cleanliness, `_list_helper`'s two injected columns
are appended after the element's own entries. -/
theorem newRow_eq_append (l : List (String × PyVal)) (x y : PyVal)
    (hc : elemTopClean (.dict l) = true) :
    dUpd (dUpd l "_rid_" x) "_index_" y = l ++ [("_rid_", x), ("_index_", y)] := by
  have hall : ∀ p ∈ l, p.1 ≠ "_rid_" ∧ p.1 ≠ "_index_" := by
    intro p hp
    have h0 := List.all_eq_true.mp
      (show l.all (fun p => p.1 ≠ "_rid_" && p.1 ≠ "_index_") = true from hc) p hp
    simpa using h0
  have h₁ : rowHasKey l "_rid_" = false := by
    rw [rowHasKey_false_iff]; intro p hp; exact (hall p hp).1
  have h₂ : rowHasKey l "_index_" = false := by
    rw [rowHasKey_false_iff]; intro p hp; exact (hall p hp).2
  rw [dUpd_fresh l "_rid_" x h₁]
  rw [dUpd_fresh _ "_index_" y (rowHasKey_append_false h₂ (by decide))]
  simp

/-- Facts about the `_val_` wrapper row for a non-dict element. -/
theorem wrapper_facts (e : PyVal) (rid : String) (idx : Nat) (hcd : cleanDoc e = true) :
    cleanDoc (.dict [("_val_", e), ("_rid_", .str rid), ("_index_", .int idx)]) = true ∧
    aec (.dict [("_val_", e), ("_rid_", .str rid), ("_index_", .int idx)]) = aec e ∧
    sz (.dict [("_val_", e), ("_rid_", .str rid), ("_index_", .int idx)]) = sz e + 4 := by
  refine ⟨?_, ?_, ?_⟩
  · simp only [cleanDoc, cleanE]
    rw [hcd]
    simp [cleanDoc]
  · rw [aec_dict_def]
    simp only [aecE_cons, aecE]
    simp [aec]
  · rw [sz_dict_def]
    simp only [szE_cons, szE]
    simp only [sz]
    omega

/-- Facts about the row `_list_helper` builds: under cleanliness it is
clean, carries the same array-element count as the element, and weighs
at most `4` more. -/
theorem listHelperRow_facts (rid : String) (idx : Nat) (e : PyVal)
    (hct : elemTopClean e = true) (hcd : cleanDoc e = true) :
    cleanDoc (listHelperRow rid idx e) = true ∧
    aec (listHelperRow rid idx e) = aec e ∧
    sz (listHelperRow rid idx e) ≤ sz e + 4 := by
  cases e with
  | dict l =>
    have hred : listHelperRow rid idx (.dict l)
        = .dict (l ++ [("_rid_", .str rid), ("_index_", .int idx)]) := by
      show PyVal.dict (dUpd (dUpd l "_rid_" (.str rid)) "_index_" (.int idx)) = _
      rw [newRow_eq_append l _ _ hct]
    rw [hred]
    refine ⟨?_, ?_, ?_⟩
    · simp only [cleanDoc] at hcd ⊢
      rw [cleanE_append, hcd]
      simp [cleanE, cleanDoc]
    · rw [aec_dict_def, aec_dict_def, aecE_append]
      simp only [aecE_cons, aecE]
      simp [aec]
    · rw [sz_dict_def, sz_dict_def, szE_append]
      simp only [szE_cons, szE]
      simp only [sz]
      omega
  | list xs => exact ⟨(wrapper_facts _ rid idx hcd).1, (wrapper_facts _ rid idx hcd).2.1,
      le_of_eq (wrapper_facts _ rid idx hcd).2.2⟩
  | none => exact ⟨(wrapper_facts _ rid idx hcd).1, (wrapper_facts _ rid idx hcd).2.1,
      le_of_eq (wrapper_facts _ rid idx hcd).2.2⟩
  | bool b => exact ⟨(wrapper_facts _ rid idx hcd).1, (wrapper_facts _ rid idx hcd).2.1,
      le_of_eq (wrapper_facts _ rid idx hcd).2.2⟩
  | int n => exact ⟨(wrapper_facts _ rid idx hcd).1, (wrapper_facts _ rid idx hcd).2.1,
      le_of_eq (wrapper_facts _ rid idx hcd).2.2⟩
  | float q => exact ⟨(wrapper_facts _ rid idx hcd).1, (wrapper_facts _ rid idx hcd).2.1,
      le_of_eq (wrapper_facts _ rid idx hcd).2.2⟩
  | str s => exact ⟨(wrapper_facts _ rid idx hcd).1, (wrapper_facts _ rid idx hcd).2.1,
      le_of_eq (wrapper_facts _ rid idx hcd).2.2⟩

/-- Length of the flattened per-element chunks of an array: nested
writes plus one element row each. -/
theorem flatten_chunk_length (nm : String) (L : List (List Write × Row)) :
    ((L.map (fun ch => ch.1 ++ [(nm, ch.2)])).flatten).length
      = (L.map (fun ch => ch.1.length)).sum + L.length := by
  induction L with
  | nil => simp
  | cons ch rest ih => simp [ih]; omega

/-- Row counting: with both stringification flags off and a clean
input, a `_relationalize` call writes exactly `aec` subordinate rows
(the dict-entry loop and element loop counted likewise). -/
theorem count_writes (cfg : RelCfg) (hsa : cfg.stringify_arrays = false)
    (hso : cfg.stringify_objects = false) :
    ∀ fuel,
      (∀ c d path fa tp, sz d < fuel → cleanDoc d = true →
        (relFuel cfg fuel c d path fa tp).2.2.length = aec d) ∧
      (∀ c l pfx fa tp acc, szE l < fuel → cleanE l = true →
        (relEntries cfg fuel c l pfx fa tp acc).2.2.length = aecE l) ∧
      (∀ c es idx rid path, szL es < fuel → cleanL es = true →
        (relElems cfg fuel c es idx rid path).2.length = es.length ∧
        ((relElems cfg fuel c es idx rid path).2.map (fun ch => ch.1.length)).sum = aecL es) := by
  intro fuel
  induction fuel with
  | zero =>
    refine ⟨?_, ?_, ?_⟩
    · intro c d path fa tp h _; exact absurd h (Nat.not_lt_zero _)
    · intro c l pfx fa tp acc h _; exact absurd h (Nat.not_lt_zero _)
    · intro c es idx rid path h _; exact absurd h (Nat.not_lt_zero _)
  | succ f ih =>
    obtain ⟨ihA, ihB, ihC⟩ := ih
    refine ⟨?_, ?_, ?_⟩
    · intro c d path fa tp hsz hclean
      match d with
      | .list xs =>
        rw [relFuel_succ_list]
        by_cases h0 : xs.length = 0
        · rw [if_pos h0]
          have hxs : xs = [] := List.length_eq_zero.mp h0
          subst hxs
          simp [aec_list_def, aecL]
        · rw [if_neg h0, if_neg (by simp [hsa])]
          simp only []
          rw [sz_list_def] at hsz
          obtain ⟨hlen, hsum⟩ := ihC (c + 1) xs 0 (generate_rid c) path (by omega)
            (by simpa [cleanDoc] using hclean)
          rw [flatten_chunk_length, hlen, hsum, aec_list_def]
          omega
      | .dict l =>
        rw [relFuel_succ_dict]
        rw [if_neg (by simp [hso])]
        simp only []
        rw [sz_dict_def] at hsz
        rw [aec_dict_def]
        exact ihB c l _ fa tp [] (by omega) (by simpa [cleanDoc] using hclean)
      | .none => simp [relFuel_succ_none, aec]
      | .bool b => simp [relFuel_succ_bool, aec]
      | .int n => simp [relFuel_succ_int, aec]
      | .float q => simp [relFuel_succ_float, aec]
      | .str s => simp [relFuel_succ_str, aec]
    · intro c l pfx fa tp acc hsz hclean
      match l with
      | [] => simp [relEntries_succ_nil, aecE]
      | (k, v) :: rest =>
        rw [relEntries_succ_cons]
        simp only []
        rw [szE_cons] at hsz
        simp only [] at hsz
        rw [cleanE] at hclean
        simp only [Bool.and_eq_true] at hclean
        rw [List.length_append]
        rw [ihA c v (pfx ++ k) false _ (by omega) hclean.1]
        rw [ihB _ rest pfx fa tp _ (by omega) hclean.2]
        rw [aecE_cons]
    · intro c es idx rid path hsz hclean
      match es with
      | [] => simp [relElems_succ_nil, aecL]
      | e :: rest =>
        rw [relElems_succ_cons]
        simp only []
        rw [szL_cons] at hsz
        rw [cleanL] at hclean
        simp only [Bool.and_eq_true] at hclean
        obtain ⟨⟨hct, hcd⟩, hcrest⟩ := hclean
        obtain ⟨hc₁, ha₁, hs₁⟩ := listHelperRow_facts rid idx e hct hcd
        have hA := ihA c (listHelperRow rid idx e) path true path (by omega) hc₁
        obtain ⟨hlen, hsum⟩ := ihC ((relFuel cfg f c (listHelperRow rid idx e) path true path).2.1)
          rest (idx + 1) rid path (by omega) hcrest
        refine ⟨?_, ?_⟩
        · simp only [List.length_cons]
          rw [hlen]
        · simp only [List.map_cons, List.sum_cons]
          rw [hA, ha₁, hsum, aecL_cons]

/-! ### Column-name prefixing by the current path -/

/-- String prefix as explicit decomposition. -/
def strPref (p s : String) : Prop := ∃ t, s = p ++ t

theorem strPref_refl (p : String) : strPref p p := ⟨"", by simp⟩

theorem strPref_append (p s : String) : strPref p (p ++ s) := ⟨s, rfl⟩

theorem strPref_trans_append {p q s : String} (h₁ : strPref q s) (h₂ : strPref p q) :
    strPref p s := by
  obtain ⟨t₁, rfl⟩ := h₁
  obtain ⟨t₂, rfl⟩ := h₂
  exact ⟨t₂ ++ t₁, by rw [String.append_assoc]⟩

theorem str_append_ne_empty (p s : String) (h : p ≠ "") : p ++ s ≠ "" := by
  intro he
  apply h
  have hd : (p ++ s).data = ([] : List Char) := by rw [he]
  rw [String.data_append] at hd
  rcases List.append_eq_nil.mp hd with ⟨h₁, _⟩
  apply String.ext
  simpa using h₁

/-- A string with prefix `p ++ "_"` cannot equal a string `b` shorter
than that prefix in head: concretely, `"a" ++ t ≠ "b"`-style facts are
derived from data lists. -/
theorem strPref_ne_of_head {p s : String} (h : strPref p s) (c : Char) (hc : p.data.head? = some c)
    {b : String} (hb : b.data.head? ≠ some c) : s ≠ b := by
  obtain ⟨t, rfl⟩ := h
  intro he
  apply hb
  rw [← he, String.data_append]
  cases hp : p.data with
  | nil => rw [hp] at hc; simp at hc
  | cons x xs =>
    rw [hp] at hc
    simp at hc
    simp [hp, hc]

/-- With `fromArray = false` and a nonempty path, every column of the
returned flat row extends the path (subordinate writes aside, this is
the column-naming rule of §4.1). -/
theorem row_keys_prefixed (cfg : RelCfg) :
    ∀ fuel,
      (∀ c d path tp, path ≠ "" →
        ∀ q ∈ (relFuel cfg fuel c d path false tp).1, strPref path q.1) ∧
      (∀ c l path tp acc, path ≠ "" → (∀ q ∈ acc, strPref path q.1) →
        ∀ q ∈ (relEntries cfg fuel c l (path ++ "_") false tp acc).1, strPref path q.1) := by
  intro fuel
  induction fuel with
  | zero =>
    constructor
    · intro c d path tp hne q hq
      rw [relFuel_zero] at hq
      simp at hq
    · intro c l path tp acc hne hacc q hq
      rw [relEntries_zero] at hq
      exact hacc q hq
  | succ f ih =>
    obtain ⟨ihA, ihB⟩ := ih
    constructor
    · intro c d path tp hne q hq
      match d with
      | .list xs =>
        rw [relFuel_succ_list] at hq
        by_cases h0 : xs.length = 0
        · rw [if_pos h0] at hq
          simp at hq
          rw [hq]
          exact strPref_refl path
        · rw [if_neg h0] at hq
          by_cases hsa : cfg.stringify_arrays
          · rw [if_pos hsa] at hq
            simp at hq
            rw [hq]
            exact strPref_refl path
          · rw [if_neg hsa] at hq
            simp only [] at hq
            simp at hq
            rw [hq]
            exact strPref_refl path
      | .dict l =>
        rw [relFuel_succ_dict] at hq
        by_cases hO : path ≠ "" ∧ cfg.stringify_objects
        · rw [if_pos hO] at hq
          simp at hq
          rw [hq]
          exact strPref_refl path
        · rw [if_neg hO] at hq
          simp only [] at hq
          rw [if_neg (by simp [hne])] at hq
          exact ihB c l path tp [] hne (by simp) q hq
      | .none =>
        rw [relFuel_succ_none] at hq
        simp at hq
        rw [hq]
        exact strPref_refl path
      | .bool b =>
        rw [relFuel_succ_bool] at hq
        simp at hq
        rw [hq]
        exact strPref_refl path
      | .int n =>
        rw [relFuel_succ_int] at hq
        simp at hq
        rw [hq]
        exact strPref_refl path
      | .float q' =>
        rw [relFuel_succ_float] at hq
        simp at hq
        rw [hq]
        exact strPref_refl path
      | .str s =>
        rw [relFuel_succ_str] at hq
        simp at hq
        rw [hq]
        exact strPref_refl path
    · intro c l path tp acc hne hacc q hq
      match l with
      | [] =>
        rw [relEntries_succ_nil] at hq
        exact hacc q hq
      | (k, v) :: rest =>
        rw [relEntries_succ_cons] at hq
        simp only [] at hq
        refine ihB _ rest path tp _ hne ?_ q hq
        intro q' hq'
        have hkey : rowHasKey (dUpdMany acc
            (relFuel cfg f c v (path ++ "_" ++ k) false (if false = true then tp ++ "_" ++ k else "")).1) q'.1 = true := by
          rw [rowHasKey_iff]
          exact ⟨q', hq', rfl⟩
        rcases rowHasKey_dUpdMany hkey with hk | hk
        · rw [rowHasKey_iff] at hk
          obtain ⟨p, hp, hpe⟩ := hk
          rw [← hpe]
          exact hacc p hp
        · rw [rowHasKey_iff] at hk
          obtain ⟨p, hp, hpe⟩ := hk
          rw [← hpe]
          have hsub : strPref (path ++ "_" ++ k) p.1 := by
            have := ihA c v (path ++ "_" ++ k) _ (str_append_ne_empty _ _ (str_append_ne_empty _ _ hne)) p hp
            exact this
          exact strPref_trans_append hsub
            (by rw [String.append_assoc]; exact strPref_append path _)

/-! ### Splitting the dict-entry loop -/

theorem relEntries_nil (cfg : RelCfg) (fuel c : Nat) (pfx : String) (fa : Bool) (tp : String) (acc : Row) :
    relEntries cfg fuel c [] pfx fa tp acc = (acc, c, []) := by
  cases fuel with
  | zero => rfl
  | succ f => rfl

theorem szE_ge_length (l : List (String × PyVal)) : l.length ≤ szE l := by
  induction l with
  | nil => simp [szE]
  | cons p ps ih => rw [szE_cons]; simp only [List.length_cons]; omega

/-- Processing a concatenated entry list is processing the first part,
then the second from the reached state (with the fuel the first part
consumed). -/
theorem relEntries_append (cfg : RelCfg) :
    ∀ (l₁ : List (String × PyVal)) (fuel c : Nat) (l₂ : List (String × PyVal)) (pfx : String) (fa : Bool) (tp : String) (acc : Row),
      l₁.length < fuel →
      relEntries cfg fuel c (l₁ ++ l₂) pfx fa tp acc =
        let r₁ := relEntries cfg fuel c l₁ pfx fa tp acc
        let r₂ := relEntries cfg (fuel - l₁.length) r₁.2.1 l₂ pfx fa tp r₁.1
        (r₂.1, r₂.2.1, r₁.2.2 ++ r₂.2.2) := by
  intro l₁
  induction l₁ with
  | nil =>
    intro fuel c l₂ pfx fa tp acc hf
    simp [relEntries_nil]
  | cons p rest ih =>
    intro fuel c l₂ pfx fa tp acc hf
    match fuel, hf with
    | f + 1, hf =>
      obtain ⟨k, v⟩ := p
      rw [List.cons_append, relEntries_succ_cons, relEntries_succ_cons]
      simp only []
      rw [ih f _ l₂ pfx fa tp _ (by simpa using hf)]
      simp only [List.length_cons]
      have hsub : f + 1 - (rest.length + 1) = f - rest.length := by omega
      rw [hsub]
      simp [List.append_assoc]

/-- Decomposition of the `_list_helper` row: its entries end with the
two injected system columns. -/
theorem listHelperRow_decomp (rid : String) (idx : Nat) (e : PyVal)
    (hclean : elemTopClean e = true) :
    ∃ L, listHelperRow rid idx e = .dict (L ++ [("_rid_", .str rid), ("_index_", .int idx)]) := by
  cases e with
  | dict l =>
    refine ⟨l, ?_⟩
    show PyVal.dict (dUpd (dUpd l "_rid_" (.str rid)) "_index_" (.int idx)) = _
    rw [newRow_eq_append l _ _ hclean]
  | none => exact ⟨[("_val_", .none)], rfl⟩
  | bool b => exact ⟨[("_val_", .bool b)], rfl⟩
  | int n => exact ⟨[("_val_", .int n)], rfl⟩
  | float q => exact ⟨[("_val_", .float q)], rfl⟩
  | str s => exact ⟨[("_val_", .str s)], rfl⟩
  | list xs => exact ⟨[("_val_", .list xs)], rfl⟩

/-- The flat row produced for one array element: the injected system
columns are processed last, so they fix the row's `_rid_` and
`_index_` regardless of the element's own contents. -/
theorem listHelper_row_lookup (cfg : RelCfg) (hso : cfg.stringify_objects = false)
    (fuel c : Nat) (e : PyVal) (rid path : String) (idx : Nat)
    (hclean : elemTopClean e = true)
    (hfuel : sz (listHelperRow rid idx e) < fuel) :
    rowLookup (relFuel cfg fuel c (listHelperRow rid idx e) path true path).1 "_rid_" = some (.str rid) ∧
    rowLookup (relFuel cfg fuel c (listHelperRow rid idx e) path true path).1 "_index_" = some (.int idx) := by
  obtain ⟨L, hL⟩ := listHelperRow_decomp rid idx e hclean
  rw [hL] at hfuel ⊢
  have hszE : szE (L ++ [("_rid_", .str rid), ("_index_", .int idx)]) = szE L + 2 := by
    rw [szE_append]
    simp only [szE_cons, szE, sz]
    try omega
  rw [sz_dict_def, hszE] at hfuel
  have hlen := szE_ge_length L
  match fuel, hfuel with
  | f + 1, hfuel =>
    rw [relFuel_succ_dict]
    rw [if_neg (by simp [hso])]
    simp only []
    simp only [or_true, if_true]
    rw [relEntries_append cfg L f c _ "" true path [] (by omega)]
    simp only []
    have h2 : f - L.length = (f - L.length - 1) + 1 := by omega
    rw [h2, relEntries_succ_cons]
    simp only []
    have h3 : f - L.length - 1 = (f - L.length - 2) + 1 := by omega
    rw [h3, relFuel_succ_str, relEntries_succ_cons]
    simp only []
    have h4 : f - L.length - 2 = (f - L.length - 3) + 1 := by omega
    rw [h4, relFuel_succ_int, relEntries_nil]
    simp only []
    rw [show ("" ++ "_rid_" : String) = "_rid_" from rfl,
        show ("" ++ "_index_" : String) = "_index_" from rfl]
    rw [dUpdMany_single, dUpdMany_single]
    constructor
    · rw [rowLookup_dUpd_ne _ _ (by decide)]
      exact rowLookup_dUpd_self _ _ _
    · exact rowLookup_dUpd_self _ _ _

theorem relElems_nil (cfg : RelCfg) (fuel c idx : Nat) (rid path : String) :
    relElems cfg fuel c [] idx rid path = (c, []) := by
  cases fuel with
  | zero => rfl
  | succ f => rfl

/-- The `_list_helper` row weighs at most four more than its element. -/
theorem listHelperRow_sz_le (rid : String) (idx : Nat) (e : PyVal) :
    sz (listHelperRow rid idx e) ≤ sz e + 4 := by
  cases e with
  | dict l =>
    have h := sz_newRow_dict_le l rid idx
    show sz (.dict (dUpd (dUpd l "_rid_" (.str rid)) "_index_" (.int idx))) ≤ sz (.dict l) + 4
    omega
  | none =>
    show sz (.dict [("_val_", .none), ("_rid_", .str rid), ("_index_", .int idx)]) ≤ _
    rw [sz_newRow_other]
  | bool b =>
    show sz (.dict [("_val_", .bool b), ("_rid_", .str rid), ("_index_", .int idx)]) ≤ _
    rw [sz_newRow_other]
  | int n =>
    show sz (.dict [("_val_", .int n), ("_rid_", .str rid), ("_index_", .int idx)]) ≤ _
    rw [sz_newRow_other]
  | float q =>
    show sz (.dict [("_val_", .float q), ("_rid_", .str rid), ("_index_", .int idx)]) ≤ _
    rw [sz_newRow_other]
  | str s =>
    show sz (.dict [("_val_", .str s), ("_rid_", .str rid), ("_index_", .int idx)]) ≤ _
    rw [sz_newRow_other]
  | list xs =>
    show sz (.dict [("_val_", .list xs), ("_rid_", .str rid), ("_index_", .int idx)]) ≤ _
    rw [sz_newRow_other]

/-- Per-element facts of the array loop: one chunk per element, whose
row carries the shared RID and its zero-based position. -/
theorem relElems_props (cfg : RelCfg) (hso : cfg.stringify_objects = false) :
    ∀ (es : List PyVal) (fuel c idx : Nat) (rid path : String),
      szL es < fuel → (∀ e ∈ es, elemTopClean e = true) →
      (relElems cfg fuel c es idx rid path).2.length = es.length ∧
      ∀ i (h : i < (relElems cfg fuel c es idx rid path).2.length),
        rowLookup ((relElems cfg fuel c es idx rid path).2.get ⟨i, h⟩).2 "_rid_" = some (.str rid) ∧
        rowLookup ((relElems cfg fuel c es idx rid path).2.get ⟨i, h⟩).2 "_index_" = some (.int (idx + i)) := by
  intro es
  induction es with
  | nil =>
    intro fuel c idx rid path hsz hclean
    rw [relElems_nil]
    exact ⟨rfl, fun i h => absurd h (by simp)⟩
  | cons e rest ih =>
    intro fuel c idx rid path hsz hclean
    match fuel, hsz with
    | f + 1, hsz =>
      rw [relElems_succ_cons]
      simp only []
      rw [szL_cons] at hsz
      have hszr : sz (listHelperRow rid idx e) < f := by
        have := listHelperRow_sz_le rid idx e
        omega
      have hct : elemTopClean e = true := hclean e (by simp)
      have hrest : ∀ x ∈ rest, elemTopClean x = true := fun x hx => hclean x (by simp [hx])
      obtain ⟨hlen, hlook⟩ := ih f ((relFuel cfg f c (listHelperRow rid idx e) path true path).2.1)
        (idx + 1) rid path (by omega) hrest
      refine ⟨by simp [hlen], ?_⟩
      intro i h
      match i with
      | 0 =>
        simp only [List.get]
        have := listHelper_row_lookup cfg hso f c e rid path idx hct hszr
        simpa using this
      | i + 1 =>
        simp only [List.get]
        have hi : i < (relElems cfg f
            (relFuel cfg f c (listHelperRow rid idx e) path true path).2.1
            rest (idx + 1) rid path).2.length := by
          simp only [List.length_cons] at h
          omega
        obtain ⟨h₁, h₂⟩ := hlook i hi
        refine ⟨h₁, ?_⟩
        rw [h₂]
        congr 1
        push_cast
        ring_nf

/-! ### Unfolding the relationalizer on two-field root documents -/

/-- The RID shape: `R_` followed by 32 lowercase hex characters. -/
def ridForm (r : String) : Prop :=
  ∃ h : List Char, r.data = 'R' :: '_' :: h ∧ h.length = 32 ∧
    ∀ ch ∈ h, ch.isDigit = true ∨ ('a' ≤ ch ∧ ch ≤ 'f')

theorem hexDigitChar_hex : ∀ m, m < 16 →
    (hexDigitChar m).isDigit = true ∨ ('a' ≤ hexDigitChar m ∧ hexDigitChar m ≤ 'f') := by
  decide

/-- Every generated relational ID has the documented `R_<32-hex>`
shape. -/
theorem generate_rid_form (n : Nat) : ridForm (generate_rid n) := by
  refine ⟨hex32 n, ?_, ?_, ?_⟩
  · show ("R_" ++ String.mk (hex32 n)).data = _
    rw [String.data_append]
    rfl
  · simp [hex32]
  · intro ch hch
    rcases List.mem_map.mp hch with ⟨i, _, rfl⟩
    exact hexDigitChar_hex _ (Nat.mod_lt _ (by norm_num))

/-- Unfolding a root-level dict: no stringification applies at the
root, the column-path prefix is empty. -/
theorem relFuel_root_dict (cfg : RelCfg) (fuel c : Nat) (l : List (String × PyVal)) (tp : String) :
    relFuel cfg (fuel + 1) c (.dict l) "" false tp = relEntries cfg fuel c l "" false tp [] := by
  rw [relFuel_succ_dict]
  rw [if_neg (by simp)]
  simp

/-- `relEntries` step outside an array context (`temp_table_path` is
empty). -/
theorem relEntries_succ_cons_noarr (cfg : RelCfg) (fuel c : Nat) (k : String) (v : PyVal)
    (rest : List (String × PyVal)) (pfx : String) (tp : String) (acc : Row) :
    relEntries cfg (fuel + 1) c ((k, v) :: rest) pfx false tp acc =
      let r₁ := relFuel cfg fuel c v (pfx ++ k) false ""
      let r₂ := relEntries cfg fuel r₁.2.1 rest pfx false tp (dUpdMany acc r₁.1)
      (r₂.1, r₂.2.1, r₁.2.2 ++ r₂.2.2) := rfl

/-- Full unfolding of a document `\x7b"a": x, "b": B\x7d`: relationalize
`x` under column path `a`, then `B` under column path `b`, merge the two
fragments into the root row and append its write. -/
theorem relationalizeOne_doc2 (cfg : RelCfg) (c : Nat) (x B : PyVal) :
    relationalizeOne cfg c (.dict [("a", x), ("b", B)]) =
      (let r₁ := relFuel cfg (sz x + sz B + 2) c x "a" false ""
       let r₂ := relFuel cfg (sz x + sz B + 1) r₁.2.1 B "b" false ""
       (r₂.2.1, r₁.2.2 ++ r₂.2.2 ++ [(cfg.name, dUpdMany (dUpdMany [] r₁.1) r₂.1)])) := by
  have hsz : sz (.dict [("a", x), ("b", B)]) = sz x + sz B + 3 := by
    rw [sz_dict_def]
    simp only [szE_cons, szE]
    omega
  unfold relationalizeOne
  simp only []
  rw [hsz]
  rw [relFuel_root_dict]
  have e1 : sz x + sz B + 3 = (sz x + sz B + 2) + 1 := by omega
  rw [e1, relEntries_succ_cons_noarr]
  simp only []
  rw [show ("" ++ "a" : String) = "a" from rfl]
  have e2 : sz x + sz B + 2 = (sz x + sz B + 1) + 1 := by omega
  rw [e2, relEntries_succ_cons_noarr]
  simp only []
  rw [show ("" ++ "b" : String) = "b" from rfl]
  rw [relEntries_nil]
  rw [← e2]
  simp [List.append_assoc]

/-! ### Claim C1 -/

/-- C1 counterexample: the claim as stated fails on a document of the
required form when an array element uses the reserved `_rid_` key
together with an empty-string key whose nested `_rid_` flattens onto
the same column.  The single child row written to `T_b` carries
`_rid_ = 9`, not the RID stored in the parent row's `b` column. -/
theorem c1_counterexample :
    (relationalizeOne ⟨"T", false, false⟩ 0
        (.dict [("a", .int 1), ("b", .list [.dict [("_rid_", .int 0), ("", .dict [("_rid_", .int 9)])]])])).2
      = [("T_b", [("_rid_", .int 9), ("_index_", .int 0)]),
         ("T", [("a", .int 1), ("b", .str (generate_rid 0))])] ∧
    rowLookup [(("_rid_" : String), PyVal.int 9), ("_index_", PyVal.int 0)] "_rid_" = some (.int 9) ∧
    rowLookup [(("a" : String), PyVal.int 1), ("b", PyVal.str (generate_rid 0))] "b"
      = some (.str (generate_rid 0)) ∧
    PyVal.int 9 ≠ PyVal.str (generate_rid 0) := by
  refine ⟨rfl, rfl, rfl, ?_⟩
  intro h
  cases h

/-- C1 (amended): for a document `\x7b"a": x, "b": [e0, ..., en]\x7d`
relationalized with root table name `N` and both stringification flags
false, provided no object element of the array carries the reserved
keys `_rid_` or `_index_` among its top-level keys, the write stream
decomposes into the `a`-subtree's writes, then per element its nested
writes followed by exactly one row written to table `N_b`, then the
root row; each element's row carries `_rid_` equal to the string the
root row holds at column `b` and `_index_` equal to its zero-based
position; and that shared RID has the shape `R_` plus 32 hex
characters. -/
theorem c1_array_rows_clean (name : String) (x : PyVal) (es : List PyVal) (c : Nat)
    (hne : 0 < es.length) (hclean : ∀ e ∈ es, elemTopClean e = true) :
    ∃ (rid : String) (xw : List Write) (chunks : List (List Write × Row)) (mrow : Row) (c' : Nat),
      relationalizeOne ⟨name, false, false⟩ c (.dict [("a", x), ("b", .list es)])
        = (c', xw ++ ((chunks.map (fun ch => ch.1 ++ [(name ++ "_" ++ "b", ch.2)])).flatten) ++ [(name, mrow)]) ∧
      chunks.length = es.length ∧
      ridForm rid ∧
      rowLookup mrow "b" = some (.str rid) ∧
      (∀ i (h : i < chunks.length),
        rowLookup (chunks.get ⟨i, h⟩).2 "_rid_" = some (.str rid) ∧
        rowLookup (chunks.get ⟨i, h⟩).2 "_index_" = some (.int i)) := by
  rw [relationalizeOne_doc2]
  simp only []
  rw [relFuel_succ_list]
  rw [if_neg (by omega : ¬es.length = 0)]
  rw [if_neg (by simp : ¬(⟨name, false, false⟩ : RelCfg).stringify_arrays = true)]
  simp only []
  rw [if_neg (by simp : ¬("" : String) ≠ "")]
  set c₁ := (relFuel ⟨name, false, false⟩ (sz x + sz (.list es) + 2) c x "a" false "").2.1 with hc₁
  set rid := generate_rid c₁ with hrid
  have hbound : szL es < sz x + sz (.list es) := by
    rw [sz_list_def]
    omega
  obtain ⟨hlen, hlook⟩ := relElems_props ⟨name, false, false⟩ rfl es
    (sz x + sz (.list es)) (c₁ + 1) 0 rid "b" hbound hclean
  refine ⟨rid,
    (relFuel ⟨name, false, false⟩ (sz x + sz (.list es) + 2) c x "a" false "").2.2,
    (relElems ⟨name, false, false⟩ (sz x + sz (.list es)) (c₁ + 1) es 0 rid "b").2,
    dUpdMany (dUpdMany [] (relFuel ⟨name, false, false⟩ (sz x + sz (.list es) + 2) c x "a" false "").1)
      [("b", .str rid)],
    (relElems ⟨name, false, false⟩ (sz x + sz (.list es)) (c₁ + 1) es 0 rid "b").1,
    rfl, hlen, generate_rid_form c₁, ?_, ?_⟩
  · rw [dUpdMany_single]
    exact rowLookup_dUpd_self _ _ _
  · intro i h
    obtain ⟨h₁, h₂⟩ := hlook i (by omega)
    refine ⟨h₁, ?_⟩
    rw [h₂]
    congr 1
    simp

/-- C1 witness: the amended claim instantiated at the spec's example
document. -/
theorem c1_array_rows_clean_witness :
    ∃ (rid : String) (xw : List Write) (chunks : List (List Write × Row)) (mrow : Row) (c' : Nat),
      relationalizeOne ⟨"T", false, false⟩ 0
          (.dict [("a", .int 1), ("b", .list [.dict [("c", .int 2)], .dict [("c", .int 3)]])])
        = (c', xw ++ ((chunks.map (fun ch => ch.1 ++ [("T" ++ "_" ++ "b", ch.2)])).flatten) ++ [("T", mrow)]) ∧
      chunks.length = ([PyVal.dict [("c", .int 2)], PyVal.dict [("c", .int 3)]]).length ∧
      ridForm rid ∧
      rowLookup mrow "b" = some (.str rid) ∧
      (∀ i (h : i < chunks.length),
        rowLookup (chunks.get ⟨i, h⟩).2 "_rid_" = some (.str rid) ∧
        rowLookup (chunks.get ⟨i, h⟩).2 "_index_" = some (.int i)) :=
  c1_array_rows_clean "T" (.int 1) [.dict [("c", .int 2)], .dict [("c", .int 3)]] 0
    (by decide) (by decide)

/-! ### Claim C2 -/

/-- C2 counterexample: an array element that carries an array under the
reserved `_rid_` key has that array overwritten by the injected RID
before traversal, so its three elements are never written: only 2 rows
are emitted while `1 + aec` (one plus the element counts of every array
in the document) is 5. -/
theorem c2_counterexample :
    (relationalizeOne ⟨"T", false, false⟩ 0
        (.dict [("b", .list [.dict [("_rid_", .list [.int 1, .int 2, .int 3])]])])).2.length = 2 ∧
    1 + aec (.dict [("b", .list [.dict [("_rid_", .list [.int 1, .int 2, .int 3])]])]) = 5 :=
  ⟨rfl, rfl⟩

/-- C2 (amended): for every document whose array-element dicts avoid
the reserved `_rid_`/`_index_` top-level keys, relationalizing with
both stringification flags false writes exactly `1 + Σ|A|` rows over
all tables: the root row plus one row per element of every array
encountered (empty arrays contributing 0, nested arrays their own
counts). -/
theorem c2_row_count_clean (name : String) (c : Nat) (d : PyVal) (hclean : cleanDoc d = true) :
    (relationalizeOne ⟨name, false, false⟩ c d).2.length = 1 + aec d := by
  unfold relationalizeOne
  simp only []
  rw [List.length_append]
  rw [(count_writes ⟨name, false, false⟩ rfl rfl (sz d + 1)).1 c d "" false "" (by omega) hclean]
  simp [Nat.add_comm]

/-- C2 witness: the amended claim at a document with a nested array. -/
theorem c2_row_count_clean_witness :
    (relationalizeOne ⟨"T", false, false⟩ 0
        (.dict [("a", .int 1), ("b", .list [.int 4, .list [.int 5], .list []])])).2.length
      = 1 + aec (.dict [("a", .int 1), ("b", .list [.int 4, .list [.int 5], .list []])]) :=
  c2_row_count_clean "T" 0 _ (by decide)

/-! ### Claim C10 -/

/-- C10: with `stringify_arrays` set, an empty array still maps its
column to null — at document level the root row holds null at the
empty array's column and no subordinate row is written — and the
textual rendering is applied only to non-empty arrays. -/
theorem c10_stringify_arrays_empty_array (name : String) (so : Bool) (v : PyVal) (c : Nat) :
    (∃ row : Row,
      (relationalizeOne ⟨name, true, so⟩ c (.dict [("a", v), ("b", .list [])])).2
        = [(name, row)] ∧ rowLookup row "b" = some .none) ∧
    (∀ fuel c₀ path fa tp, relFuel ⟨name, true, so⟩ (fuel + 1) c₀ (.list []) path fa tp
        = ([(path, .none)], c₀, [])) ∧
    (∀ fuel c₀ (xs : List PyVal) path fa tp, xs ≠ [] →
      relFuel ⟨name, true, so⟩ (fuel + 1) c₀ (.list xs) path fa tp
        = ([(path, .str (pyStr (.list xs)))], c₀, [])) := by
  refine ⟨?_, ?_, ?_⟩
  · rw [relationalizeOne_doc2]
    simp only []
    rw [relFuel_succ_list]
    rw [if_pos (by simp : ([] : List PyVal).length = 0)]
    have hwa := (stringify_arrays_no_writes ⟨name, true, so⟩ rfl (sz v + sz (.list ([] : List PyVal)) + 2)).1
      c v "a" false ""
    refine ⟨dUpdMany (dUpdMany []
      (relFuel ⟨name, true, so⟩ (sz v + sz (.list ([] : List PyVal)) + 2) c v "a" false "").1)
      [("b", PyVal.none)], ?_, ?_⟩
    · rw [hwa]
      rfl
    · rw [dUpdMany_single]
      exact rowLookup_dUpd_self _ _ _
  · intro fuel c₀ path fa tp
    rw [relFuel_succ_list]
    rw [if_pos (by simp : ([] : List PyVal).length = 0)]
  · intro fuel c₀ xs path fa tp hxs
    rw [relFuel_succ_list]
    rw [if_neg (by simpa using hxs)]
    rw [if_pos (by simp : (⟨name, true, so⟩ : RelCfg).stringify_arrays = true)]

/-- C10 witness: a concrete document with an empty array under
`stringify_arrays`, and a concrete non-empty array being stringified. -/
theorem c10_stringify_arrays_empty_array_witness :
    (∃ row : Row,
      (relationalizeOne ⟨"T", true, false⟩ 0 (.dict [("a", PyVal.int 7), ("b", .list [])])).2
        = [("T", row)] ∧ rowLookup row "b" = some .none) ∧
    relFuel ⟨"T", true, false⟩ 1 0 (.list [PyVal.int 5]) "p" false ""
      = ([("p", .str (pyStr (.list [PyVal.int 5])))], 0, []) :=
  ⟨(c10_stringify_arrays_empty_array "T" false (.int 7) 0).1,
   (c10_stringify_arrays_empty_array "T" false (.int 7) 0).2.2 0 0 [.int 5] "p" false ""
     (by simp)⟩

/-! ### String and list lemmas for the choice-type machinery -/

/-- The member list of a choice string (everything after `c-`, split on
dashes). -/
def choiceMembers (t : String) : List String :=
  (splitDashChars (t.data.drop 2)).map String.mk

theorem splitDashChars_ne_nil : ∀ l : List Char, splitDashChars l ≠ [] := by
  intro l
  cases l with
  | nil => simp [splitDashChars]
  | cons c rest =>
    rw [splitDashChars]
    split
    · simp
    · split
      · simp
      · simp

theorem splitDashChars_append : ∀ a b : List Char,
    splitDashChars (a ++ '-' :: b) = splitDashChars a ++ splitDashChars b := by
  intro a
  induction a with
  | nil =>
    intro b
    simp [splitDashChars]
  | cons c rest ih =>
    intro b
    by_cases hc : c = '-'
    · subst hc
      rw [List.cons_append, splitDashChars, if_pos rfl, splitDashChars, if_pos rfl]
      rw [ih]
      simp
    · rw [List.cons_append, splitDashChars, if_neg hc]
      conv_rhs => rw [splitDashChars, if_neg hc]
      rw [ih]
      rcases hs : splitDashChars rest with _ | ⟨h, t⟩
      · exact absurd hs (splitDashChars_ne_nil rest)
      · simp

theorem splitDashChars_no_dash : ∀ l : List Char, '-' ∉ l → splitDashChars l = [l] := by
  intro l
  induction l with
  | nil => intro _; rfl
  | cons c rest ih =>
    intro h
    have hc : c ≠ '-' := fun he => h (by simp [he])
    have hrest : '-' ∉ rest := fun he => h (by simp [he])
    rw [splitDashChars, if_neg hc, ih hrest]

theorem data_append3 (a b c : String) : (a ++ b ++ c).data = a.data ++ b.data ++ c.data := by
  rw [String.data_append, String.data_append]

/-- Splitting the dash-join of dash-free pieces recovers the pieces. -/
theorem splitDash_joinDash : ∀ ms : List String, ms ≠ [] → (∀ m ∈ ms, '-' ∉ m.data) →
    (splitDashChars ((joinDash ms).data)).map String.mk = ms := by
  intro ms
  induction ms with
  | nil => intro h; exact absurd rfl h
  | cons m rest ih =>
    intro _ hdf
    match rest with
    | [] =>
      rw [joinDash, splitDashChars_no_dash _ (hdf m (by simp))]
      simp
    | m' :: rest' =>
      rw [show joinDash (m :: m' :: rest') = m ++ "-" ++ joinDash (m' :: rest') from rfl]
      have hdata : (m ++ "-" ++ joinDash (m' :: rest')).data
          = m.data ++ '-' :: (joinDash (m' :: rest')).data := by
        rw [data_append3]
        simp
      rw [hdata, splitDashChars_append, List.map_append]
      rw [splitDashChars_no_dash _ (hdf m (by simp))]
      rw [ih (List.cons_ne_nil _ _) (fun q hq => hdf q (by simp [hq]))]
      simp

theorem sInsert_le (a : String) (l : List String) (hle : ∀ b ∈ l, a ≤ b) :
    sInsert a l = a :: l := by
  cases l with
  | nil => rfl
  | cons b rest => rw [sInsert, if_pos (hle b (by simp))]

/-- Insertion sort fixes an already-sorted list. -/
theorem pySorted_of_sorted : ∀ l : List String, l.Pairwise (· ≤ ·) → pySorted l = l := by
  intro l
  induction l with
  | nil => intro _; rfl
  | cons a rest ih =>
    intro hp
    rw [List.pairwise_cons] at hp
    show sInsert a (pySorted rest) = a :: rest
    rw [ih hp.2]
    exact sInsert_le a rest hp.1

/-- Folding `set.add` over fresh, duplicate-free elements appends
them. -/
theorem foldl_setInsert_skip_none :
    ∀ (ms : List String) (acc : List String), (acc ++ ms).Nodup → "none" ∉ ms →
      ms.foldl (fun acc t => if t = "none" then acc else setInsert acc t) acc = acc ++ ms := by
  intro ms
  induction ms with
  | nil => intro acc _ _; simp
  | cons m rest ih =>
    intro acc hnd hnn
    have hm : m ≠ "none" := fun he => hnn (by simp [he])
    have hmacc : m ∉ acc := by
      intro hin
      have := List.disjoint_of_nodup_append hnd
      exact absurd (by simp : m ∈ m :: rest) (this hin)
    rw [List.foldl_cons, if_neg hm]
    rw [setInsert, if_neg hmacc]
    have hnd' : ((acc ++ [m]) ++ rest).Nodup := by
      have : acc ++ m :: rest = (acc ++ [m]) ++ rest := by simp
      rw [← this]
      exact hnd
    rw [ih (acc ++ [m]) hnd' (fun he => hnn (by simp [he]))]
    simp

/-- Folding `set.add` over elements already present is the identity. -/
theorem foldl_setInsert_subset :
    ∀ (ms : List String) (acc : List String), (∀ m ∈ ms, m ∈ acc) → "none" ∉ ms →
      ms.foldl (fun acc t => if t = "none" then acc else setInsert acc t) acc = acc := by
  intro ms
  induction ms with
  | nil => intro acc _ _; rfl
  | cons m rest ih =>
    intro acc hsub hnn
    have hm : m ≠ "none" := fun he => hnn (by simp [he])
    rw [List.foldl_cons, if_neg hm, setInsert, if_pos (hsub m (by simp))]
    exact ih acc (fun q hq => hsub q (by simp [hq])) (fun he => hnn (by simp [he]))

theorem listRemoveFirst_append_last (ms : List String) (x : String) (h : x ∉ ms) :
    listRemoveFirst (ms ++ [x]) x = ms := by
  induction ms with
  | nil => simp [listRemoveFirst]
  | cons m rest ih =>
    have hm : m ≠ x := fun he => h (by simp [he])
    rw [List.cons_append, listRemoveFirst, if_neg hm]
    rw [ih (fun hin => h (by simp [hin]))]

theorem listRemoveFirst_cons_self (ms : List String) (x : String) :
    listRemoveFirst (x :: ms) x = ms := by
  rw [listRemoveFirst, if_pos rfl]

/-- Substring containment holds for a literal head. -/
theorem strContains_of_pre (p s : String) : strContains (p ++ s) p = true := by
  unfold strContains
  rw [List.any_eq_true]
  refine ⟨0, ?_, ?_⟩
  · simp [String.data_append]
  · simp only [List.drop_zero, String.data_append]
    rw [List.isPrefixOf_iff_prefix]
    exact List.prefix_append _ _

/-! ### Well-formed column types and merge-rule lemmas -/

/-- The eight base lattice types. -/
def baseTypeList : List String :=
  ["none", "bool", "int", "bigint", "float", "str", "datetime", "datetime_tz"]

/-- A well-formed column type: a base type, or a choice over at least
two strictly sorted base members not containing `none` (the shape §3.2
documents). -/
def WFType (t : String) : Prop :=
  t ∈ baseTypeList ∨
  ∃ ms : List String, t = "c-" ++ joinDash ms ∧ ms.Pairwise (· < ·) ∧ 2 ≤ ms.length ∧
    ∀ m ∈ ms, m ∈ baseTypeList ∧ m ≠ "none"

theorem baseType_dash_free : ∀ m ∈ baseTypeList, ('-' : Char) ∉ m.data := by decide

theorem baseType_no_choice_sub : ∀ m ∈ baseTypeList, strContains m ("c-") = false := by decide

theorem choice_data_drop (X : String) : (("c-" ++ X).data).drop 2 = X.data := by
  rw [String.data_append]
  rfl

/-- The member expansion a choice type undergoes inside `merge`. -/
theorem choice_expansion (ms : List String) (hne : ms ≠ []) (hdf : ∀ m ∈ ms, '-' ∉ m.data) :
    (splitDashChars ((("c-" ++ joinDash ms)).data.drop 2)).map String.mk = ms := by
  rw [choice_data_drop]
  exact splitDash_joinDash ms hne hdf

/-- Merging a well-formed type with itself does not change it. -/
theorem mergeTypes_self (t : String) (hwf : WFType t) : mergeTypes t t = t := by
  rcases hwf with hbase | ⟨ms, rfl, hsort, hlen, hmem⟩
  · simp only [baseTypeList, List.mem_cons, List.not_mem_nil, or_false] at hbase
    rcases hbase with rfl | rfl | rfl | rfl | rfl | rfl | rfl | rfl <;> decide
  · have hcont : strContains ("c-" ++ joinDash ms) ("c-") = true := strContains_of_pre _ _
    have hnodup : ms.Nodup := hsort.imp (fun h => ne_of_lt h)
    have hdf : ∀ m ∈ ms, ('-' : Char) ∉ m.data := fun m hm => baseType_dash_free m (hmem m hm).1
    have hnn : "none" ∉ ms := fun h => (hmem _ h).2 rfl
    have hexp := choice_expansion ms (by intro h; rw [h] at hlen; simp at hlen) hdf
    unfold mergeTypes
    rw [if_pos hcont, hexp]
    rw [foldl_setInsert_skip_none ms [] (by simpa using hnodup) hnn]
    simp only [List.nil_append]
    rw [foldl_setInsert_subset ms ms (fun m hm => hm) hnn]
    rw [if_pos hcont]
    rw [if_neg hnn]
    match ms, hlen with
    | a :: b :: rest, _ =>
      simp only []
      rw [pySorted_of_sorted _ (hsort.imp (fun h => le_of_lt h))]

/-- Merging a well-formed type with `none` (either way round) yields
that type. -/
theorem mergeTypes_none (t : String) (hwf : WFType t) :
    mergeTypes t ("none") = t ∧ mergeTypes ("none") t = t := by
  rcases hwf with hbase | ⟨ms, rfl, hsort, hlen, hmem⟩
  · simp only [baseTypeList, List.mem_cons, List.not_mem_nil, or_false] at hbase
    rcases hbase with rfl | rfl | rfl | rfl | rfl | rfl | rfl | rfl <;> exact ⟨by decide, by decide⟩
  · have hcont : strContains ("c-" ++ joinDash ms) ("c-") = true := strContains_of_pre _ _
    have hnodup : ms.Nodup := hsort.imp (fun h => ne_of_lt h)
    have hdf : ∀ m ∈ ms, ('-' : Char) ∉ m.data := fun m hm => baseType_dash_free m (hmem m hm).1
    have hnn : "none" ∉ ms := fun h => (hmem _ h).2 rfl
    have hexp := choice_expansion ms (by intro h; rw [h] at hlen; simp at hlen) hdf
    have hsorted : pySorted ms = ms := pySorted_of_sorted _ (hsort.imp (fun h => le_of_lt h))
    constructor
    · unfold mergeTypes
      rw [if_pos hcont, hexp]
      rw [foldl_setInsert_skip_none ms [] (by simpa using hnodup) hnn]
      simp only [List.nil_append]
      rw [if_neg (by decide : ¬strContains ("none") ("c-") = true)]
      rw [show setInsert ms ("none") = ms ++ ["none"] from by rw [setInsert, if_neg hnn]]
      rw [if_pos (by simp : ("none" : String) ∈ ms ++ ["none"])]
      rw [listRemoveFirst_append_last ms _ hnn]
      match ms, hlen with
      | a :: b :: rest, _ =>
        simp only []
        rw [hsorted]
    · unfold mergeTypes
      simp only []
      rw [if_neg (by decide : ¬strContains ("none") ("c-") = true)]
      rw [show setInsert [] ("none") = ["none"] from rfl]
      rw [if_pos hcont, hexp]
      rw [foldl_setInsert_skip_none ms ["none"] (by simp [hnodup, hnn]) hnn]
      rw [show (["none"] ++ ms : List String) = "none" :: ms from rfl]
      rw [if_pos (by simp : ("none" : String) ∈ ("none" :: ms : List String))]
      rw [listRemoveFirst_cons_self]
      match ms, hlen with
      | a :: b :: rest, _ =>
        simp only []
        rw [hsorted]

/-- Concrete evaluation of `sorted` on the two-member list. -/
theorem pySorted_int_float : pySorted ["int", "float"] = ["float", "int"] := by
  show sInsert ("int") (sInsert ("float") []) = _
  rw [show sInsert ("float") [] = ["float"] from rfl]
  rw [sInsert, if_neg (by simp only [String.le_iff_toList_le]; decide)]
  rfl

/-- Merging `int` with `float` in `Schema.merge` forms the two-member
choice rather than promoting. -/
theorem mergeTypes_int_float : mergeTypes ("int") ("float") = "c-float-int" := by
  show "c-" ++ joinDash (pySorted ["int", "float"]) = "c-float-int"
  rw [pySorted_int_float]
  rfl

/-- `Schema.merge` of two single-entry schemas over the same key:
either the second `ColumnDict` equals the first (and is skipped) or
the existing entry is retyped by `mergeTypes`. -/
theorem merge_two_single (k : String) (c c' : ColumnDict) :
    merge [[(k, c)], [(k, c')]] =
      if c' = c then [(k, c)] else setTypeAt [(k, c)] k (mergeTypes c.type c'.type) := by
  simp only [merge, List.foldl_cons, List.foldl_nil, schemaLookup, beq_self_eq_true,
    if_true, List.nil_append]

/-- `setTypeAt` on a single matching entry keeps `is_primary`. -/
theorem setTypeAt_single (k : String) (c : ColumnDict) (t : String) :
    setTypeAt [(k, c)] k t = [(k, ⟨t, c.is_primary⟩)] := by
  simp [setTypeAt]

/-- Counterexample input for the `merge` promotion claim: merging a
single-field `int` schema with a single-field `float` schema yields the
choice type `c-float-int`, not `float`. -/
theorem c7_counterexample :
    merge [[("k", (⟨"int", false⟩ : ColumnDict))], [("k", ⟨"float", false⟩)]]
        = [("k", ⟨"c-float-int", false⟩)] ∧
    schemaLookup (merge [[("k", (⟨"int", false⟩ : ColumnDict))], [("k", ⟨"float", false⟩)]]) ("k")
        ≠ some ⟨"float", false⟩ ∧
    schemaLookup (merge [[("k", (⟨"int", false⟩ : ColumnDict))], [("k", ⟨"float", false⟩)]]) ("k")
        ≠ some ⟨"float", true⟩ := by
  have h : merge [[("k", (⟨"int", false⟩ : ColumnDict))], [("k", ⟨"float", false⟩)]]
      = [("k", ⟨"c-float-int", false⟩)] := by
    rw [merge_two_single, if_neg (by decide), setTypeAt_single, mergeTypes_int_float]
  exact ⟨h, by rw [h]; decide, by rw [h]; decide⟩

/-- C7 (amended): `Schema.merge` combines per-field types pointwise:
merging a well-formed type with itself leaves the entry unchanged,
merging with `none` (either way round) yields the other operand's type,
but merging `int` with `float` yields the choice `c-float-int`, not
`float`; the surviving `is_primary` flag is the first schema's. -/
theorem c7_merge_pointwise (k t : String) (p q : Bool) (hwf : WFType t) :
    merge [[(k, (⟨t, p⟩ : ColumnDict))], [(k, ⟨t, q⟩)]] = [(k, ⟨t, p⟩)] ∧
    merge [[(k, (⟨t, p⟩ : ColumnDict))], [(k, ⟨"none", q⟩)]] = [(k, ⟨t, p⟩)] ∧
    merge [[(k, (⟨"none", p⟩ : ColumnDict))], [(k, ⟨t, q⟩)]] = [(k, ⟨t, p⟩)] ∧
    merge [[(k, (⟨"int", p⟩ : ColumnDict))], [(k, ⟨"float", q⟩)]] = [(k, ⟨"c-float-int", p⟩)] := by
  refine ⟨?_, ?_, ?_, ?_⟩
  · rw [merge_two_single]
    by_cases h : (⟨t, q⟩ : ColumnDict) = ⟨t, p⟩
    · rw [if_pos h]
    · rw [if_neg h, setTypeAt_single]
      simp only [mergeTypes_self t hwf]
  · rw [merge_two_single]
    by_cases h : (⟨"none", q⟩ : ColumnDict) = ⟨t, p⟩
    · rw [if_pos h]
    · rw [if_neg h, setTypeAt_single]
      simp only [(mergeTypes_none t hwf).1]
  · rw [merge_two_single]
    by_cases h : (⟨t, q⟩ : ColumnDict) = ⟨"none", p⟩
    · rw [if_pos h]
      rw [ColumnDict.mk.injEq] at h
      rw [h.1]
    · rw [if_neg h, setTypeAt_single]
      simp only [(mergeTypes_none t hwf).2]
  · rw [merge_two_single, if_neg (by simp), setTypeAt_single]
    simp only [mergeTypes_int_float]

/-- Concrete instance of the amended `merge` rules at `t = "str"`,
`k = "k"`, differing `is_primary` flags. -/
theorem c7_merge_pointwise_witness :
    merge [[("k", (⟨"str", false⟩ : ColumnDict))], [("k", ⟨"str", true⟩)]]
        = [("k", ⟨"str", false⟩)] ∧
    merge [[("k", (⟨"str", false⟩ : ColumnDict))], [("k", ⟨"none", true⟩)]]
        = [("k", ⟨"str", false⟩)] ∧
    merge [[("k", (⟨"none", false⟩ : ColumnDict))], [("k", ⟨"str", true⟩)]]
        = [("k", ⟨"str", false⟩)] ∧
    merge [[("k", (⟨"int", false⟩ : ColumnDict))], [("k", ⟨"float", true⟩)]]
        = [("k", ⟨"c-float-int", false⟩)] :=
  c7_merge_pointwise ("k") ("str") false true (Or.inl (by decide))

/-- No base type is flagged unsupported. -/
theorem baseType_not_unsupported :
    ∀ m ∈ baseTypeList, is_unsupported_column_type m = false := by decide

/-- No base type starts with the choice sequence `c-`. -/
theorem baseType_not_choice : ∀ m ∈ baseTypeList, pyStartsWith m ("c-") = false := by decide

/-- `str.startswith` holds on a literal head. -/
theorem pyStartsWith_pre (p s : String) : pyStartsWith (p ++ s) p = true := by
  simp [pyStartsWith, String.data_append, List.isPrefixOf_iff_prefix, List.prefix_append]

/-- `split('-')` peels the `c` cell off a choice string. -/
theorem pySplitDash_choice (s : String) : pySplitDash ("c-" ++ s) = "c" :: pySplitDash s := by
  show (splitDashChars (("c-" ++ s).data)).map String.mk = _
  rw [show ("c-" ++ s).data = 'c' :: '-' :: s.data from by rw [String.data_append]; rfl]
  rw [show splitDashChars ('c' :: '-' :: s.data) = ['c'] :: splitDashChars s.data from by
    rw [splitDashChars, if_neg (by decide), splitDashChars, if_pos rfl]]
  simp [pySplitDash]

/-- `join` over an appended singleton. -/
theorem joinDash_append_single : ∀ (ms : List String), ms ≠ [] → ∀ vt : String,
    joinDash (ms ++ [vt]) = joinDash ms ++ "-" ++ vt := by
  intro ms
  induction ms with
  | nil => intro h; exact absurd rfl h
  | cons m rest ih =>
    intro _ vt
    match rest with
    | [] => rfl
    | m' :: rest' =>
      rw [show (m :: m' :: rest' : List String) ++ [vt] = m :: ((m' :: rest') ++ [vt]) from rfl]
      rw [show joinDash (m :: ((m' :: rest') ++ [vt]))
            = m ++ "-" ++ joinDash ((m' :: rest') ++ [vt]) from rfl]
      rw [ih (by simp) vt]
      rw [show joinDash (m :: m' :: rest') = m ++ "-" ++ joinDash (m' :: rest') from rfl]
      simp [String.append_assoc]

/-- Counterexample input for the choice-membership claim on
`read_object`: the runtime type `int` of the value `5` is *not* a member
of the choice `c-bigint-str`, yet the entry is left unchanged, because
the code tests Python substring containment and `"int"` occurs inside
`"bigint"`. -/
theorem c5_counterexample :
    readWriteObjectKey [("k", (⟨"c-bigint-str", false⟩ : ColumnDict))] ("k") (.int 5)
        = [("k", ⟨"c-bigint-str", false⟩)] ∧
    parseTypePy (.int 5) = "int" ∧
    ("int" ∉ choiceMembers ("c-bigint-str")) ∧
    strContains ("c-bigint-str") ("int") = true := by
  exact ⟨by decide, rfl, by decide, by decide⟩

/-- C5 (amended): for a schema entry holding a choice type, a value
whose classified runtime type occurs as a *substring* of the stored
choice string leaves the entry unchanged; otherwise the classified type
is appended to the member list and the entry is retyped to the choice
over the re-sorted members (for well-formed choices the `none`-dropping
and single-member collapse steps never fire). -/
theorem c5_choice_update (sch : SchemaMap) (key : String) (value : PyVal) (col : ColumnDict)
    (ms : List String)
    (hlook : schemaLookup sch key = some col)
    (hchoice : col.type = "c-" ++ joinDash ms)
    (hlen : 2 ≤ ms.length)
    (hmem : ∀ m ∈ ms, m ∈ baseTypeList ∧ m ≠ "none")
    (hvtb : parseTypePy value ∈ baseTypeList)
    (hvtn : parseTypePy value ≠ "none") :
    (strContains col.type (parseTypePy value) = true →
        readWriteObjectKey sch key value = sch) ∧
    (strContains col.type (parseTypePy value) = false →
        readWriteObjectKey sch key value
          = setTypeAt sch key ("c-" ++ joinDash (pySorted (ms ++ [parseTypePy value])))) := by
  have hne : ms ≠ [] := by intro h; rw [h] at hlen; simp at hlen
  have hvtu : is_unsupported_column_type (parseTypePy value) = false :=
    baseType_not_unsupported _ hvtb
  have hcs : pyStartsWith col.type ("c-") = true := by
    rw [hchoice]; exact pyStartsWith_pre _ _
  have hneq : col.type ≠ parseTypePy value := by
    intro h
    have hb := baseType_not_choice _ hvtb
    rw [← h, hcs] at hb
    exact Bool.true_eq_false.mp hb
  have hnn : col.type ≠ "none" := by
    intro h
    rw [h] at hcs
    exact absurd hcs (by decide)
  have hvtdf : '-' ∉ (parseTypePy value).data := baseType_dash_free _ hvtb
  have hchoices : (pySplitDash (col.type ++ "-" ++ parseTypePy value)).drop 1
      = ms ++ [parseTypePy value] := by
    rw [hchoice, String.append_assoc, String.append_assoc]
    rw [show joinDash ms ++ ("-" ++ parseTypePy value)
          = joinDash (ms ++ [parseTypePy value]) from by
      rw [joinDash_append_single ms hne, String.append_assoc]]
    rw [pySplitDash_choice]
    rw [show pySplitDash (joinDash (ms ++ [parseTypePy value])) = ms ++ [parseTypePy value] from
      splitDash_joinDash _ (by simp) (by
        intro m hm
        rcases List.mem_append.1 hm with h1 | h2
        · exact baseType_dash_free _ (hmem _ h1).1
        · rw [List.mem_singleton.1 h2]; exact hvtdf)]
    rfl
  have hnonone : ("none" : String) ∉ ms ++ [parseTypePy value] := by
    intro h
    rcases List.mem_append.1 h with h1 | h2
    · exact (hmem _ h1).2 rfl
    · exact hvtn (List.mem_singleton.1 h2).symm
  constructor
  · intro hsub
    unfold readWriteObjectKey
    simp only []
    rw [hvtu]
    rw [if_neg (by simp)]
    rw [hlook]
    simp only []
    rw [if_neg hneq, if_neg hnn, if_neg hvtn, if_pos hcs, if_pos hsub]
  · intro hsub
    unfold readWriteObjectKey
    simp only []
    rw [hvtu]
    rw [if_neg (by simp)]
    rw [hlook]
    simp only []
    rw [if_neg hneq, if_neg hnn, if_neg hvtn, if_pos hcs]
    rw [if_neg (by rw [hsub]; simp)]
    rw [hchoices]
    rw [if_neg hnonone]
    match ms, hlen with
    | a :: b :: rest, _ =>
      simp only [List.cons_append]

/-- Concrete instance of the amended choice-update rule: feeding the
value `5` (classified `int`, not a substring of `c-bool-str`) into a
`c-bool-str` entry appends and re-sorts the members. -/
theorem c5_choice_update_witness :
    readWriteObjectKey [("k", (⟨"c-bool-str", false⟩ : ColumnDict))] ("k") (.int 5)
      = setTypeAt [("k", ⟨"c-bool-str", false⟩)] ("k")
          ("c-" ++ joinDash (pySorted (["bool", "str"] ++ [parseTypePy (.int 5)]))) :=
  (c5_choice_update [("k", ⟨"c-bool-str", false⟩)] ("k") (.int 5) ⟨"c-bool-str", false⟩
    ["bool", "str"] rfl rfl (by decide) (by decide) (by decide) (by decide)).2 (by decide)

/-- String order facts used to evaluate `sorted` on concrete members. -/
theorem pySorted_float_str : pySorted ["float", "str"] = ["float", "str"] := by
  show sInsert ("float") (sInsert ("str") []) = _
  rw [show sInsert ("str") [] = ["str"] from rfl]
  rw [sInsert, if_pos (by simp only [String.le_iff_toList_le]; decide)]

/-- Concrete evaluation of `sorted` on the three-member list arising in
the `float`/`str`/`int` sequence. -/
theorem pySorted_float_str_int :
    pySorted ["float", "str", "int"] = ["float", "int", "str"] := by
  show sInsert ("float") (sInsert ("str") (sInsert ("int") [])) = _
  rw [show sInsert ("int") [] = ["int"] from rfl]
  rw [show sInsert ("str") ["int"] = ["int", "str"] from by
    rw [sInsert, if_neg (by simp only [String.le_iff_toList_le]; decide)]
    rfl]
  rw [sInsert, if_pos (by simp only [String.le_iff_toList_le]; decide)]

/-- Counterexample input for the int/float-exclusion invariant: reading
`float`, then `str`, then `int` values for the same key, starting from
an empty schema, stores the choice `c-float-int-str`, whose member set
contains both `int` and `float`. -/
theorem c6_counterexample :
    read_object (read_object (read_object []
          [("k", .float (⟨3, 2, by decide, by decide⟩ : ℚ))]) [("k", .str "a")])
        [("k", .int 1)]
      = [("k", ⟨"c-float-int-str", false⟩)] ∧
    "int" ∈ choiceMembers ("c-float-int-str") ∧
    "float" ∈ choiceMembers ("c-float-int-str") := by
  have h1 : read_object [] [("k", .float (⟨3, 2, by decide, by decide⟩ : ℚ))]
      = [("k", (⟨"float", false⟩ : ColumnDict))] := by decide
  have h2 : read_object [("k", (⟨"float", false⟩ : ColumnDict))] [("k", .str "a")]
      = [("k", ⟨"c-float-str", false⟩)] := by
    show setTypeAt [("k", (⟨"float", false⟩ : ColumnDict))] ("k")
        ("c-" ++ joinDash (pySorted ["float", "str"])) = _
    rw [pySorted_float_str]
    rfl
  have h3 : read_object [("k", (⟨"c-float-str", false⟩ : ColumnDict))] [("k", .int 1)]
      = [("k", ⟨"c-float-int-str", false⟩)] := by
    show setTypeAt [("k", (⟨"c-float-str", false⟩ : ColumnDict))] ("k")
        ("c-" ++ joinDash (pySorted ["float", "str", "int"])) = _
    rw [pySorted_float_str_int]
    rfl
  rw [h1, h2, h3]
  exact ⟨rfl, by decide, by decide⟩

/-- C6 (amended): the int/float promotion happens only while the stored
type is exactly the base `int` or `float`: an `int` entry meeting a
`float` value is retyped to `float`, and a `float` entry absorbs an
`int` value unchanged.  (Once a choice type has formed, `int` and
`float` can co-exist in its member set.) -/
theorem c6_int_float_promotion (sch : SchemaMap) (key : String) (value : PyVal)
    (col : ColumnDict) (hlook : schemaLookup sch key = some col) :
    (col.type = "int" → parseTypePy value = "float" →
        readWriteObjectKey sch key value = setTypeAt sch key ("float")) ∧
    (col.type = "float" → parseTypePy value = "int" →
        readWriteObjectKey sch key value = sch) := by
  constructor
  · intro hct hvt
    unfold readWriteObjectKey
    simp only []
    rw [hvt]
    rw [if_neg (by decide)]
    rw [hlook]
    simp only []
    rw [hct]
    rw [if_neg (by decide), if_neg (by decide), if_neg (by decide)]
    rw [if_neg (by decide)]
    rw [if_pos (show ("int" : String) = "int" ∧ True from ⟨rfl, trivial⟩)]
  · intro hct hvt
    unfold readWriteObjectKey
    simp only []
    rw [hvt]
    rw [if_neg (by decide)]
    rw [hlook]
    simp only []
    rw [hct]
    rw [if_neg (by decide), if_neg (by decide), if_neg (by decide)]
    rw [if_neg (by decide)]
    rw [if_neg (by decide)]
    rw [if_pos (show ("float" : String) = "float" ∧ True from ⟨rfl, trivial⟩)]

/-- Concrete instances of the base-type promotion rules. -/
theorem c6_int_float_promotion_witness :
    readWriteObjectKey [("k", (⟨"int", false⟩ : ColumnDict))] ("k")
        (.float (⟨3, 2, by decide, by decide⟩ : ℚ))
        = setTypeAt [("k", ⟨"int", false⟩)] ("k") ("float") ∧
    readWriteObjectKey [("k", (⟨"float", false⟩ : ColumnDict))] ("k") (.int 1)
        = [("k", ⟨"float", false⟩)] :=
  ⟨(c6_int_float_promotion [("k", ⟨"int", false⟩)] ("k")
      (.float (⟨3, 2, by decide, by decide⟩ : ℚ)) ⟨"int", false⟩ rfl).1 rfl (by decide),
   (c6_int_float_promotion [("k", ⟨"float", false⟩)] ("k") (.int 1)
      ⟨"float", false⟩ rfl).2 rfl rfl⟩

/-- C4: the two `convert_object` iteration strategies are *not*
equivalent: with schema `{a: int, b: int}` and record `{z: null}` the
dispatch picks the object iteration, which emits the null at the
schema-absent key `z`, while the schema iteration omits it. -/
theorem c4_iteration_divergence :
    convert_object [("a", (⟨"int", false⟩ : ColumnDict)), ("b", ⟨"int", false⟩)] [("z", .none)]
        = Except.ok [("z", PyVal.none)] ∧
    convertObjectObjectIteration [("a", (⟨"int", false⟩ : ColumnDict)), ("b", ⟨"int", false⟩)]
        [("z", .none)] = Except.ok [("z", PyVal.none)] ∧
    convertObjectSchemaIteration [("a", (⟨"int", false⟩ : ColumnDict)), ("b", ⟨"int", false⟩)]
        [("z", .none)] = Except.ok [] :=
  ⟨rfl, rfl, rfl⟩

/-- Python `object_value is None` as a boolean test. -/
def isNone : PyVal → Bool
  | PyVal.none => true
  | _ => false

theorem isNone_false_iff : ∀ {v : PyVal}, isNone v = false ↔ v ≠ PyVal.none := by
  intro v
  cases v <;> simp [isNone]

/-- A key is present iff `d[key]` yields a value. -/
theorem rowHasKey_some {r : Row} {k : String} :
    rowHasKey r k = true ↔ ∃ v, rowLookup r k = some v := by
  induction r with
  | nil => simp [rowHasKey, rowLookup]
  | cons p rest ih =>
    by_cases h : p.1 = k
    · simp [rowHasKey, rowLookup, h]
    · rw [show rowHasKey (p :: rest) k = (p.1 == k || rowHasKey rest k) from by
        simp [rowHasKey, List.any_cons]]
      rw [show rowLookup (p :: rest) k = if p.1 == k then some p.2 else rowLookup rest k from rfl]
      simp only [beq_eq_false_iff_ne.mpr h, Bool.false_or, Bool.false_eq_true, if_false]
      exact ih

/-- Updating a dict never removes a present key. -/
theorem rowHasKey_dUpd_mono {r : Row} {k k' : String} {v : PyVal}
    (h : rowHasKey r k = true) : rowHasKey (dUpd r k' v) k = true := by
  unfold dUpd
  split
  · rcases rowHasKey_iff.mp h with ⟨p, hp, hpk⟩
    refine rowHasKey_iff.mpr ?_
    by_cases hkk : p.1 = k'
    · exact ⟨(k', v), List.mem_map.mpr ⟨p, hp, by rw [if_pos (by simp [hkk])]⟩, hkk ▸ hpk⟩
    · exact ⟨p, List.mem_map.mpr ⟨p, hp, by rw [if_neg (by simp [hkk])]⟩, hpk⟩
  · rcases rowHasKey_iff.mp h with ⟨p, hp, hpk⟩
    exact rowHasKey_iff.mpr ⟨p, List.mem_append_left _ hp, hpk⟩

/-- The updated key is present after `d[key] = v`. -/
theorem rowHasKey_dUpd_same (r : Row) (k : String) (v : PyVal) :
    rowHasKey (dUpd r k v) k = true := by
  unfold dUpd
  split
  · next h =>
    rcases rowHasKey_iff.mp h with ⟨p, hp, hpk⟩
    exact rowHasKey_iff.mpr ⟨(k, v), List.mem_map.mpr ⟨p, hp, by rw [if_pos (by simp [hpk])]⟩, rfl⟩
  · exact rowHasKey_iff.mpr ⟨(k, v), List.mem_append_right _ (by simp), rfl⟩

/-- A successful lookup locates an actual binding. -/
theorem rowLookup_mem : ∀ {r : Row} {k : String} {v : PyVal},
    rowLookup r k = some v → (k, v) ∈ r := by
  intro r
  induction r with
  | nil => intro k v h; exact absurd h (by simp [rowLookup])
  | cons p rest ih =>
    intro k v h
    rw [show rowLookup (p :: rest) k = if p.1 == k then some p.2 else rowLookup rest k from rfl]
      at h
    by_cases hp : p.1 = k
    · rw [if_pos (by simp [hp])] at h
      have : p = (k, v) := by
        obtain ⟨p1, p2⟩ := p
        simp only at hp
        simp only [Option.some.injEq] at h
        rw [hp, h]
      rw [← this]
      exact List.mem_cons_self p rest
    · rw [if_neg (by simp [hp])] at h
      exact List.mem_cons_of_mem p (ih h)

/-- With duplicate-free keys, membership and lookup agree on rows. -/
theorem rowLookup_mem_iff {r : Row} {k : String} {v : PyVal}
    (hr : (r.map Prod.fst).Nodup) : (k, v) ∈ r ↔ rowLookup r k = some v := by
  refine ⟨?_, rowLookup_mem⟩
  induction r with
  | nil => intro h; exact absurd h (by simp)
  | cons p rest ih =>
    intro h
    rw [List.map_cons, List.nodup_cons] at hr
    rw [show rowLookup (p :: rest) k = if p.1 == k then some p.2 else rowLookup rest k from rfl]
    rcases List.mem_cons.1 h with heq | hmem
    · rw [← heq]
      simp
    · have : p.1 ≠ k := by
        intro hpk
        exact hr.1 (hpk ▸ List.mem_map.mpr ⟨(k, v), hmem, rfl⟩)
      rw [if_neg (by simp [this])]
      exact ih hr.2 hmem

/-- A successful schema lookup locates an actual entry. -/
theorem schemaLookup_mem : ∀ {sch : SchemaMap} {k : String} {col : ColumnDict},
    schemaLookup sch k = some col → (k, col) ∈ sch := by
  intro sch
  induction sch with
  | nil => intro k col h; exact absurd h (by simp [schemaLookup])
  | cons p rest ih =>
    intro k col h
    rw [show schemaLookup (p :: rest) k = if p.1 == k then some p.2 else schemaLookup rest k
        from rfl] at h
    by_cases hp : p.1 = k
    · rw [if_pos (by simp [hp])] at h
      have : p = (k, col) := by
        obtain ⟨p1, p2⟩ := p
        simp only at hp
        simp only [Option.some.injEq] at h
        rw [hp, h]
      rw [← this]
      exact List.mem_cons_self p rest
    · rw [if_neg (by simp [hp])] at h
      exact List.mem_cons_of_mem p (ih h)

/-- With duplicate-free keys, membership and lookup agree on schemas. -/
theorem schemaLookup_mem_iff {sch : SchemaMap} {k : String} {col : ColumnDict}
    (hs : (sch.map Prod.fst).Nodup) : (k, col) ∈ sch ↔ schemaLookup sch k = some col := by
  refine ⟨?_, schemaLookup_mem⟩
  induction sch with
  | nil => intro h; exact absurd h (by simp)
  | cons p rest ih =>
    intro h
    rw [List.map_cons, List.nodup_cons] at hs
    rw [show schemaLookup (p :: rest) k = if p.1 == k then some p.2 else schemaLookup rest k
        from rfl]
    rcases List.mem_cons.1 h with heq | hmem
    · rw [← heq]
      simp
    · have : p.1 ≠ k := by
        intro hpk
        exact hs.1 (hpk ▸ List.mem_map.mpr ⟨(k, col), hmem, rfl⟩)
      rw [if_neg (by simp [this])]
      exact ih hs.2 hmem

/-- One step of the schema-iteration loop at a key absent from the
record. -/
theorem schemaIter_step_absent (record : Row) (key : String) (col : ColumnDict)
    (rest : SchemaMap) (out : Row) (hk : rowHasKey record key = false) :
    convertObjectSchemaIteration.go record ((key, col) :: rest) out
      = convertObjectSchemaIteration.go record rest out := by
  simp only [convertObjectSchemaIteration.go, hk, Bool.false_eq_true, if_false]

/-- One step of the schema-iteration loop at a null value. -/
theorem schemaIter_step_null (record : Row) (key : String) (col : ColumnDict)
    (rest : SchemaMap) (out : Row) (hv : rowLookup record key = some PyVal.none) :
    convertObjectSchemaIteration.go record ((key, col) :: rest) out
      = convertObjectSchemaIteration.go record rest (dUpd out key PyVal.none) := by
  have hk : rowHasKey record key = true := rowHasKey_some.mpr ⟨_, hv⟩
  simp only [convertObjectSchemaIteration.go, hk, hv, if_true]

/-- One step of the schema-iteration loop at a non-null value. -/
theorem schemaIter_step (record : Row) (key : String) (col : ColumnDict)
    (rest : SchemaMap) (out : Row) (v : PyVal) (hv : rowLookup record key = some v)
    (hn : isNone v = false) :
    convertObjectSchemaIteration.go record ((key, col) :: rest) out
      = (if is_choice_column_type col.type then
          (if strContains col.type (parseTypePy v) then
            convertObjectSchemaIteration.go record rest
              (dUpd out (key ++ "_" ++ parseTypePy v) v)
          else .error ("Unknown type found within object. But not within the schema."))
        else convertObjectSchemaIteration.go record rest (dUpd out key v)) := by
  cases v
  case none => exact absurd hn (by simp [isNone])
  all_goals (
    have hk : rowHasKey record key = true := rowHasKey_some.mpr ⟨_, hv⟩
    simp only [convertObjectSchemaIteration.go, hk, hv, if_true])

/-- The schema-iteration loop errors exactly when some schema entry
meets a non-null record value whose classified type is not a substring
of its choice string. -/
theorem schemaIter_go_error_iff (record : Row) :
    ∀ (sch : SchemaMap) (out : Row),
      (∃ e, convertObjectSchemaIteration.go record sch out = Except.error e) ↔
      (∃ k col v, (k, col) ∈ sch ∧ rowLookup record k = some v ∧ isNone v = false ∧
        is_choice_column_type col.type = true ∧
        strContains col.type (parseTypePy v) = false) := by
  intro sch
  induction sch with
  | nil =>
    intro out
    constructor
    · rintro ⟨e, he⟩
      exact absurd he (by simp [convertObjectSchemaIteration.go])
    · rintro ⟨k, c, w, hmem, _⟩
      exact absurd hmem (by simp)
  | cons p rest ih =>
    obtain ⟨key, col⟩ := p
    intro out
    by_cases hk : rowHasKey record key = true
    · obtain ⟨v, hv⟩ := rowHasKey_some.mp hk
      by_cases hnv : isNone v = true
      · have hvn : v = PyVal.none := by cases v <;> simp_all [isNone]
        subst hvn
        rw [schemaIter_step_null record key col rest out hv, ih]
        constructor
        · rintro ⟨k, c, w, hmem, h2, h3, h4, h5⟩
          exact ⟨k, c, w, List.mem_cons_of_mem _ hmem, h2, h3, h4, h5⟩
        · rintro ⟨k, c, w, hmem, h2, h3, h4, h5⟩
          rcases List.mem_cons.1 hmem with heq | hmem'
          · rw [Prod.mk.injEq] at heq
            rw [heq.1, hv] at h2
            rw [Option.some.injEq] at h2
            rw [← h2] at h3
            exact absurd h3 (by simp [isNone])
          · exact ⟨k, c, w, hmem', h2, h3, h4, h5⟩
      · have hn : isNone v = false := by simpa using hnv
        rw [schemaIter_step record key col rest out v hv hn]
        by_cases hc : is_choice_column_type col.type = true
        · rw [if_pos hc]
          by_cases hs : strContains col.type (parseTypePy v) = true
          · rw [if_pos hs, ih]
            constructor
            · rintro ⟨k, c, w, hmem, h2, h3, h4, h5⟩
              exact ⟨k, c, w, List.mem_cons_of_mem _ hmem, h2, h3, h4, h5⟩
            · rintro ⟨k, c, w, hmem, h2, h3, h4, h5⟩
              rcases List.mem_cons.1 hmem with heq | hmem'
              · rw [Prod.mk.injEq] at heq
                rw [heq.1, hv] at h2
                rw [Option.some.injEq] at h2
                rw [← h2, heq.2] at h5
                rw [h5] at hs
                exact absurd hs (by simp)
              · exact ⟨k, c, w, hmem', h2, h3, h4, h5⟩
          · rw [if_neg hs]
            constructor
            · intro _
              exact ⟨key, col, v, List.mem_cons_self _ _, hv, hn, hc, by simpa using hs⟩
            · intro _
              exact ⟨_, rfl⟩
        · rw [if_neg hc, ih]
          constructor
          · rintro ⟨k, c, w, hmem, h2, h3, h4, h5⟩
            exact ⟨k, c, w, List.mem_cons_of_mem _ hmem, h2, h3, h4, h5⟩
          · rintro ⟨k, c, w, hmem, h2, h3, h4, h5⟩
            rcases List.mem_cons.1 hmem with heq | hmem'
            · rw [Prod.mk.injEq] at heq
              rw [heq.2] at h4
              exact absurd h4 hc
            · exact ⟨k, c, w, hmem', h2, h3, h4, h5⟩
    · have hk' : rowHasKey record key = false := by simpa using hk
      rw [schemaIter_step_absent record key col rest out hk', ih]
      constructor
      · rintro ⟨k, c, w, hmem, h2, h3, h4, h5⟩
        exact ⟨k, c, w, List.mem_cons_of_mem _ hmem, h2, h3, h4, h5⟩
      · rintro ⟨k, c, w, hmem, h2, h3, h4, h5⟩
        rcases List.mem_cons.1 hmem with heq | hmem'
        · rw [Prod.mk.injEq] at heq
          rw [heq.1] at h2
          exact absurd (rowHasKey_some.mpr ⟨w, h2⟩) (by simp [hk'])
        · exact ⟨k, c, w, hmem', h2, h3, h4, h5⟩

/-- One step of the object-iteration loop at a null value: the null is
emitted before the schema-membership check. -/
theorem objIter_step_null (sch : SchemaMap) (key : String) (rest : Row) (out : Row) :
    convertObjectObjectIteration.go sch ((key, PyVal.none) :: rest) out
      = convertObjectObjectIteration.go sch rest (dUpd out key PyVal.none) := rfl

/-- One step of the object-iteration loop at a non-null value. -/
theorem objIter_step (sch : SchemaMap) (key : String) (rest : Row) (out : Row)
    (v : PyVal) (hn : isNone v = false) :
    convertObjectObjectIteration.go sch ((key, v) :: rest) out
      = (match schemaLookup sch key with
         | Option.none => convertObjectObjectIteration.go sch rest out
         | some col =>
           if is_choice_column_type col.type then
             (if strContains col.type (parseTypePy v) then
               convertObjectObjectIteration.go sch rest
                 (dUpd out (key ++ "_" ++ parseTypePy v) v)
             else .error ("Unknown type found within object. But not within the schema."))
           else convertObjectObjectIteration.go sch rest (dUpd out key v)) := by
  cases v
  case none => exact absurd hn (by simp [isNone])
  all_goals rfl

/-- The object-iteration loop errors exactly when some non-null record
value sits at a schema key of choice type without its classified type
occurring as a substring of the choice string. -/
theorem objIter_go_error_iff (sch : SchemaMap) :
    ∀ (rec : Row) (out : Row),
      (∃ e, convertObjectObjectIteration.go sch rec out = Except.error e) ↔
      (∃ k v col, (k, v) ∈ rec ∧ isNone v = false ∧ schemaLookup sch k = some col ∧
        is_choice_column_type col.type = true ∧
        strContains col.type (parseTypePy v) = false) := by
  intro rec
  induction rec with
  | nil =>
    intro out
    constructor
    · rintro ⟨e, he⟩
      exact absurd he (by simp [convertObjectObjectIteration.go])
    · rintro ⟨k, w, c, hmem, _⟩
      exact absurd hmem (by simp)
  | cons p rest ih =>
    obtain ⟨key, v⟩ := p
    intro out
    by_cases hnv : isNone v = true
    · have hvn : v = PyVal.none := by cases v <;> simp_all [isNone]
      subst hvn
      rw [objIter_step_null, ih]
      constructor
      · rintro ⟨k, w, c, hmem, h2, h3, h4, h5⟩
        exact ⟨k, w, c, List.mem_cons_of_mem _ hmem, h2, h3, h4, h5⟩
      · rintro ⟨k, w, c, hmem, h2, h3, h4, h5⟩
        rcases List.mem_cons.1 hmem with heq | hmem'
        · rw [Prod.mk.injEq] at heq
          rw [heq.2] at h2
          exact absurd h2 (by simp [isNone])
        · exact ⟨k, w, c, hmem', h2, h3, h4, h5⟩
    · have hn : isNone v = false := by simpa using hnv
      rw [objIter_step sch key rest out v hn]
      cases hsch : schemaLookup sch key with
      | none =>
        rw [ih]
        constructor
        · rintro ⟨k, w, c, hmem, h2, h3, h4, h5⟩
          exact ⟨k, w, c, List.mem_cons_of_mem _ hmem, h2, h3, h4, h5⟩
        · rintro ⟨k, w, c, hmem, h2, h3, h4, h5⟩
          rcases List.mem_cons.1 hmem with heq | hmem'
          · rw [Prod.mk.injEq] at heq
            rw [heq.1] at h3
            rw [hsch] at h3
            exact absurd h3 (by simp)
          · exact ⟨k, w, c, hmem', h2, h3, h4, h5⟩
      | some col =>
        simp only []
        by_cases hc : is_choice_column_type col.type = true
        · rw [if_pos hc]
          by_cases hs : strContains col.type (parseTypePy v) = true
          · rw [if_pos hs, ih]
            constructor
            · rintro ⟨k, w, c, hmem, h2, h3, h4, h5⟩
              exact ⟨k, w, c, List.mem_cons_of_mem _ hmem, h2, h3, h4, h5⟩
            · rintro ⟨k, w, c, hmem, h2, h3, h4, h5⟩
              rcases List.mem_cons.1 hmem with heq | hmem'
              · rw [Prod.mk.injEq] at heq
                rw [heq.1, hsch] at h3
                rw [Option.some.injEq] at h3
                rw [← h3, heq.2] at h5
                rw [h5] at hs
                exact absurd hs (by simp)
              · exact ⟨k, w, c, hmem', h2, h3, h4, h5⟩
          · rw [if_neg hs]
            constructor
            · intro _
              exact ⟨key, v, col, List.mem_cons_self _ _, hn, hsch, hc, by simpa using hs⟩
            · intro _
              exact ⟨_, rfl⟩
        · rw [if_neg hc, ih]
          constructor
          · rintro ⟨k, w, c, hmem, h2, h3, h4, h5⟩
            exact ⟨k, w, c, List.mem_cons_of_mem _ hmem, h2, h3, h4, h5⟩
          · rintro ⟨k, w, c, hmem, h2, h3, h4, h5⟩
            rcases List.mem_cons.1 hmem with heq | hmem'
            · rw [Prod.mk.injEq] at heq
              rw [heq.1, hsch] at h3
              rw [Option.some.injEq] at h3
              rw [← h3] at h4
              exact absurd h4 hc
            · exact ⟨k, w, c, hmem', h2, h3, h4, h5⟩

/-- Keys already emitted survive the rest of the schema iteration. -/
theorem schemaIter_go_mono (record : Row) :
    ∀ (sch : SchemaMap) (out res : Row) (k : String),
      convertObjectSchemaIteration.go record sch out = Except.ok res →
      rowHasKey out k = true → rowHasKey res k = true := by
  intro sch
  induction sch with
  | nil =>
    intro out res k h hk
    have hor : out = res := by simpa [convertObjectSchemaIteration.go] using h
    rw [← hor]
    exact hk
  | cons p rest ih =>
    obtain ⟨key, col⟩ := p
    intro out res k h hk
    by_cases hkk : rowHasKey record key = true
    · obtain ⟨v, hv⟩ := rowHasKey_some.mp hkk
      by_cases hnv : isNone v = true
      · have hvn : v = PyVal.none := by cases v <;> simp_all [isNone]
        subst hvn
        rw [schemaIter_step_null record key col rest out hv] at h
        exact ih _ _ k h (rowHasKey_dUpd_mono hk)
      · have hn : isNone v = false := by simpa using hnv
        rw [schemaIter_step record key col rest out v hv hn] at h
        by_cases hc : is_choice_column_type col.type = true
        · rw [if_pos hc] at h
          by_cases hsub : strContains col.type (parseTypePy v) = true
          · rw [if_pos hsub] at h
            exact ih _ _ k h (rowHasKey_dUpd_mono hk)
          · rw [if_neg hsub] at h
            exact absurd h (by simp)
        · rw [if_neg hc] at h
          exact ih _ _ k h (rowHasKey_dUpd_mono hk)
    · rw [schemaIter_step_absent record key col rest out (by simpa using hkk)] at h
      exact ih _ _ k h hk

/-- A choice split whose classified type passes the substring test ends
up present in the schema-iteration output under `key_<type>`. -/
theorem schemaIter_go_presence (record : Row) :
    ∀ (sch : SchemaMap) (out res : Row),
      convertObjectSchemaIteration.go record sch out = Except.ok res →
      ∀ k col v, (k, col) ∈ sch → rowLookup record k = some v → isNone v = false →
        is_choice_column_type col.type = true → strContains col.type (parseTypePy v) = true →
        rowHasKey res (k ++ "_" ++ parseTypePy v) = true := by
  intro sch
  induction sch with
  | nil =>
    intro out res h k col v hmem
    exact absurd hmem (by simp)
  | cons p rest ih =>
    obtain ⟨key, kcol⟩ := p
    intro out res h k col v hmem hl hn hc hsub
    rcases List.mem_cons.1 hmem with heq | hmem'
    · rw [Prod.mk.injEq] at heq
      obtain ⟨hk1, hk2⟩ := heq
      subst hk1
      subst hk2
      rw [schemaIter_step record k col rest out v hl hn, if_pos hc, if_pos hsub] at h
      exact schemaIter_go_mono record rest _ res _ h (rowHasKey_dUpd_same _ _ _)
    · by_cases hkk : rowHasKey record key = true
      · obtain ⟨w, hw⟩ := rowHasKey_some.mp hkk
        by_cases hnw : isNone w = true
        · have hwn : w = PyVal.none := by cases w <;> simp_all [isNone]
          subst hwn
          rw [schemaIter_step_null record key kcol rest out hw] at h
          exact ih _ _ h k col v hmem' hl hn hc hsub
        · have hnw' : isNone w = false := by simpa using hnw
          rw [schemaIter_step record key kcol rest out w hw hnw'] at h
          by_cases hck : is_choice_column_type kcol.type = true
          · rw [if_pos hck] at h
            by_cases hsk : strContains kcol.type (parseTypePy w) = true
            · rw [if_pos hsk] at h
              exact ih _ _ h k col v hmem' hl hn hc hsub
            · rw [if_neg hsk] at h
              exact absurd h (by simp)
          · rw [if_neg hck] at h
            exact ih _ _ h k col v hmem' hl hn hc hsub
      · rw [schemaIter_step_absent record key kcol rest out (by simpa using hkk)] at h
        exact ih _ _ h k col v hmem' hl hn hc hsub

/-- Keys already emitted survive the rest of the object iteration. -/
theorem objIter_go_mono (sch : SchemaMap) :
    ∀ (rec : Row) (out res : Row) (k : String),
      convertObjectObjectIteration.go sch rec out = Except.ok res →
      rowHasKey out k = true → rowHasKey res k = true := by
  intro rec
  induction rec with
  | nil =>
    intro out res k h hk
    have hor : out = res := by simpa [convertObjectObjectIteration.go] using h
    rw [← hor]
    exact hk
  | cons p rest ih =>
    obtain ⟨key, v⟩ := p
    intro out res k h hk
    by_cases hnv : isNone v = true
    · have hvn : v = PyVal.none := by cases v <;> simp_all [isNone]
      subst hvn
      rw [objIter_step_null] at h
      exact ih _ _ k h (rowHasKey_dUpd_mono hk)
    · have hn : isNone v = false := by simpa using hnv
      rw [objIter_step sch key rest out v hn] at h
      cases hsch : schemaLookup sch key with
      | none =>
        rw [hsch] at h
        exact ih _ _ k h hk
      | some col =>
        rw [hsch] at h
        simp only [] at h
        by_cases hc : is_choice_column_type col.type = true
        · rw [if_pos hc] at h
          by_cases hsub : strContains col.type (parseTypePy v) = true
          · rw [if_pos hsub] at h
            exact ih _ _ k h (rowHasKey_dUpd_mono hk)
          · rw [if_neg hsub] at h
            exact absurd h (by simp)
        · rw [if_neg hc] at h
          exact ih _ _ k h (rowHasKey_dUpd_mono hk)

/-- A choice split whose classified type passes the substring test ends
up present in the object-iteration output under `key_<type>`. -/
theorem objIter_go_presence (sch : SchemaMap) :
    ∀ (rec : Row) (out res : Row),
      convertObjectObjectIteration.go sch rec out = Except.ok res →
      ∀ k v col, (k, v) ∈ rec → isNone v = false → schemaLookup sch k = some col →
        is_choice_column_type col.type = true → strContains col.type (parseTypePy v) = true →
        rowHasKey res (k ++ "_" ++ parseTypePy v) = true := by
  intro rec
  induction rec with
  | nil =>
    intro out res h k v col hmem
    exact absurd hmem (by simp)
  | cons p rest ih =>
    obtain ⟨key, w⟩ := p
    intro out res h k v col hmem hn hl hc hsub
    rcases List.mem_cons.1 hmem with heq | hmem'
    · rw [Prod.mk.injEq] at heq
      obtain ⟨hk1, hk2⟩ := heq
      subst hk1
      subst hk2
      rw [objIter_step sch k rest out v hn, hl] at h
      simp only [] at h
      rw [if_pos hc, if_pos hsub] at h
      exact objIter_go_mono sch rest _ res _ h (rowHasKey_dUpd_same _ _ _)
    · by_cases hnw : isNone w = true
      · have hwn : w = PyVal.none := by cases w <;> simp_all [isNone]
        subst hwn
        rw [objIter_step_null] at h
        exact ih _ _ h k v col hmem' hn hl hc hsub
      · have hnw' : isNone w = false := by simpa using hnw
        rw [objIter_step sch key rest out w hnw'] at h
        cases hsch : schemaLookup sch key with
        | none =>
          rw [hsch] at h
          exact ih _ _ h k v col hmem' hn hl hc hsub
        | some kcol =>
          rw [hsch] at h
          simp only [] at h
          by_cases hck : is_choice_column_type kcol.type = true
          · rw [if_pos hck] at h
            by_cases hsk : strContains kcol.type (parseTypePy w) = true
            · rw [if_pos hsk] at h
              exact ih _ _ h k v col hmem' hn hl hc hsub
            · rw [if_neg hsk] at h
              exact absurd h (by simp)
          · rw [if_neg hck] at h
            exact ih _ _ h k v col hmem' hn hl hc hsub

/-- Counterexample input for the member-set reading of the
`convert_object` error condition: `5` classifies as `int`, which is not
a member of the choice `c-bigint-str`, yet no error is raised and the
value is emitted under `k_int`, because the code tests substring
containment and `"int"` occurs inside `"bigint"`. -/
theorem c3_counterexample :
    convert_object [("k", (⟨"c-bigint-str", false⟩ : ColumnDict))] [("k", .int 5)]
        = Except.ok [("k_int", .int 5)] ∧
    "int" ∉ choiceMembers ("c-bigint-str") :=
  ⟨rfl, by decide⟩

/-- C3 (amended): `convert_object` raises its fatal inconsistency error
iff some non-null record value sits at a schema key of choice type whose
classified runtime type does *not* occur as a substring of the stored
choice string (Python `in` on strings); when the substring test passes,
the value is emitted under the sub-column `key_<type>`. -/
theorem c3_error_iff (sch : SchemaMap) (record : Row)
    (hs : (sch.map Prod.fst).Nodup) (hr : (record.map Prod.fst).Nodup) :
    ((∃ e, convert_object sch record = Except.error e) ↔
      (∃ k col v, schemaLookup sch k = some col ∧ rowLookup record k = some v ∧
        isNone v = false ∧ is_choice_column_type col.type = true ∧
        strContains col.type (parseTypePy v) = false)) ∧
    (∀ out, convert_object sch record = Except.ok out →
      ∀ k col v, schemaLookup sch k = some col → rowLookup record k = some v →
        isNone v = false → is_choice_column_type col.type = true →
        strContains col.type (parseTypePy v) = true →
          rowHasKey out (k ++ "_" ++ parseTypePy v) = true) := by
  unfold convert_object
  by_cases hlen : sch.length > record.length
  · rw [if_pos hlen]
    constructor
    · rw [show convertObjectObjectIteration sch record
          = convertObjectObjectIteration.go sch record [] from rfl]
      rw [objIter_go_error_iff]
      constructor
      · rintro ⟨k, v, col, hmem, h2, h3, h4, h5⟩
        exact ⟨k, col, v, h3, (rowLookup_mem_iff hr).mp hmem, h2, h4, h5⟩
      · rintro ⟨k, col, v, h1, h2, h3, h4, h5⟩
        exact ⟨k, v, col, rowLookup_mem h2, h3, h1, h4, h5⟩
    · intro out hout k col v h1 h2 h3 h4 h5
      exact objIter_go_presence sch record [] out hout k v col (rowLookup_mem h2) h3 h1 h4 h5
  · rw [if_neg hlen]
    constructor
    · rw [show convertObjectSchemaIteration sch record
          = convertObjectSchemaIteration.go record sch [] from rfl]
      rw [schemaIter_go_error_iff]
      constructor
      · rintro ⟨k, col, v, hmem, h2, h3, h4, h5⟩
        exact ⟨k, col, v, (schemaLookup_mem_iff hs).mp hmem, h2, h3, h4, h5⟩
      · rintro ⟨k, col, v, h1, h2, h3, h4, h5⟩
        exact ⟨k, col, v, schemaLookup_mem h1, h2, h3, h4, h5⟩
    · intro out hout k col v h1 h2 h3 h4 h5
      exact schemaIter_go_presence record sch [] out hout k col v (schemaLookup_mem h1) h2 h3 h4 h5

/-- Concrete instance of the amended error characterization: a record
value of type `float` at a `c-int-str` column errors, while an `int`
value is split into `k_int`. -/
theorem c3_error_iff_witness :
    ([("k", ((⟨"c-int-str", false⟩ : ColumnDict)))].map Prod.fst).Nodup ∧
    ([("k", PyVal.int 5)].map Prod.fst).Nodup ∧
    (((∃ e, convert_object [("k", (⟨"c-int-str", false⟩ : ColumnDict))] [("k", PyVal.int 5)]
        = Except.error e) ↔
      (∃ k col v,
        schemaLookup [("k", (⟨"c-int-str", false⟩ : ColumnDict))] k = some col ∧
        rowLookup [("k", PyVal.int 5)] k = some v ∧
        isNone v = false ∧ is_choice_column_type col.type = true ∧
        strContains col.type (parseTypePy v) = false)) ∧
    (∀ out, convert_object [("k", (⟨"c-int-str", false⟩ : ColumnDict))] [("k", PyVal.int 5)]
        = Except.ok out →
      ∀ k col v,
        schemaLookup [("k", (⟨"c-int-str", false⟩ : ColumnDict))] k = some col →
        rowLookup [("k", PyVal.int 5)] k = some v →
        isNone v = false → is_choice_column_type col.type = true →
        strContains col.type (parseTypePy v) = true →
          rowHasKey out (k ++ "_" ++ parseTypePy v) = true)) :=
  ⟨by decide, by decide,
   c3_error_iff [("k", ⟨"c-int-str", false⟩)] [("k", PyVal.int 5)] (by decide) (by decide)⟩

/-- C8: `parse_type_string` gates on the datetime prefix regex, strips a
trailing `Z`, and classifies as `datetime_tz` exactly when one of the
five accepted formats parses; the six sample strings classify as
`datetime_tz` and the bare date as `str`. -/
theorem c8_parse_type_string :
    (∀ s : String, dtRegexMatch s.data = false → parse_type_string s = "str") ∧
    (∀ s : String, dtRegexMatch s.data = true →
      parse_type_string s =
        (if DATETIME_VALID_FORMATS.any (fun fmt => strptimeOk fmt (stripTrailingZ s.data))
         then "datetime_tz" else "str")) ∧
    parse_type_string ("2017-06-30 22:38:59.051000") = "datetime_tz" ∧
    parse_type_string ("2017-11-12 22:38:59.011Z") = "datetime_tz" ∧
    parse_type_string ("2017-11-12 22:38:59.011-0500") = "datetime_tz" ∧
    parse_type_string ("2017-08-10T17:25:01.324+02:00") = "datetime_tz" ∧
    parse_type_string ("2017-07-09 00:00:00") = "datetime_tz" ∧
    parse_type_string ("2017-07-09T00:00:00") = "datetime_tz" ∧
    parse_type_string ("2017-07-09") = "str" := by
  refine ⟨?_, ?_, by decide, by decide, by decide, by decide, by decide, by decide, by decide⟩
  · intro s h
    simp only [parse_type_string, h, Bool.false_eq_true, if_false]
  · intro s h
    simp only [parse_type_string, h, if_true]

/-- Concrete instances of the two general clauses of the datetime
classifier. -/
theorem c8_parse_type_string_witness :
    dtRegexMatch ("2017-07-09").data = false ∧
    parse_type_string ("2017-07-09") = "str" ∧
    dtRegexMatch ("2017-07-09 00:00:00").data = true ∧
    parse_type_string ("2017-07-09 00:00:00")
      = (if DATETIME_VALID_FORMATS.any
            (fun fmt => strptimeOk fmt (stripTrailingZ ("2017-07-09 00:00:00").data))
         then "datetime_tz" else "str") :=
  ⟨by decide, c8_parse_type_string.1 ("2017-07-09") (by decide), by decide,
   c8_parse_type_string.2.1 ("2017-07-09 00:00:00") (by decide)⟩

/-- Code points of Lean characters stay below `0x110000`. -/
theorem char_toNat_lt (c : Char) : c.toNat < 1114112 := by
  rcases c.valid with h | ⟨h1, h2⟩
  · have h' : c.val.toNat < (55296 : UInt32).toNat := h
    have he : (55296 : UInt32).toNat = 55296 := rfl
    show c.val.toNat < 1114112
    omega
  · have h2' : c.val.toNat < (1114112 : UInt32).toNat := h2
    have he2 : (1114112 : UInt32).toNat = 1114112 := rfl
    show c.val.toNat < 1114112
    omega

/-- Lean characters are scalar values: never UTF-16 surrogates. -/
theorem char_not_surrogate (c : Char) : ¬(55296 ≤ c.toNat ∧ c.toNat ≤ 57343) := by
  rcases c.valid with h | ⟨h1, h2⟩
  · have h' : c.val.toNat < (55296 : UInt32).toNat := h
    have he : (55296 : UInt32).toNat = 55296 := rfl
    show ¬(55296 ≤ c.val.toNat ∧ c.val.toNat ≤ 57343)
    omega
  · have h1' : (57343 : UInt32).toNat < c.val.toNat := h1
    have he1 : (57343 : UInt32).toNat = 57343 := rfl
    show ¬(55296 ≤ c.val.toNat ∧ c.val.toNat ≤ 57343)
    omega

theorem hexVal_hexLower_fin : ∀ d : Fin 16, hexVal (hexLower d.val) = some d.val := by decide

/-- The scanner decodes the digits the serializer emits. -/
theorem hexVal_hexLower (n : Nat) (h : n < 16) : hexVal (hexLower n) = some n :=
  hexVal_hexLower_fin ⟨n, h⟩

theorem char_eq_ofNat {c : Char} {n : Nat} (h : c.toNat = n) : c = Char.ofNat n := by
  rw [← Char.ofNat_toNat c, h]


theorem decodeEsc_quote (L : List Char) : decodeEsc (Char.ofNat 34 :: L) = some (Char.ofNat 34, L) := rfl

theorem decodeEsc_backslash (L : List Char) :
    decodeEsc (Char.ofNat 92 :: L) = some (Char.ofNat 92, L) := rfl

theorem decodeEsc_n (L : List Char) : decodeEsc ('n' :: L) = some (Char.ofNat 10, L) := rfl

theorem decodeEsc_r (L : List Char) : decodeEsc ('r' :: L) = some (Char.ofNat 13, L) := rfl

theorem decodeEsc_t (L : List Char) : decodeEsc ('t' :: L) = some (Char.ofNat 9, L) := rfl

theorem decodeEsc_b (L : List Char) : decodeEsc ('b' :: L) = some (Char.ofNat 8, L) := rfl

theorem decodeEsc_f (L : List Char) : decodeEsc ('f' :: L) = some (Char.ofNat 12, L) := rfl

/-- Unfolding of the escape decoder on a `u` directive with four
explicit digit characters. -/
theorem decodeEsc_u_cons (x1 x2 x3 x4 : Char) (L : List Char) :
    decodeEsc ('u' :: x1 :: x2 :: x3 :: x4 :: L) =
      (match hexVal x1, hexVal x2, hexVal x3, hexVal x4 with
       | some va, some vb, some vc, some vd =>
         let v := va * 4096 + vb * 256 + vc * 16 + vd
         if 55296 ≤ v ∧ v ≤ 56319 then
           (match L with
            | b₁ :: b₂ :: a₂ :: b₃ :: c₃ :: d₂ :: rest₄ =>
              if b₁ = Char.ofNat 92 ∧ b₂ = 'u' then
                (match hexVal a₂, hexVal b₃, hexVal c₃, hexVal d₂ with
                 | some wa, some wb, some wc, some wd =>
                   let w := wa * 4096 + wb * 256 + wc * 16 + wd
                   if 56320 ≤ w ∧ w ≤ 57343 then
                     some (Char.ofNat (65536 + (v - 55296) * 1024 + (w - 56320)), rest₄)
                   else Option.none
                 | _, _, _, _ => Option.none)
              else Option.none
            | _ => Option.none)
         else if 56320 ≤ v ∧ v ≤ 57343 then Option.none
         else some (Char.ofNat v, L)
       | _, _, _, _ => Option.none) := rfl

/-- Decoding a `\\uXXXX` escape of a BMP scalar value. -/
theorem decodeEsc_u (n : Nat) (h : n < 65536) (hns : ¬(55296 ≤ n ∧ n ≤ 57343)) (L : List Char) :
    decodeEsc ('u' :: (hex4 n ++ L)) = some (Char.ofNat n, L) := by
  have hd1 := hexVal_hexLower (n / 4096 % 16) (Nat.mod_lt _ (by norm_num))
  have hd2 := hexVal_hexLower (n / 256 % 16) (Nat.mod_lt _ (by norm_num))
  have hd3 := hexVal_hexLower (n / 16 % 16) (Nat.mod_lt _ (by norm_num))
  have hd4 := hexVal_hexLower (n % 16) (Nat.mod_lt _ (by norm_num))
  rw [show hex4 n ++ L = hexLower (n / 4096 % 16) :: hexLower (n / 256 % 16) ::
      hexLower (n / 16 % 16) :: hexLower (n % 16) :: L from rfl]
  rw [decodeEsc_u_cons, hd1, hd2, hd3, hd4]
  simp only []
  have hvv : n / 4096 % 16 * 4096 + n / 256 % 16 * 256 + n / 16 % 16 * 16 + n % 16 = n := by
    omega
  rw [hvv]
  rw [if_neg (fun hh => hns ⟨hh.1, le_trans hh.2 (by norm_num)⟩)]
  rw [if_neg (fun hh => hns ⟨le_trans (by norm_num) hh.1, hh.2⟩)]

/-- Decoding a surrogate-pair escape, stated over the two transmitted
code units. -/
theorem decodeEsc_pair_gen (v w : Nat) (hv1 : 55296 ≤ v) (hv2 : v ≤ 56319)
    (hw1 : 56320 ≤ w) (hw2 : w ≤ 57343) (L : List Char) :
    decodeEsc ('u' :: (hex4 v ++ (Char.ofNat 92 :: 'u' :: hex4 w) ++ L))
      = some (Char.ofNat (65536 + (v - 55296) * 1024 + (w - 56320)), L) := by
  have hd1 := hexVal_hexLower (v / 4096 % 16) (Nat.mod_lt _ (by norm_num))
  have hd2 := hexVal_hexLower (v / 256 % 16) (Nat.mod_lt _ (by norm_num))
  have hd3 := hexVal_hexLower (v / 16 % 16) (Nat.mod_lt _ (by norm_num))
  have hd4 := hexVal_hexLower (v % 16) (Nat.mod_lt _ (by norm_num))
  have he1 := hexVal_hexLower (w / 4096 % 16) (Nat.mod_lt _ (by norm_num))
  have he2 := hexVal_hexLower (w / 256 % 16) (Nat.mod_lt _ (by norm_num))
  have he3 := hexVal_hexLower (w / 16 % 16) (Nat.mod_lt _ (by norm_num))
  have he4 := hexVal_hexLower (w % 16) (Nat.mod_lt _ (by norm_num))
  rw [show hex4 v ++ (Char.ofNat 92 :: 'u' :: hex4 w) ++ L
      = hexLower (v / 4096 % 16) :: hexLower (v / 256 % 16) :: hexLower (v / 16 % 16) ::
        hexLower (v % 16) :: (Char.ofNat 92 :: 'u' :: hexLower (w / 4096 % 16) ::
        hexLower (w / 256 % 16) :: hexLower (w / 16 % 16) :: hexLower (w % 16) :: L) from by
    simp [hex4, List.cons_append, List.append_assoc]]
  rw [decodeEsc_u_cons, hd1, hd2, hd3, hd4]
  simp only []
  have hvv : v / 4096 % 16 * 4096 + v / 256 % 16 * 256 + v / 16 % 16 * 16 + v % 16 = v := by
    omega
  have hww : w / 4096 % 16 * 4096 + w / 256 % 16 * 256 + w / 16 % 16 * 16 + w % 16 = w := by
    omega
  rw [hvv]
  rw [if_pos (show 55296 ≤ v ∧ v ≤ 56319 from ⟨hv1, hv2⟩)]
  rw [if_pos (show True ∧ True from ⟨trivial, trivial⟩)]
  rw [he1, he2, he3, he4]
  simp only []
  rw [hww]
  rw [if_pos (show 56320 ≤ w ∧ w ≤ 57343 from ⟨hw1, hw2⟩)]

/-- Decoding a surrogate-pair escape of a supplementary-plane scalar
value. -/
theorem decodeEsc_pair (n : Nat) (h1 : 65536 ≤ n) (h2 : n < 1114112) (L : List Char) :
    decodeEsc ('u' :: (hex4 (55296 + (n - 65536) / 1024) ++
        (Char.ofNat 92 :: 'u' :: hex4 (56320 + (n - 65536) % 1024)) ++ L))
      = some (Char.ofNat n, L) := by
  have hmod := Nat.mod_lt (n - 65536) (show 0 < 1024 by norm_num)
  have hdivlt : (n - 65536) / 1024 < 1024 := by omega
  have hgen := decodeEsc_pair_gen (55296 + (n - 65536) / 1024) (56320 + (n - 65536) % 1024)
    (by omega) (by omega) (by omega) (by omega) L
  rw [show 65536 + (55296 + (n - 65536) / 1024 - 55296) * 1024 +
      (56320 + (n - 65536) % 1024 - 56320) = n from by omega] at hgen
  exact hgen

/-- The strict-mode string scanner inverts `json.dumps` escaping: the
escaped body followed by the closing quote parses back to the original
characters (with any fuel beyond the escaped-body length). -/
theorem parseStrBodyFuel_escape : ∀ (cs : List Char) (fuel : Nat) (rest : List Char),
    (cs.map escChar).flatten.length < fuel →
    parseStrBodyFuel fuel ((cs.map escChar).flatten ++ Char.ofNat 34 :: rest)
      = some (cs, rest) := by
  intro cs
  induction cs with
  | nil =>
    intro fuel rest hf
    obtain ⟨f, rfl⟩ : ∃ f, fuel = f + 1 := ⟨fuel - 1, by omega⟩
    rw [show (([] : List Char).map escChar).flatten ++ Char.ofNat 34 :: rest
        = Char.ofNat 34 :: rest from rfl]
    rw [parseStrBodyFuel, if_pos rfl]
  | cons c cs ih =>
    intro fuel rest hf
    obtain ⟨f, rfl⟩ : ∃ f, fuel = f + 1 := ⟨fuel - 1, by omega⟩
    rw [List.map_cons, List.flatten_cons, List.append_assoc]
    simp only [List.map_cons, List.flatten_cons, List.length_append] at hf
    by_cases h34 : c = Char.ofNat 34
    · subst h34
      have hfl : (cs.map escChar).flatten.length < f := by
        rw [show (escChar (Char.ofNat 34)).length = 2 from rfl] at hf
        omega
      rw [show escChar (Char.ofNat 34) = [Char.ofNat 92, Char.ofNat 34] from rfl]
      rw [List.cons_append, List.cons_append, List.nil_append]
      rw [parseStrBodyFuel, if_neg (by decide), if_pos rfl]
      rw [decodeEsc_quote]
      simp only []
      rw [ih f rest hfl]
      rfl
    · by_cases h92 : c = Char.ofNat 92
      · subst h92
        have hfl : (cs.map escChar).flatten.length < f := by
          rw [show (escChar (Char.ofNat 92)).length = 2 from rfl] at hf
          omega
        rw [show escChar (Char.ofNat 92) = [Char.ofNat 92, Char.ofNat 92] from rfl]
        rw [List.cons_append, List.cons_append, List.nil_append]
        rw [parseStrBodyFuel, if_neg (by decide), if_pos rfl]
        rw [decodeEsc_backslash]
        simp only []
        rw [ih f rest hfl]
        rfl
      · by_cases h10 : c.toNat = 10
        · rw [char_eq_ofNat h10] at hf ⊢
          have hfl : (cs.map escChar).flatten.length < f := by
            rw [show (escChar (Char.ofNat 10)).length = 2 from rfl] at hf
            omega
          rw [show escChar (Char.ofNat 10) = [Char.ofNat 92, 'n'] from rfl]
          rw [List.cons_append, List.cons_append, List.nil_append]
          rw [parseStrBodyFuel, if_neg (by decide), if_pos rfl]
          rw [decodeEsc_n]
          simp only []
          rw [ih f rest hfl]
          rfl
        · by_cases h13 : c.toNat = 13
          · rw [char_eq_ofNat h13] at hf ⊢
            have hfl : (cs.map escChar).flatten.length < f := by
              rw [show (escChar (Char.ofNat 13)).length = 2 from rfl] at hf
              omega
            rw [show escChar (Char.ofNat 13) = [Char.ofNat 92, 'r'] from rfl]
            rw [List.cons_append, List.cons_append, List.nil_append]
            rw [parseStrBodyFuel, if_neg (by decide), if_pos rfl]
            rw [decodeEsc_r]
            simp only []
            rw [ih f rest hfl]
            rfl
          · by_cases h9 : c.toNat = 9
            · rw [char_eq_ofNat h9] at hf ⊢
              have hfl : (cs.map escChar).flatten.length < f := by
                rw [show (escChar (Char.ofNat 9)).length = 2 from rfl] at hf
                omega
              rw [show escChar (Char.ofNat 9) = [Char.ofNat 92, 't'] from rfl]
              rw [List.cons_append, List.cons_append, List.nil_append]
              rw [parseStrBodyFuel, if_neg (by decide), if_pos rfl]
              rw [decodeEsc_t]
              simp only []
              rw [ih f rest hfl]
              rfl
            · by_cases h8 : c.toNat = 8
              · rw [char_eq_ofNat h8] at hf ⊢
                have hfl : (cs.map escChar).flatten.length < f := by
                  rw [show (escChar (Char.ofNat 8)).length = 2 from rfl] at hf
                  omega
                rw [show escChar (Char.ofNat 8) = [Char.ofNat 92, 'b'] from rfl]
                rw [List.cons_append, List.cons_append, List.nil_append]
                rw [parseStrBodyFuel, if_neg (by decide), if_pos rfl]
                rw [decodeEsc_b]
                simp only []
                rw [ih f rest hfl]
                rfl
              · by_cases h12 : c.toNat = 12
                · rw [char_eq_ofNat h12] at hf ⊢
                  have hfl : (cs.map escChar).flatten.length < f := by
                    rw [show (escChar (Char.ofNat 12)).length = 2 from rfl] at hf
                    omega
                  rw [show escChar (Char.ofNat 12) = [Char.ofNat 92, 'f'] from rfl]
                  rw [List.cons_append, List.cons_append, List.nil_append]
                  rw [parseStrBodyFuel, if_neg (by decide), if_pos rfl]
                  rw [decodeEsc_f]
                  simp only []
                  rw [ih f rest hfl]
                  rfl
                · by_cases hout : c.toNat < 32 ∨ c.toNat > 126
                  · by_cases hlt : c.toNat < 65536
                    · have hesc : escChar c = Char.ofNat 92 :: 'u' :: hex4 c.toNat := by
                        rw [escChar, if_neg h34, if_neg h92, if_neg h10, if_neg h13, if_neg h9,
                          if_neg h8, if_neg h12, if_pos hout, if_pos hlt]
                      have hfl : (cs.map escChar).flatten.length < f := by
                        rw [hesc] at hf
                        rw [show (Char.ofNat 92 :: 'u' :: hex4 c.toNat).length = 6 from rfl] at hf
                        omega
                      rw [hesc, List.cons_append, List.cons_append]
                      rw [parseStrBodyFuel, if_neg (by decide), if_pos rfl]
                      rw [decodeEsc_u c.toNat hlt (char_not_surrogate c)]
                      simp only []
                      rw [ih f rest hfl]
                      rw [Char.ofNat_toNat]
                      rfl
                    · have hge : 65536 ≤ c.toNat := by omega
                      have hesc : escChar c =
                          (Char.ofNat 92 :: 'u' :: hex4 (55296 + (c.toNat - 65536) / 1024)) ++
                          (Char.ofNat 92 :: 'u' :: hex4 (56320 + (c.toNat - 65536) % 1024)) := by
                        rw [escChar, if_neg h34, if_neg h92, if_neg h10, if_neg h13, if_neg h9,
                          if_neg h8, if_neg h12, if_pos hout, if_neg hlt]
                      have hfl : (cs.map escChar).flatten.length < f := by
                        rw [hesc] at hf
                        rw [show ((Char.ofNat 92 :: 'u' :: hex4 (55296 + (c.toNat - 65536) / 1024)) ++
                            (Char.ofNat 92 :: 'u' :: hex4 (56320 + (c.toNat - 65536) % 1024))).length
                            = 12 from rfl] at hf
                        omega
                      rw [hesc, List.cons_append, List.cons_append, List.cons_append,
                        List.cons_append]
                      rw [parseStrBodyFuel, if_neg (by decide), if_pos rfl]
                      rw [show (hex4 (55296 + (c.toNat - 65536) / 1024) ++
                            Char.ofNat 92 :: 'u' :: hex4 (56320 + (c.toNat - 65536) % 1024)) ++
                            ((cs.map escChar).flatten ++ Char.ofNat 34 :: rest)
                          = hex4 (55296 + (c.toNat - 65536) / 1024) ++
                            (Char.ofNat 92 :: 'u' :: hex4 (56320 + (c.toNat - 65536) % 1024)) ++
                            ((cs.map escChar).flatten ++ Char.ofNat 34 :: rest) from rfl]
                      rw [decodeEsc_pair c.toNat hge (char_toNat_lt c)]
                      simp only []
                      rw [ih f rest hfl]
                      rw [Char.ofNat_toNat]
                      rfl
                  · have hesc : escChar c = [c] := by
                      rw [escChar, if_neg h34, if_neg h92, if_neg h10, if_neg h13, if_neg h9,
                        if_neg h8, if_neg h12, if_neg hout]
                    have hfl : (cs.map escChar).flatten.length < f := by
                      rw [hesc] at hf
                      rw [show ([c] : List Char).length = 1 from rfl] at hf
                      omega
                    have h32 : ¬(c.toNat < 32) := fun hh => hout (Or.inl hh)
                    rw [hesc, List.cons_append, List.nil_append]
                    rw [parseStrBodyFuel, if_neg h34, if_neg h92, if_neg h32]
                    rw [ih f rest hfl]
                    rfl

/-- Wrapper form of the scanner round trip: the input length always
provides enough fuel. -/
theorem parseStrBody_escape (cs rest : List Char) :
    parseStrBody ((cs.map escChar).flatten ++ Char.ofNat 34 :: rest) = some (cs, rest) := by
  apply parseStrBodyFuel_escape
  rw [List.length_append]
  simp

/-- A `json.dumps`-rendered string parses back to itself. -/
theorem parseJStr_jstr (s : String) (rest : List Char) :
    parseJStr ((jstr s).data ++ rest) = some (s, rest) := by
  rw [show (jstr s).data = Char.ofNat 34 :: ((s.data.map escChar).flatten ++ [Char.ofNat 34])
      from rfl]
  rw [List.cons_append, List.append_assoc]
  rw [parseJStr, if_pos rfl]
  rw [show ([Char.ofNat 34] : List Char) ++ rest = Char.ofNat 34 :: rest from rfl]
  rw [parseStrBody_escape]
  rfl

/-- Consuming a literal prefix succeeds and returns the remainder. -/
theorem expectLit_pre : ∀ (ls rest : List Char), expectLit ls (ls ++ rest) = some rest := by
  intro ls
  induction ls with
  | nil => intro rest; rfl
  | cons l ls ih =>
    intro rest
    rw [List.cons_append, expectLit, if_pos rfl, ih]

/-- A serialized schema entry parses back to the original key and
`ColumnDict`. -/
theorem parseEntry_serializeEntry (k : String) (col : ColumnDict) (rest : List Char) :
    parseEntry ((serializeEntry k col).data ++ rest) = some ((k, col), rest) := by
  obtain ⟨t, b⟩ := col
  cases b
  · have hdata : (serializeEntry k ⟨t, false⟩).data ++ rest
        = (jstr k).data ++ ((':' :: ' ' :: [Char.ofNat 123]) ++ ((jstr ("type")).data ++
          (([':', ' ']) ++ ((jstr t).data ++ (([',', ' ']) ++ ((jstr ("is_primary")).data ++
          (([':', ' ']) ++ ('f' :: 'a' :: 'l' :: 's' :: 'e' :: ([Char.ofNat 125] ++ rest))))))))) := by
      simp only [serializeEntry, String.data_append, List.append_assoc]
      rw [show (obrace).data = [Char.ofNat 123] from rfl]
      rw [show (cbrace).data = [Char.ofNat 125] from rfl]
      rw [show (if false = true then ("true" : String) else "false") = "false" from rfl]
      rw [show (("false") : String).data = ['f', 'a', 'l', 's', 'e'] from rfl]
      simp only [List.cons_append, List.nil_append, List.append_assoc]
    rw [hdata]
    rw [parseEntry]
    rw [parseJStr_jstr]
    simp only []
    rw [expectLit_pre]
    simp only []
    rw [parseJStr_jstr]
    simp only []
    rw [if_pos trivial]
    rw [expectLit_pre]
    simp only []
    rw [parseJStr_jstr]
    simp only []
    rw [expectLit_pre]
    simp only []
    rw [parseJStr_jstr]
    simp only []
    rw [if_pos trivial]
    rw [expectLit_pre]
    simp only []
    rw [expectLit_pre]
    rfl
  · have hdata : (serializeEntry k ⟨t, true⟩).data ++ rest
        = (jstr k).data ++ ((':' :: ' ' :: [Char.ofNat 123]) ++ ((jstr ("type")).data ++
          (([':', ' ']) ++ ((jstr t).data ++ (([',', ' ']) ++ ((jstr ("is_primary")).data ++
          (([':', ' ']) ++ ('t' :: 'r' :: 'u' :: 'e' :: ([Char.ofNat 125] ++ rest))))))))) := by
      simp only [serializeEntry, String.data_append, List.append_assoc]
      rw [show (obrace).data = [Char.ofNat 123] from rfl]
      rw [show (cbrace).data = [Char.ofNat 125] from rfl]
      simp only [List.cons_append, List.nil_append, List.append_assoc]
      rw [show ((if True then ("true" : String) else "false")).data = ['t', 'r', 'u', 'e']
        from rfl]
      simp only [List.cons_append, List.nil_append]
    rw [hdata]
    rw [parseEntry]
    rw [parseJStr_jstr]
    simp only []
    rw [expectLit_pre]
    simp only []
    rw [parseJStr_jstr]
    simp only []
    rw [if_pos trivial]
    rw [expectLit_pre]
    simp only []
    rw [parseJStr_jstr]
    simp only []
    rw [expectLit_pre]
    simp only []
    rw [parseJStr_jstr]
    simp only []
    rw [if_pos trivial]
    rw [expectLit_pre]
    simp only []
    rw [expectLit_pre]
    rfl

theorem intercalate_go_cons (acc s a : String) (as : List String) :
    String.intercalate.go acc s (a :: as) = String.intercalate.go (acc ++ s ++ a) s as := rfl

/-- The accumulator of `String.intercalate.go` factors out on the
left. -/
theorem intercalate_go_acc : ∀ (as : List String) (acc₁ acc₂ s : String),
    String.intercalate.go (acc₁ ++ acc₂) s as = acc₁ ++ String.intercalate.go acc₂ s as := by
  intro as
  induction as with
  | nil => intro acc₁ acc₂ s; rfl
  | cons a as ih =>
    intro acc₁ acc₂ s
    rw [intercalate_go_cons, intercalate_go_cons]
    rw [String.append_assoc, String.append_assoc]
    rw [ih acc₁ (acc₂ ++ (s ++ a)) s]
    rw [String.append_assoc]

/-- `intercalate` on a two-or-more-element list peels its head. -/
theorem intercalate_cons₂ (s a b : String) (l : List String) :
    String.intercalate s (a :: b :: l) = a ++ s ++ String.intercalate s (b :: l) := by
  show String.intercalate.go a s (b :: l) = a ++ s ++ String.intercalate.go b s l
  rw [intercalate_go_cons]
  rw [show (a ++ s ++ b : String) = (a ++ s) ++ b from rfl]
  rw [intercalate_go_acc l (a ++ s) b s]

/-- A serialized schema entry begins with a double quote. -/
theorem serializeEntry_head (k : String) (col : ColumnDict) :
    ∃ tl, (serializeEntry k col).data = Char.ofNat 34 :: tl := by
  simp only [serializeEntry, String.data_append]
  rw [show (jstr k).data = Char.ofNat 34 :: ((k.data.map escChar).flatten ++ [Char.ofNat 34])
    from rfl]
  simp only [List.cons_append]
  exact ⟨_, rfl⟩

/-- The serialized entry list begins with a double quote. -/
theorem intercalate_serialized_head (k : String) (col : ColumnDict) (more : SchemaMap) :
    ∃ tl, (String.intercalate ((", "))
        (((k, col) :: more).map (fun p => serializeEntry p.1 p.2))).data
      = Char.ofNat 34 :: tl := by
  obtain ⟨tl, htl⟩ := serializeEntry_head k col
  match more with
  | [] =>
    rw [List.map_cons, List.map_nil]
    rw [show String.intercalate ((", ")) [serializeEntry k col] = serializeEntry k col from rfl]
    exact ⟨tl, htl⟩
  | q :: more' =>
    rw [List.map_cons, List.map_cons, intercalate_cons₂, String.data_append, String.data_append,
      htl, List.cons_append, List.cons_append]
    exact ⟨_, rfl⟩

/-- The serialized entry list is at least as long (in characters, plus
the closing brace) as the schema has entries. -/
theorem intercalate_serialized_length : ∀ (sch : SchemaMap), sch ≠ [] →
    sch.length ≤ (String.intercalate ((", "))
      (sch.map (fun p => serializeEntry p.1 p.2))).data.length + 1 := by
  intro sch
  induction sch with
  | nil => intro h; exact absurd rfl h
  | cons p more ih =>
    intro _
    obtain ⟨k, col⟩ := p
    match more with
    | [] => simp
    | q :: more' =>
      rw [List.map_cons, List.map_cons, intercalate_cons₂, String.data_append, String.data_append]
      have hih := ih (by simp)
      rw [List.map_cons] at hih
      simp only [List.length_cons, List.length_append, List.length_nil] at hih ⊢
      omega

/-- The entries loop parses the serialized, comma-separated entry list
up to the closing brace. -/
theorem parseEntriesFuel_serialized : ∀ (sch : SchemaMap) (fuel : Nat) (rest : List Char),
    sch ≠ [] → sch.length ≤ fuel →
    parseEntriesFuel fuel
        ((String.intercalate ((", ")) (sch.map (fun p => serializeEntry p.1 p.2))).data
          ++ Char.ofNat 125 :: rest)
      = some (sch, rest) := by
  intro sch
  induction sch with
  | nil => intro fuel rest h; exact absurd rfl h
  | cons p more ih =>
    intro fuel rest _ hlen
    obtain ⟨f, rfl⟩ : ∃ f, fuel = f + 1 :=
      ⟨fuel - 1, by simp only [List.length_cons] at hlen; omega⟩
    obtain ⟨k, col⟩ := p
    match more with
    | [] =>
      rw [List.map_cons, List.map_nil]
      rw [show String.intercalate ((", ")) [serializeEntry k col] = serializeEntry k col from rfl]
      rw [parseEntriesFuel]
      rw [parseEntry_serializeEntry]
      simp only []
      rw [if_pos trivial]
    | q :: more' =>
      rw [List.map_cons, List.map_cons, intercalate_cons₂, String.data_append, String.data_append]
      rw [show (((", ") : String)).data = [',', ' '] from rfl]
      rw [List.append_assoc, List.append_assoc]
      rw [show ([',', ' '] : List Char) ++
          ((String.intercalate ((", ")) (serializeEntry q.1 q.2 :: more'.map
            (fun p => serializeEntry p.1 p.2))).data ++ Char.ofNat 125 :: rest)
          = ',' :: ' ' :: ((String.intercalate ((", ")) (serializeEntry q.1 q.2 :: more'.map
            (fun p => serializeEntry p.1 p.2))).data ++ Char.ofNat 125 :: rest) from rfl]
      rw [parseEntriesFuel]
      rw [parseEntry_serializeEntry]
      simp only []
      rw [if_neg (by decide), if_pos trivial]
      have hih := ih f rest (by simp) (by
        simp only [List.length_cons] at hlen ⊢
        omega)
      rw [List.map_cons] at hih
      rw [hih]
      rfl

/-- The duplicate-key fold of `json.loads` is the identity on
duplicate-free key lists (general accumulator form). -/
theorem dictFromPairs_fold : ∀ (l acc : List (String × ColumnDict)),
    ((acc ++ l).map Prod.fst).Nodup →
    l.foldl
      (fun acc p =>
        if acc.any (fun q => q.1 == p.1) then
          acc.map (fun q => if q.1 == p.1 then (q.1, p.2) else q)
        else acc ++ [p])
      acc = acc ++ l := by
  intro l
  induction l with
  | nil => intro acc _; simp
  | cons p rest ih =>
    intro acc hnd
    rw [List.foldl_cons]
    have hnot : acc.any (fun q => q.1 == p.1) = false := by
      rw [List.any_eq_false]
      intro q hq
      rw [List.map_append] at hnd
      have hdisj := (List.nodup_append.mp hnd).2.2
      intro hbe
      exact hdisj (List.mem_map.mpr ⟨q, hq, rfl⟩)
        (by rw [show q.1 = p.1 from by simpa using hbe]; exact List.mem_map.mpr ⟨p, by simp, rfl⟩)
    rw [hnot]
    rw [if_neg (by simp)]
    rw [ih (acc ++ [p]) (by
      rw [List.append_assoc]
      simpa using hnd)]
    simp

/-- `json.loads` rebuilds exactly the original mapping when the keys
are distinct. -/
theorem dictFromPairs_nodup (l : List (String × ColumnDict))
    (h : (l.map Prod.fst).Nodup) : dictFromPairs l = l := by
  have hfold := dictFromPairs_fold l [] (by simpa using h)
  rw [dictFromPairs]
  rw [hfold]
  simp

/-- C9: deserializing the serialization of a schema returns the schema
unchanged — the `field -> (type, is_primary)` mapping round-trips
through the emitted JSON text, preserving entry order (Python dict keys
are unique, modelled by the duplicate-free key hypothesis). -/
theorem c9_roundtrip (sch : SchemaMap) (h : (sch.map Prod.fst).Nodup) :
    deserialize (serialize sch) = some sch := by
  cases sch with
  | nil => rfl
  | cons p more =>
    obtain ⟨k, col⟩ := p
    have hdata : (serialize ((k, col) :: more)).data
        = Char.ofNat 123 :: ((String.intercalate ((", "))
            (((k, col) :: more).map (fun p => serializeEntry p.1 p.2))).data
          ++ [Char.ofNat 125]) := by
      simp only [serialize, String.data_append]
      rw [show (obrace).data = [Char.ofNat 123] from rfl]
      rw [show (cbrace).data = [Char.ofNat 125] from rfl]
      simp only [List.cons_append, List.nil_append, List.append_assoc]
    rw [deserialize]
    rw [hdata]
    obtain ⟨tl, htl⟩ := intercalate_serialized_head k col more
    rw [htl, List.cons_append]
    rw [parseSchemaTop]
    rw [if_pos rfl, if_neg (by decide)]
    rw [show (Char.ofNat 34 :: (tl ++ [Char.ofNat 125]) : List Char)
        = (Char.ofNat 34 :: tl) ++ Char.ofNat 125 :: [] from by simp]
    rw [← htl]
    rw [parseEntriesFuel_serialized ((k, col) :: more) _ [] (by simp) (by
      rw [List.length_append]
      have := intercalate_serialized_length ((k, col) :: more) (by simp)
      simp only [List.length_cons] at this ⊢
      omega)]
    simp only []
    rw [dictFromPairs_nodup _ h]

/-- Concrete instance of the serialization round trip on a two-field
schema with a choice type and a primary key. -/
theorem c9_roundtrip_witness :
    (([("a", (⟨"int", false⟩ : ColumnDict)), ("b", ⟨"c-float-str", true⟩)]).map Prod.fst).Nodup ∧
    deserialize (serialize [("a", (⟨"int", false⟩ : ColumnDict)), ("b", ⟨"c-float-str", true⟩)])
      = some [("a", ⟨"int", false⟩), ("b", ⟨"c-float-str", true⟩)] :=
  ⟨by decide,
   c9_roundtrip [("a", ⟨"int", false⟩), ("b", ⟨"c-float-str", true⟩)] (by decide)⟩
